import Mathlib

/-!
# RetroArch `file_path.c`: string lists, directory scans and path rules

A shallow embedding of `file_path.c` and theorems about it.

Conventions of the embedding.

* A C string is the list of its characters before the terminating NUL.
* A `char *` into a string is an index into that list.
* The element array of a `string_list` is a list of slots; a slot that was
  allocated but never written is `none`.
* Every `malloc`-family call consumes one entry of a `Heap`, the list of the
  outcomes of the coming allocation requests (`true` = the request succeeds);
  once the list is used up every request succeeds.
* A function that can stop the process (`rarch_assert`) or touch memory it
  must not touch returns in `Run`, i.e. `Except Fault`.
* `size_t` values are natural numbers: every count in this file is bounded by
  the number of bytes of live memory, which is far below `SIZE_MAX`.
-/

namespace FilePath

/-! ## Data model -/

/-- Reasons for a run to stop without returning to its caller. -/
inductive Fault where
  /-- A `rarch_assert` condition was false: the process exits. -/
  | assertion
  /-- An element slot was read before it was written, or an access fell
  outside the allocated element array. -/
  | undefined
  /-- The iteration bound of a modelled `while` loop was used up. -/
  | exhausted
  deriving DecidableEq, Repr

/-- Outcome of a run: a fault or a returned value. -/
abbrev Run (α : Type) := Except Fault α

instance {ε α : Type} [DecidableEq ε] [DecidableEq α] : DecidableEq (Except ε α)
  | .ok a, .ok b => if h : a = b then isTrue (by rw [h]) else isFalse (by simpa using h)
  | .error a, .error b => if h : a = b then isTrue (by rw [h]) else isFalse (by simpa using h)
  | .ok _, .error _ => isFalse (by simp)
  | .error _, .ok _ => isFalse (by simp)

/-- Outcomes of the coming allocation requests, oldest first. -/
abbrev Heap := List Bool

/-- One allocation request: its outcome and the remaining heap script. -/
def alloc : Heap → Bool × Heap
  | [] => (true, [])
  | b :: rest => (b, rest)

/-- Modelled from the spec: `union string_list_elem_attr` is declared in
`file.h`, which is not among the sources. The spec describes it as a small
tagged payload of which this core only uses the boolean is-directory flag, so
the model keeps the member `b`; the zeroed union has `b = false`. -/
structure string_list_elem_attr where
  b : Bool
  deriving DecidableEq, Repr

/-- Modelled from the spec: `struct string_list_elem` (declared in `file.h`),
an owned string `data` and its attribute `attr`. -/
structure string_list_elem where
  data : List Char
  attr : string_list_elem_attr
  deriving DecidableEq, Repr

/-- Modelled from the spec: `struct string_list` (declared in `file.h`): the
element array `elems`, the count in use `size` and the allocated slot count
`cap`. The length of `elems` is the number of slots the last `realloc`
really provided. -/
structure string_list where
  elems : List (Option string_list_elem)
  size : Nat
  cap : Nat
  deriving DecidableEq, Repr

/-- The attribute produced by `memset(&attr, 0, sizeof(attr))`. -/
def attr_zero : string_list_elem_attr := ⟨false⟩

/-! ## StringList -/

/-- `realloc(elems, n * sizeof(*elems))`: on success a block of `n` slots that
keeps the old contents up to the smaller of the two sizes; `none` is `NULL`. -/
def realloc (old : List (Option string_list_elem)) (n : Nat) (h : Heap) :
    Option (List (Option string_list_elem)) × Heap :=
  match alloc h with
  | (true, h1) => (some (old.take n ++ List.replicate (n - old.length) none), h1)
  | (false, h1) => (none, h1)

/-- `string_list_capacity(list, cap)`: asserts `cap > list->size`, then
reallocates; returns the `bool` result and the list as left in memory. -/
def string_list_capacity (list : string_list) (cap : Nat) (h : Heap) :
    Run (Bool × string_list × Heap) :=
  if cap > list.size then
    match realloc list.elems cap h with
    | (none, h1) => .ok (false, list, h1)
    | (some new_data, h1) => .ok (true, { list with elems := new_data, cap := cap }, h1)
  else .error .assertion

/-- `string_list_new()`: `calloc` of the header, then capacity 32. `none` is
the `NULL` result. -/
def string_list_new (h : Heap) : Run (Option string_list × Heap) :=
  match alloc h with
  | (false, h1) => .ok (none, h1)
  | (true, h1) =>
    match string_list_capacity ⟨[], 0, 0⟩ 32 h1 with
    | .error f => .error f
    | .ok (false, _, h2) => .ok (none, h2)
    | .ok (true, list, h2) => .ok (some list, h2)

/-- The store `list->elems[list->size] = {dup, attr}; list->size++`. A store
outside the allocated slots is a fault. -/
def string_list_store (list : string_list) (dup : List Char) (attr : string_list_elem_attr) :
    Run string_list :=
  if list.size < list.elems.length then
    .ok { list with elems := list.elems.set list.size (some ⟨dup, attr⟩), size := list.size + 1 }
  else .error .undefined

/-- `string_list_append(list, elem, attr)`: grows when full, duplicates the
string, stores it. Returns the `bool` result and the list as left in memory. -/
def string_list_append (list : string_list) (elem : List Char) (attr : string_list_elem_attr)
    (h : Heap) : Run (Bool × string_list × Heap) :=
  match (if list.size ≥ list.cap then string_list_capacity list (list.cap * 2) h
         else .ok (true, list, h)) with
  | .error f => .error f
  | .ok (false, list1, h1) => .ok (false, list1, h1)
  | .ok (true, list1, h1) =>
    match alloc h1 with
    | (false, h2) => .ok (false, list1, h2)
    | (true, h2) =>
      match string_list_store list1 elem attr with
      | .error f => .error f
      | .ok list2 => .ok (true, list2, h2)

/-- Client loop `for each item: if (!string_list_append(list, item)) stop`:
appends the items in order and stops at the first failure. -/
def string_list_append_all (list : string_list) :
    List (List Char × string_list_elem_attr) → Heap → Run (Bool × string_list × Heap)
  | [], h => .ok (true, list, h)
  | (s, a) :: rest, h =>
    match string_list_append list s a h with
    | .error f => .error f
    | .ok (false, list1, h1) => .ok (false, list1, h1)
    | .ok (true, list1, h1) => string_list_append_all list1 rest h1

/-- The elements in use: slots `0 .. size-1`. -/
def string_list.used (list : string_list) : List (Option string_list_elem) :=
  list.elems.take list.size

/-- Lists a program can hold: produced by `string_list_new` and then by any
number of `string_list_append` calls, whatever their result. -/
inductive Reachable : string_list → Prop
  | fresh (h h1 : Heap) (l : string_list) :
      string_list_new h = .ok (some l, h1) → Reachable l
  | step (l l1 : string_list) (e : List Char) (a : string_list_elem_attr) (h h1 : Heap)
      (r : Bool) : Reachable l → string_list_append l e a h = .ok (r, l1, h1) → Reachable l1

/-- Well-formedness of a list in memory: `cap` slots are allocated, `size` of
them are in use, and every slot in use has been written. -/
structure WF (l : string_list) : Prop where
  len : l.elems.length = l.cap
  le : l.size ≤ l.cap
  pos : 0 < l.cap
  init : ∀ i, i < l.size → ∃ e, l.elems[i]? = some (some e)

/-- A heap script on which no allocation fails. -/
def NoFail (h : Heap) : Prop := ∀ b ∈ h, b = true

instance (h : Heap) : Decidable (NoFail h) := by unfold NoFail; infer_instance

/-- The read `list->elems[i]`: a fault when the slot is outside the array or
was never written. -/
def string_list_read (list : string_list) (i : Nat) : Run string_list_elem :=
  match list.elems[i]? with
  | some (some e) => .ok e
  | _ => .error .undefined

/-! ### C library string functions -/

/-- `strcmp(a, b)`. The C standard fixes only the sign of the result, which
is what the model returns (`-1`, `0` or `1`): the order of the first pair of
differing characters, compared as unsigned values, where the terminator of
the shorter string compares below every character. -/
def strcmp : List Char → List Char → Int
  | [], [] => 0
  | [], _ :: _ => -1
  | _ :: _, [] => 1
  | a :: as, b :: bs =>
    if a = b then strcmp as bs else if a.toNat < b.toNat then -1 else 1

/-- `tolower(c)` in the C locale. -/
def tolower (c : Char) : Char := c.toLower

/-- `strcasecmp(a, b)`: `strcmp` on the lower-cased characters. -/
def strcasecmp : List Char → List Char → Int
  | [], [] => 0
  | [], _ :: _ => -1
  | _ :: _, [] => 1
  | a :: as, b :: bs =>
    if tolower a = tolower b then strcasecmp as bs
    else if (tolower a).toNat < (tolower b).toNat then -1 else 1

/-- `strrchr(s, c)` for `c` other than NUL: the index of the last occurrence
of `c` in `s`, `none` (the null pointer) when there is none. -/
def strrchr : List Char → Char → Option Nat
  | [], _ => none
  | x :: xs, c =>
    match strrchr xs c with
    | some i => some (i + 1)
    | none => if x = c then some 0 else none

/-- `snprintf(buf, n, "%s%s", a, b)` and its variants with a literal between
the two strings: the buffer receives at most `n - 1` characters of the
formatted text. -/
def snprintf (n : Nat) (text : List Char) : List Char := text.take (n - 1)

/-- `strtok_r(s, delim, &save)` on the not yet consumed text `s`: skips leading
delimiters; returns the next token (`none` when the text is used up) and the
text left for the next call, which starts one past the delimiter that ended
the token. -/
def strtok_r (s delim : List Char) : Option (List Char) × List Char :=
  let s1 := s.dropWhile (fun c => delim.contains c)
  if s1.isEmpty then (none, [])
  else (some (s1.takeWhile (fun c => !delim.contains c)),
        (s1.dropWhile (fun c => !delim.contains c)).drop 1)

/-- Modelled from the spec: `strlcpy` is declared in `compat/strl.h`, which is
not among the sources. The spec has the path rules "copy `in` into `out`" and
fail when "the result would not fit", which is the BSD contract: the buffer
receives at most `size - 1` characters of `src` (nothing when `size = 0`) and
the length of `src` is returned. -/
def strlcpy (dst src : List Char) (size : Nat) : List Char × Nat :=
  (if size = 0 then dst else src.take (size - 1), src.length)

/-- Modelled from the spec: `strlcat` is declared in `compat/strl.h`, which is
not among the sources. BSD contract: when the string in `dst` is shorter than
`size`, as much of `src` as fits in `size - 1` characters is appended and the
length of `dst ++ src` is returned; otherwise nothing is written and the
result is at least `size`. -/
def strlcat (dst src : List Char) (size : Nat) : List Char × Nat :=
  if dst.length < size then (dst ++ src.take (size - dst.length - 1), dst.length + src.length)
  else (dst, size + src.length)

/-! ### Splitting and searching -/

/-- The `while (tmp)` loop of `string_split`; `fuel` bounds the iterations. -/
def string_split_loop (delim : List Char) :
    Nat → Option (List Char) → List Char → string_list → Heap → Run (Option string_list × Heap)
  | _, none, _, list, h => .ok (some list, h)
  | 0, some _, _, _, _ => .error .exhausted
  | fuel + 1, some tmp, save, list, h =>
    match string_list_append list tmp attr_zero h with
    | .error f => .error f
    | .ok (false, _, h1) => .ok (none, h1)
    | .ok (true, list1, h1) =>
      string_split_loop delim fuel (strtok_r save delim).1 (strtok_r save delim).2 list1 h1

/-- `string_split(str, delim)`; `none` is the `NULL` result of the error path. -/
def string_split (str delim : List Char) (h : Heap) : Run (Option string_list × Heap) :=
  match string_list_new h with
  | .error f => .error f
  | .ok (none, h1) => .ok (none, h1)
  | .ok (some list, h1) =>
    match alloc h1 with
    | (false, h2) => .ok (none, h2)
    | (true, h2) =>
      string_split_loop delim str.length (strtok_r str delim).1 (strtok_r str delim).2 list h2

/-- The loop of `string_list_find_elem` from index `i` with `n` iterations left. -/
def string_list_find_elem_loop (list : string_list) (elem : List Char) : Nat → Nat → Run Bool
  | 0, _ => .ok false
  | n + 1, i =>
    match string_list_read list i with
    | .error f => .error f
    | .ok e =>
      if strcmp e.data elem = 0 then .ok true
      else string_list_find_elem_loop list elem n (i + 1)

/-- `string_list_find_elem(list, elem)`; `none` is the null list. -/
def string_list_find_elem (list : Option string_list) (elem : List Char) : Run Bool :=
  match list with
  | none => .ok false
  | some l => string_list_find_elem_loop l elem l.size 0

/-- The loop of `string_list_find_elem_prefix` from index `i` with `n`
iterations left; `prefixed` is the content of the local buffer. -/
def string_list_find_elem_prefix_loop (list : string_list) (prefixed elem : List Char) :
    Nat → Nat → Run Bool
  | 0, _ => .ok false
  | n + 1, i =>
    match string_list_read list i with
    | .error f => .error f
    | .ok e =>
      if strcmp e.data elem = 0 ∨ strcmp e.data prefixed = 0 then .ok true
      else string_list_find_elem_prefix_loop list prefixed elem n (i + 1)

/-- `string_list_find_elem_prefix(list, prefix, elem)`; `PATH_MAX` is the
platform constant sizing the local buffer `prefixed`. -/
def string_list_find_elem_prefix (PATH_MAX : Nat) (list : Option string_list)
    (pre elem : List Char) : Run Bool :=
  match list with
  | none => .ok false
  | some l =>
    string_list_find_elem_prefix_loop l (snprintf PATH_MAX (pre ++ elem)) elem l.size 0

/-- `path_get_extension(path)`: the text after the last dot, else `""`. -/
def path_get_extension (path : List Char) : List Char :=
  match strrchr path '.' with
  | some ext => path.drop (ext + 1)
  | none => []

/-! ### Sorting -/

/-- `qstrcmp_plain(a, b)`. -/
def qstrcmp_plain (a b : string_list_elem) : Int := strcasecmp a.data b.data

/-- `qstrcmp_dir(a, b)`: directories before files, then `strcasecmp`. -/
def qstrcmp_dir (a b : string_list_elem) : Int :=
  let a_dir : Int := if a.attr.b then 1 else 0
  let b_dir : Int := if b.attr.b then 1 else 0
  if a_dir ≠ b_dir then b_dir - a_dir
  else strcasecmp a.data b.data

/-- Reads the slots `i .. i + n - 1` of the element array. -/
def string_list_load (list : string_list) : Nat → Nat → Run (List string_list_elem)
  | 0, _ => .ok []
  | n + 1, i =>
    match string_list_read list i with
    | .error f => .error f
    | .ok e =>
      match string_list_load list n (i + 1) with
      | .error f => .error f
      | .ok es => .ok (e :: es)

/-- `dir_list_sort(list, dir_first)`: `qsort` over the first `size` slots with
the selected comparator. The C library `qsort` is a parameter. -/
def dir_list_sort
    (qsort : (string_list_elem → string_list_elem → Int) → List string_list_elem →
      List string_list_elem)
    (list : Option string_list) (dir_first : Bool) : Run (Option string_list) :=
  match list with
  | none => .ok none
  | some l =>
    match string_list_load l l.size 0 with
    | .error f => .error f
    | .ok es =>
      .ok (some { l with
        elems := (qsort (if dir_first then qstrcmp_dir else qstrcmp_plain) es).map some
          ++ l.elems.drop l.size })

/-- What the C standard asks of a comparator handed to `qsort`: opposite
arguments give opposite signs, and the induced order is transitive. -/
def ConsistentCmp (cmp : string_list_elem → string_list_elem → Int) : Prop :=
  (∀ a b, (cmp a b).sign = - (cmp b a).sign) ∧
  (∀ a b c, cmp a b ≤ 0 → cmp b c ≤ 0 → cmp a c ≤ 0)

/-- A correct comparison sort: with a consistent comparator the result is a
permutation of the input in which no element compares greater than a later
one. -/
def QsortCorrect
    (qsort : (string_list_elem → string_list_elem → Int) → List string_list_elem →
      List string_list_elem) : Prop :=
  ∀ cmp, ConsistentCmp cmp → ∀ l,
    (qsort cmp l).Perm l ∧ (qsort cmp l).Pairwise (fun a b => cmp a b ≤ 0)

/-- The lower-cased character codes of a string. -/
def ci_key (a : List Char) : List Nat := a.map (fun c => (tolower c).toNat)

/-- Case-insensitive ascending order of two strings: lexicographic order of
the lower-cased character codes. -/
def ci_le (a b : List Char) : Prop := ci_key a ≤ ci_key b

/-- Insertion into a list sorted by `cmp`. -/
def insert_by (cmp : string_list_elem → string_list_elem → Int) (x : string_list_elem) :
    List string_list_elem → List string_list_elem
  | [] => [x]
  | y :: ys => if cmp x y ≤ 0 then x :: y :: ys else y :: insert_by cmp x ys

/-- Insertion sort, one correct implementation of `qsort`. -/
def insertion_qsort (cmp : string_list_elem → string_list_elem → Int) :
    List string_list_elem → List string_list_elem
  | [] => []
  | x :: xs => insert_by cmp x (insertion_qsort cmp xs)

/-! ### Directory scan -/

/-- A directory entry as `readdir` (or `FindNextFile`) reports it: its name
and whether its type indicator says directory (`d_type == DT_DIR`, or
`dwFileAttributes & FILE_ATTRIBUTE_DIRECTORY`). -/
structure dirent where
  d_name : List Char
  is_dir : Bool
  deriving DecidableEq, Repr

/-- The `while ((entry = readdir(directory)))` loop of the POSIX
`dir_list_new`; `none` is the `NULL` result of the error path. -/
def dir_list_new_loop (PATH_MAX : Nat) (dir : List Char) (ext_list : Option string_list)
    (include_dirs : Bool) : List dirent → string_list → Heap → Run (Option string_list × Heap)
  | [], list, h => .ok (some list, h)
  | entry :: rest, list, h =>
    if !include_dirs && entry.is_dir then
      dir_list_new_loop PATH_MAX dir ext_list include_dirs rest list h
    else if strcmp entry.d_name ['.'] = 0 ∨ strcmp entry.d_name ['.', '.'] = 0 then
      dir_list_new_loop PATH_MAX dir ext_list include_dirs rest list h
    else
      match (if !entry.is_dir && ext_list.isSome then
               string_list_find_elem_prefix PATH_MAX ext_list ['.'] (path_get_extension entry.d_name)
             else .ok true) with
      | .error f => .error f
      | .ok false => dir_list_new_loop PATH_MAX dir ext_list include_dirs rest list h
      | .ok true =>
        match string_list_append list (snprintf PATH_MAX (dir ++ '/' :: entry.d_name))
            ⟨entry.is_dir⟩ h with
        | .error f => .error f
        | .ok (false, _, h1) => .ok (none, h1)
        | .ok (true, list1, h1) =>
          dir_list_new_loop PATH_MAX dir ext_list include_dirs rest list1 h1

/-- `dir_list_new(dir, ext, include_dirs)`, POSIX branch. `opendir` is the file
system: the entries of a directory in enumeration order, `none` when it cannot
be opened. `ext = none` is the null filter. -/
def dir_list_new (PATH_MAX : Nat) (opendir : List Char → Option (List dirent))
    (dir : List Char) (ext : Option (List Char)) (include_dirs : Bool) (h : Heap) :
    Run (Option string_list × Heap) :=
  match string_list_new h with
  | .error f => .error f
  | .ok (none, h1) => .ok (none, h1)
  | .ok (some list, h1) =>
    match (match ext with
           | some e => string_split e ['|'] h1
           | none => .ok (none, h1)) with
    | .error f => .error f
    | .ok (ext_list, h2) =>
      match opendir dir with
      | none => .ok (none, h2)
      | some entries => dir_list_new_loop PATH_MAX dir ext_list include_dirs entries list h2

/-- The `do ... while (FindNextFile(...))` loop of the Windows
`dir_list_new`. -/
def dir_list_new_win32_loop (PATH_MAX : Nat) (dir : List Char) (ext_list : Option string_list)
    (include_dirs : Bool) : List dirent → string_list → Heap → Run (Option string_list × Heap)
  | [], list, h => .ok (some list, h)
  | entry :: rest, list, h =>
    if !include_dirs && entry.is_dir then
      dir_list_new_win32_loop PATH_MAX dir ext_list include_dirs rest list h
    else
      match (if !entry.is_dir && ext_list.isSome then
               string_list_find_elem_prefix PATH_MAX ext_list ['.'] (path_get_extension entry.d_name)
             else .ok true) with
      | .error f => .error f
      | .ok false => dir_list_new_win32_loop PATH_MAX dir ext_list include_dirs rest list h
      | .ok true =>
        match string_list_append list (snprintf PATH_MAX (dir ++ '\\' :: entry.d_name))
            ⟨entry.is_dir⟩ h with
        | .error f => .error f
        | .ok (false, _, h1) => .ok (none, h1)
        | .ok (true, list1, h1) =>
          dir_list_new_win32_loop PATH_MAX dir ext_list include_dirs rest list1 h1

/-- `dir_list_new(dir, ext, include_dirs)`, `_WIN32` branch. `find_first` is
the file system: the entries `FindFirstFile`/`FindNextFile` report for the
pattern `dir\*` (at least one when the handle is valid), `none` for an
invalid handle. -/
def dir_list_new_win32 (PATH_MAX : Nat) (find_first : List Char → Option (List dirent))
    (dir : List Char) (ext : Option (List Char)) (include_dirs : Bool) (h : Heap) :
    Run (Option string_list × Heap) :=
  match string_list_new h with
  | .error f => .error f
  | .ok (none, h1) => .ok (none, h1)
  | .ok (some list, h1) =>
    match (match ext with
           | some e => string_split e ['|'] h1
           | none => .ok (none, h1)) with
    | .error f => .error f
    | .ok (ext_list, h2) =>
      match find_first (snprintf PATH_MAX (dir ++ ['\\', '*'])) with
      | none => .ok (none, h2)
      | some entries =>
        dir_list_new_win32_loop PATH_MAX dir ext_list include_dirs entries list h2

/-! ## PathRules -/

/-- `rarch_assert(r < size)` followed by the rest of the function. -/
def rarch_assert {α : Type} (cond : Bool) (rest : Run α) : Run α :=
  if cond then rest else .error .assertion

/-- `fill_pathname(out_path, in_path, replace, size)`: the final content of
`out_path`. `PATH_MAX` sizes the local buffer `tmp_path`. -/
def fill_pathname (PATH_MAX : Nat) (out_path in_path replace : List Char) (size : Nat) :
    Run (List Char) :=
  let tmp := strlcpy [] in_path PATH_MAX
  rarch_assert (tmp.2 < PATH_MAX) <|
    let tmp_path := match strrchr tmp.1 '.' with
      | some tok => tmp.1.take tok
      | none => tmp.1
    let o1 := strlcpy out_path tmp_path size
    rarch_assert (o1.2 < size) <|
      let o2 := strlcat o1.1 replace size
      rarch_assert (o2.2 < size) <| .ok o2.1

/-- `fill_pathname_noext(out_path, in_path, replace, size)`. -/
def fill_pathname_noext (out_path in_path replace : List Char) (size : Nat) : Run (List Char) :=
  let o1 := strlcpy out_path in_path size
  rarch_assert (o1.2 < size) <|
    let o2 := strlcat o1.1 replace size
    rarch_assert (o2.2 < size) <| .ok o2.1

/-- The pointer both `fill_pathname_base` and `fill_pathname_dir` compute:
`strrchr(path, '/')`, and `strrchr(path, '\\')` when that is null. -/
def last_separator (path : List Char) : Option Nat :=
  match strrchr path '/' with
  | some p => some p
  | none => strrchr path '\\'

/-- `fill_pathname_dir(in_dir, in_basename, replace, size)`: the final content
of `in_dir`. -/
def fill_pathname_dir (in_dir in_basename replace : List Char) (size : Nat) : Run (List Char) :=
  let d1 := strlcat in_dir ['/'] size
  rarch_assert (d1.2 < size) <|
    let base := match last_separator in_basename with
      | some p => in_basename.drop (p + 1)
      | none => in_basename
    let d2 := strlcat d1.1 base size
    rarch_assert (d2.2 < size) <|
      let d3 := strlcat d2.1 replace size
      rarch_assert (d3.2 < size) <| .ok d3.1

/-- `fill_pathname_base(out_dir, in_path, size)`: the final content of
`out_dir`. -/
def fill_pathname_base (out_dir in_path : List Char) (size : Nat) : Run (List Char) :=
  let ptr := match last_separator in_path with
    | some p => in_path.drop (p + 1)
    | none => in_path
  let o := strlcpy out_dir ptr size
  rarch_assert (o.2 < size) <| .ok o.1

/-- `fill_pathname_basedir(out_dir, in_path, size)`: the final content of
`out_dir`. -/
def fill_pathname_basedir (out_dir in_path : List Char) (size : Nat) : Run (List Char) :=
  let o := strlcpy out_dir in_path size
  rarch_assert (o.2 < size) <|
    match last_separator o.1 with
    | some base => .ok (o.1.take base)
    | none => if size ≥ 2 then .ok ['.'] else .ok o.1

/-- `fill_pathname_shell(out_path, in_path, size)` on a platform with home
expansion; `home` is `getenv("HOME")`. The final content of `out_path`. -/
def fill_pathname_shell (home : Option (List Char)) (out_path in_path : List Char) (size : Nat) :
    Run (List Char) :=
  match in_path, home with
  | '~' :: in_rest, some hm =>
    let o := strlcpy out_path hm size
    rarch_assert (o.2 < size) <|
      let o2 := strlcpy (o.1.drop o.2) in_rest (size - o.2)
      rarch_assert (o2.2 < size - o.2) <| .ok (o.1.take o.2 ++ o2.1)
  | _, _ =>
    let o := strlcpy out_path in_path size
    rarch_assert (o.2 < size) <| .ok o.1

/-! ## Frontend driver registry (`frontend/frontend_driver.c`) -/

/-- Modelled from the spec: `frontend_ctx_driver_t` is declared in
`frontend_driver.h`, which is not among the sources. The lookup reads only
the member `ident`; the other members (the driver's function pointers) are
stood for by `handle`, which tells apart two drivers with one identifier. -/
structure frontend_ctx_driver_t where
  ident : List Char
  handle : Nat
  deriving DecidableEq, Repr

/-- `frontend_ctx_find_driver(ident)`. The table `frontend_ctx_drivers` is
selected by the build, so it is a parameter: the drivers in front of the
terminating `NULL`, in source order. `none` is the `NULL` result. -/
def frontend_ctx_find_driver (frontend_ctx_drivers : List frontend_ctx_driver_t)
    (ident : List Char) : Option frontend_ctx_driver_t :=
  match frontend_ctx_drivers with
  | [] => none
  | d :: rest =>
    if strcmp d.ident ident = 0 then some d else frontend_ctx_find_driver rest ident

/-- `frontend_ctx_init_first()`: the first driver of the table. -/
def frontend_ctx_init_first (frontend_ctx_drivers : List frontend_ctx_driver_t) :
    Option frontend_ctx_driver_t :=
  match frontend_ctx_drivers with
  | [] => none
  | d :: _ => some d

/-! ## Specification-side definitions -/

/-- The tokens of `source` as the spec words them: the maximal non-empty runs
of characters that are not in `delimiters`, in source order. Obtained by
cutting `source` at every delimiter character and dropping the empty pieces. -/
def maximal_tokens (source delimiters : List Char) : List (List Char) :=
  (source.splitOnP (fun c => delimiters.contains c)).filter (fun t => !t.isEmpty)

/-- The allow-list a scan builds from its filter argument when no allocation
fails: `string_split(ext, "|")`, or no list for a null filter. -/
def filter_list (ext : Option (List Char)) : Option string_list :=
  match ext with
  | none => none
  | some f =>
    match string_split f ['|'] [] with
    | .ok (some fl, _) => some fl
    | _ => none

/-- The entries a scan keeps, given its allow-list: the name is neither `.`
nor `..`, and the entry is either a directory with `include_dirs` set, or a
non-directory for which the allow-list is absent or
`string_list_find_elem_prefix(allow_list, ".", path_get_extension(name))`
holds. -/
def entry_accepted (PATH_MAX : Nat) (ext_list : Option string_list) (include_dirs : Bool)
    (e : dirent) : Bool :=
  decide (e.d_name ≠ ['.']) && decide (e.d_name ≠ ['.', '.']) &&
    (if e.is_dir then include_dirs
     else
       match ext_list with
       | none => true
       | some fl =>
         decide ( string_list_find_elem_prefix PATH_MAX (some fl) ['.']
           (path_get_extension e.d_name) = .ok true))

/-- The result the spec gives for a scan: for each kept entry, in
enumeration order, the full path with the is-directory flag. -/
def scan_result (PATH_MAX : Nat) (dir : List Char) (ext : Option (List Char))
    (include_dirs : Bool) (entries : List dirent) : List (Option string_list_elem) :=
  (entries.filter (entry_accepted PATH_MAX (filter_list ext) include_dirs)).map
    (fun e => some ⟨dir ++ '/' :: e.d_name, ⟨e.is_dir⟩⟩)

/-- The directory of the scan example of the spec, as `readdir` lists it. -/
def sample_entries : List dirent :=
  [⟨".".toList, true⟩, ⟨"..".toList, true⟩, ⟨"a.zip".toList, false⟩,
   ⟨"b.7z".toList, false⟩, ⟨"c.txt".toList, false⟩, ⟨"sub".toList, true⟩]

/-- A scan result with two files and a directory, in a four-slot array. -/
def sample_list : string_list :=
  ⟨[some ⟨"b.txt".toList, ⟨false⟩⟩, some ⟨"Sub".toList, ⟨true⟩⟩,
    some ⟨"A.zip".toList, ⟨false⟩⟩, none], 3, 4⟩

/-- The text of `path` before the last occurrence of `sep` (empty when `sep`
does not occur): read from the end, drop everything up to and including the
first `sep` met. -/
def prefix_before (sep : Char) (path : List Char) : List Char :=
  ((path.reverse.dropWhile (fun c => c != sep)).drop 1).reverse

/-- The text of `path` after the last occurrence of `sep` (all of `path` when
`sep` does not occur). -/
def text_after (sep : Char) (path : List Char) : List Char :=
  (path.reverse.takeWhile (fun c => c != sep)).reverse

/-- The path cut just before its last dot, or the whole path when it has no
dot. -/
def strip_extension (path : List Char) : List Char :=
  if '.' ∈ path then prefix_before '.' path else path

/-- The text after the last occurrence of either separator, `/` or `\`, or the
whole path when neither occurs. -/
def text_after_any_separator (path : List Char) : List Char :=
  (path.reverse.takeWhile (fun c => c != '/' && c != '\\')).reverse

/-- The text before the last occurrence of either separator, `/` or `\`. -/
def prefix_before_any_separator (path : List Char) : List Char :=
  ((path.reverse.dropWhile (fun c => c != '/' && c != '\\')).drop 1).reverse

/-- The fresh list after 32 appends of the string `x`: full, capacity 32. -/
def sample_full : string_list := ⟨List.replicate 32 (some ⟨['x'], attr_zero⟩), 32, 32⟩

/-- The entries the Windows scan keeps, given its allow-list: a directory
with `include_dirs` set, or a non-directory for which the allow-list is absent
or `string_list_find_elem_prefix(allow_list, ".", path_get_extension(name))`
holds. -/
def entry_accepted_win32 (PATH_MAX : Nat) (ext_list : Option string_list)
    (include_dirs : Bool) (e : dirent) : Bool :=
  if e.is_dir then include_dirs
  else
    match ext_list with
    | none => true
    | some fl =>
      decide ( string_list_find_elem_prefix PATH_MAX (some fl) ['.']
        (path_get_extension e.d_name) = .ok true)

/-- The tokens joined by the delimiter character: `t1 ++ d ++ t2 ++ ... ++ d
++ tn`, the empty string for no token. -/
def join_with (d : Char) : List (List Char) → List Char
  | [] => []
  | t :: rest =>
    match rest with
    | [] => t
    | _ :: _ => t ++ d :: join_with d rest

/-! ## Theorems

### Allocation scripts -/

theorem alloc_noFail {h : Heap} (hn : NoFail h) : (alloc h).1 = true ∧ NoFail (alloc h).2 := by
  cases h with
  | nil => exact ⟨rfl, hn⟩
  | cons b rest =>
    refine ⟨hn b (List.mem_cons_self _ _), ?_⟩
    intro c hc
    exact hn c (List.mem_cons_of_mem _ hc)

theorem alloc_eq_of_noFail {h : Heap} (hn : NoFail h) : alloc h = (true, (alloc h).2) := by
  have h1 := (alloc_noFail hn).1
  exact Prod.ext h1 rfl

/-! ### Well-formed lists -/

theorem string_list_new_eq {h h1 : Heap} {l : string_list}
    (hnew : string_list_new h = .ok (some l, h1)) :
    l = ⟨List.replicate 32 none, 0, 32⟩ := by
  unfold string_list_new string_list_capacity realloc at hnew
  cases ha : alloc h with
  | mk b h2 =>
    rw [ha] at hnew
    cases b with
    | false => simp at hnew
    | true =>
      cases hb : alloc h2 with
      | mk b2 h3 =>
        simp only [] at hnew
        rw [hb] at hnew
        cases b2 with
        | false => simp at hnew
        | true =>
          simp at hnew
          exact hnew.1.symm

theorem string_list_new_noFail {h : Heap} (hn : NoFail h) :
    string_list_new h = .ok (some ⟨List.replicate 32 none, 0, 32⟩, (alloc (alloc h).2).2) ∧
      NoFail (alloc (alloc h).2).2 := by
  have h1 := alloc_noFail hn
  have h2 := alloc_noFail h1.2
  refine ⟨?_, h2.2⟩
  unfold string_list_new string_list_capacity realloc
  rw [alloc_eq_of_noFail hn]
  simp only []
  rw [alloc_eq_of_noFail h1.2]
  simp

theorem WF_fresh : WF ⟨List.replicate 32 none, 0, 32⟩ :=
  ⟨by simp, by simp, by simp, by intro i hi; simp at hi⟩

theorem take_set_succ {α : Type} (l : List α) (n : Nat) (x : α) (hn : n < l.length) :
    (l.set n x).take (n + 1) = l.take n ++ [x] := by
  induction l generalizing n with
  | nil => simp at hn
  | cons y ys ih =>
    cases n with
    | zero => simp
    | succ m =>
      simp only [List.length_cons, Nat.add_lt_add_iff_right] at hn
      simp [ih m hn]

theorem capacity_step {l l1 : string_list} {h h1 : Heap} {r : Bool} (hw : WF l)
    (hc : (if l.size ≥ l.cap then string_list_capacity l (l.cap * 2) h
           else .ok (true, l, h)) = .ok (r, l1, h1)) :
    WF l1 ∧ l1.size = l.size ∧ l1.used = l.used ∧ (r = true → l1.size < l1.cap) ∧
      (l1.cap = l.cap ∨ (l.size = l.cap ∧ l1.cap = 2 * l.cap)) ∧
      (r = false → l1 = l) := by
  obtain ⟨hlen, hle, hpos, hinit⟩ := hw
  by_cases hfull : l.size ≥ l.cap
  · have hsz : l.size = l.cap := Nat.le_antisymm hle hfull
    rw [if_pos hfull] at hc
    unfold string_list_capacity realloc at hc
    have hgt : l.cap * 2 > l.size := by omega
    rw [if_pos hgt] at hc
    cases ha : alloc h with
    | mk b h2 =>
      rw [ha] at hc
      cases b with
      | false =>
        simp at hc
        obtain ⟨rfl, rfl, rfl⟩ := hc
        exact ⟨⟨hlen, hle, hpos, hinit⟩, rfl, rfl, by simp, Or.inl rfl, fun _ => rfl⟩
      | true =>
        simp at hc
        obtain ⟨rfl, rfl, rfl⟩ := hc
        have htake : l.elems.take (l.cap * 2) = l.elems :=
          List.take_of_length_le (by omega)
        refine ⟨⟨?_, ?_, ?_, ?_⟩, rfl, ?_, ?_, Or.inr ⟨hsz, by simp; omega⟩, by simp⟩
        · simp [htake, hlen]; omega
        · simp; omega
        · simp; omega
        · intro i hi
          simp only [] at hi
          obtain ⟨e, he⟩ := hinit i hi
          refine ⟨e, ?_⟩
          simp only [htake]
          rw [List.getElem?_append_left (by omega)]
          exact he
        · simp only [string_list.used, htake]
          rw [List.take_append_of_le_length (by omega)]
        · intro _
          simp; omega
  · rw [if_neg hfull] at hc
    simp at hc
    obtain ⟨rfl, rfl, rfl⟩ := hc
    exact ⟨⟨hlen, hle, hpos, hinit⟩, rfl, rfl, fun _ => by omega, Or.inl rfl, by simp⟩

theorem store_step {l : string_list} (hw : WF l) (hlt : l.size < l.cap) (e : List Char)
    (a : string_list_elem_attr) :
    ∃ l2, string_list_store l e a = .ok l2 ∧ WF l2 ∧ l2.size = l.size + 1 ∧
      l2.used = l.used ++ [some ⟨e, a⟩] ∧ l2.cap = l.cap := by
  obtain ⟨hlen, hle, hpos, hinit⟩ := hw
  have hlt2 : l.size < l.elems.length := by omega
  refine ⟨{ l with elems := l.elems.set l.size (some ⟨e, a⟩), size := l.size + 1 },
    by unfold string_list_store; rw [if_pos hlt2], ⟨?_, ?_, ?_, ?_⟩, rfl, ?_, rfl⟩
  · simp [hlen]
  · simp; omega
  · exact hpos
  · intro i hi
    simp only [] at hi
    by_cases hi2 : i = l.size
    · subst hi2
      exact ⟨⟨e, a⟩, by simp [List.getElem?_set_self, hlt2]⟩
    · obtain ⟨x, hx⟩ := hinit i (by omega)
      refine ⟨x, ?_⟩
      simp only []
      rw [List.getElem?_set_ne (by omega)]
      exact hx
  · simp only [string_list.used]
    exact take_set_succ _ _ _ hlt2

theorem append_step {l l1 : string_list} {e : List Char} {a : string_list_elem_attr}
    {h h1 : Heap} {r : Bool} (hw : WF l)
    (happ : string_list_append l e a h = .ok (r, l1, h1)) :
    WF l1 ∧
      (r = true → l1.size = l.size + 1 ∧ l1.used = l.used ++ [some ⟨e, a⟩]) ∧
      (r = false → l1.size = l.size ∧ l1.used = l.used) ∧
      (l1.cap = l.cap ∨ (l.size = l.cap ∧ l1.cap = 2 * l.cap)) := by
  unfold string_list_append at happ
  cases hc : (if l.size ≥ l.cap then string_list_capacity l (l.cap * 2) h
      else .ok (true, l, h)) with
  | error f => rw [hc] at happ; simp at happ
  | ok v =>
    obtain ⟨r0, l0, h0⟩ := v
    rw [hc] at happ
    obtain ⟨hw0, hsz0, hused0, hlt0, hcap0, _⟩ := capacity_step hw hc
    cases r0 with
    | false =>
      simp at happ
      obtain ⟨rfl, rfl, rfl⟩ := happ
      exact ⟨hw0, by simp, fun _ => ⟨hsz0, hused0⟩, hcap0⟩
    | true =>
      simp only [] at happ
      cases ha : alloc h0 with
      | mk b h2 =>
        rw [ha] at happ
        cases b with
        | false =>
          simp at happ
          obtain ⟨rfl, rfl, rfl⟩ := happ
          exact ⟨hw0, by simp, fun _ => ⟨hsz0, hused0⟩, hcap0⟩
        | true =>
          obtain ⟨l2, hst, hw2, hsz2, hused2, hcap2⟩ := store_step hw0 (hlt0 rfl) e a
          simp only [] at happ
          rw [hst] at happ
          simp at happ
          obtain ⟨rfl, rfl, rfl⟩ := happ
          refine ⟨hw2, fun _ => ⟨by omega, by rw [hused2, hused0]⟩, by simp, ?_⟩
          rw [hcap2]; exact hcap0

theorem append_noFail {l : string_list} (hw : WF l) (e : List Char) (a : string_list_elem_attr)
    {h : Heap} (hn : NoFail h) :
    ∃ l1 h1, string_list_append l e a h = .ok (true, l1, h1) ∧ NoFail h1 := by
  obtain ⟨hlen, hle, hpos, hinit⟩ := hw
  have hw : WF l := ⟨hlen, hle, hpos, hinit⟩
  have key : ∃ l0 h0, (if l.size ≥ l.cap then string_list_capacity l (l.cap * 2) h
      else .ok (true, l, h)) = .ok (true, l0, h0) ∧ NoFail h0 := by
    by_cases hfull : l.size ≥ l.cap
    · rw [if_pos hfull]
      unfold string_list_capacity realloc
      have hgt : l.cap * 2 > l.size := by omega
      rw [if_pos hgt, alloc_eq_of_noFail hn]
      exact ⟨_, _, rfl, (alloc_noFail hn).2⟩
    · rw [if_neg hfull]
      exact ⟨_, _, rfl, hn⟩
  obtain ⟨l0, h0, hc, hn0⟩ := key
  obtain ⟨hw0, _, _, hlt0, _, _⟩ := capacity_step hw hc
  obtain ⟨l2, hst, _⟩ := store_step hw0 (hlt0 rfl) e a
  refine ⟨l2, (alloc h0).2, ?_, (alloc_noFail hn0).2⟩
  unfold string_list_append
  rw [hc]
  simp only []
  rw [alloc_eq_of_noFail hn0]
  simp only []
  rw [hst]

theorem reachable_WF {l : string_list} (hr : Reachable l) : WF l := by
  induction hr with
  | fresh h h1 l hnew => rw [string_list_new_eq hnew]; exact WF_fresh
  | step l l1 e a h h1 r _ happ ih => exact (append_step ih happ).1

theorem used_getElem? (l : string_list) (i : Nat) (hi : i < l.size) :
    l.used[i]? = l.elems[i]? := by
  unfold string_list.used
  rw [List.getElem?_take]
  simp [hi]

theorem append_all_step (items : List (List Char × string_list_elem_attr)) :
    ∀ {l l1 : string_list} {h h1 : Heap}, WF l →
      string_list_append_all l items h = .ok (true, l1, h1) →
      WF l1 ∧ l1.size = l.size + items.length ∧
        l1.used = l.used ++ items.map (fun p => some ⟨p.1, p.2⟩) := by
  induction items with
  | nil =>
    intro l l1 h h1 hw hall
    simp [string_list_append_all] at hall
    obtain ⟨rfl, rfl⟩ := hall
    exact ⟨hw, by simp, by simp⟩
  | cons p rest ih =>
    intro l l1 h h1 hw hall
    obtain ⟨s, a⟩ := p
    simp only [string_list_append_all] at hall
    cases happ : string_list_append l s a h with
    | error f => rw [happ] at hall; simp at hall
    | ok v =>
      obtain ⟨r, l2, h2⟩ := v
      rw [happ] at hall
      cases r with
      | false => simp at hall
      | true =>
        simp only [] at hall
        obtain ⟨hw2, hT, _, _⟩ := append_step hw happ
        obtain ⟨hsz2, hused2⟩ := hT rfl
        obtain ⟨hw1, hsz1, hused1⟩ := ih hw2 hall
        refine ⟨hw1, ?_, ?_⟩
        · rw [hsz1, hsz2]; simp; omega
        · rw [hused1, hused2]; simp

theorem append_all_noFail (items : List (List Char × string_list_elem_attr)) :
    ∀ {l : string_list} {h : Heap}, WF l → NoFail h →
      ∃ l1 h1, string_list_append_all l items h = .ok (true, l1, h1) ∧ NoFail h1 := by
  induction items with
  | nil =>
    intro l h _ hn
    exact ⟨l, h, rfl, hn⟩
  | cons p rest ih =>
    intro l h hw hn
    obtain ⟨s, a⟩ := p
    obtain ⟨l2, h2, happ, hn2⟩ := append_noFail hw s a hn
    obtain ⟨l1, h1, hall, hn1⟩ := ih (append_step hw happ).1 hn2
    refine ⟨l1, h1, ?_, hn1⟩
    simp only [string_list_append_all]
    rw [happ]
    exact hall

theorem reachable_append_all (items : List (List Char × string_list_elem_attr)) :
    ∀ {l l1 : string_list} {h h1 : Heap} {r : Bool}, Reachable l →
      string_list_append_all l items h = .ok (r, l1, h1) → Reachable l1 := by
  induction items with
  | nil =>
    intro l l1 h h1 r hr hall
    simp [string_list_append_all] at hall
    obtain ⟨_, rfl, _⟩ := hall
    exact hr
  | cons p rest ih =>
    intro l l1 h h1 r hr hall
    obtain ⟨s, a⟩ := p
    simp only [string_list_append_all] at hall
    cases happ : string_list_append l s a h with
    | error f => rw [happ] at hall; simp at hall
    | ok v =>
      obtain ⟨r2, l2, h2⟩ := v
      rw [happ] at hall
      have hr2 : Reachable l2 := Reachable.step l l2 s a h h2 r2 hr happ
      cases r2 with
      | false =>
        simp at hall
        obtain ⟨_, rfl, _⟩ := hall
        exact hr2
      | true => exact ih hr2 hall

/-! ### C1: `string_list_append` -/

/-- C1. For a list `l` reachable from `string_list_new` and any text and
attribute: a successful `string_list_append` increases `size` by one, stores
the pair in slot `old size` and leaves the slots `0 .. old size - 1` as they
were (whether or not the capacity grew); the append succeeds whenever no
allocation fails; and appending any `N` items to a fresh list, when it
succeeds, gives size `N` with the items in insertion order, which it does
whenever no allocation fails. -/
theorem string_list_append_contract (l : string_list) (hl : Reachable l) (text : List Char)
    (attr : string_list_elem_attr) :
    (∀ h l1 h1, string_list_append l text attr h = .ok (true, l1, h1) →
      l1.size = l.size + 1 ∧ l1.elems[l.size]? = some (some ⟨text, attr⟩) ∧
        (∀ i, i < l.size → l1.elems[i]? = l.elems[i]?) ∧
        l1.used = l.used ++ [some ⟨text, attr⟩]) ∧
    (∀ h, NoFail h → ∃ l1 h1, string_list_append l text attr h = .ok (true, l1, h1)) ∧
    (∀ items h l0 h0 lN hN, string_list_new h = .ok (some l0, h0) →
      string_list_append_all l0 items h0 = .ok (true, lN, hN) →
      lN.size = items.length ∧
        lN.used = items.map (fun p => some ⟨p.1, p.2⟩)) ∧
    (∀ items h, NoFail h → ∃ l0 h0 lN hN, string_list_new h = .ok (some l0, h0) ∧
      string_list_append_all l0 items h0 = .ok (true, lN, hN)) := by
  have hw := reachable_WF hl
  refine ⟨?_, ?_, ?_, ?_⟩
  · intro h l1 h1 happ
    obtain ⟨hw1, hT, _, _⟩ := append_step hw happ
    obtain ⟨hsz, hused⟩ := hT rfl
    have hlen : l.used.length = l.size := by
      simp [string_list.used]; have := hw.len; have := hw.le; omega
    refine ⟨hsz, ?_, ?_, hused⟩
    · rw [← used_getElem? l1 l.size (by omega), hused]
      simp [hlen]
    · intro i hi
      rw [← used_getElem? l1 i (by omega), ← used_getElem? l i hi, hused]
      rw [List.getElem?_append_left (by omega)]
  · intro h hn
    obtain ⟨l1, h1, happ, _⟩ := append_noFail hw text attr hn
    exact ⟨l1, h1, happ⟩
  · intro items h l0 h0 lN hN hnew hall
    have h0eq := string_list_new_eq hnew
    subst h0eq
    obtain ⟨_, hsz, hused⟩ := append_all_step items WF_fresh hall
    exact ⟨by simpa using hsz, by simpa [string_list.used] using hused⟩
  · intro items h hn
    obtain ⟨hnew, hn0⟩ := string_list_new_noFail hn
    obtain ⟨lN, hN, hall, _⟩ := append_all_noFail items WF_fresh hn0
    exact ⟨_, _, lN, hN, hnew, hall⟩

/-- Witness for C1: the 33rd append to a fresh list that holds 32 strings
doubles the capacity, keeps the 32 strings and stores the new one in slot 32. -/
theorem string_list_append_contract_witness :
    Reachable ⟨List.replicate 32 (some ⟨['x'], attr_zero⟩), 32, 32⟩ ∧
    string_list_append ⟨List.replicate 32 (some ⟨['x'], attr_zero⟩), 32, 32⟩ ['y'] ⟨true⟩ [] =
      .ok (true, ⟨List.replicate 32 (some ⟨['x'], attr_zero⟩) ++ some ⟨['y'], ⟨true⟩⟩ ::
        List.replicate 31 none, 33, 64⟩, []) ∧
    (List.replicate 32 (some ⟨['x'], attr_zero⟩) ++ some ⟨['y'], ⟨true⟩⟩ ::
        List.replicate 31 none : List (Option string_list_elem))[32]? =
      some (some ⟨['y'], ⟨true⟩⟩) :=
  have hr : Reachable ⟨List.replicate 32 (some ⟨['x'], attr_zero⟩), 32, 32⟩ :=
    reachable_append_all (List.replicate 32 (['x'], attr_zero))
      (Reachable.fresh [] [] ⟨List.replicate 32 none, 0, 32⟩ (by decide)) (by decide : 
        string_list_append_all ⟨List.replicate 32 none, 0, 32⟩
          (List.replicate 32 (['x'], attr_zero)) [] = .ok (true, _, []))
  have happ : string_list_append ⟨List.replicate 32 (some ⟨['x'], attr_zero⟩), 32, 32⟩
      ['y'] ⟨true⟩ [] =
      .ok (true, ⟨List.replicate 32 (some ⟨['x'], attr_zero⟩) ++ some ⟨['y'], ⟨true⟩⟩ ::
        List.replicate 31 none, 33, 64⟩, []) := by decide
  ⟨hr, happ, ((string_list_append_contract _ hr ['y'] ⟨true⟩).1 [] _ [] happ).2.1⟩

/-! ### Tokens -/

theorem splitOnP_takeWhile (p : Char → Bool) (xs : List Char) :
    xs.splitOnP p = xs.takeWhile (fun c => !p c) ::
      (match xs.dropWhile (fun c => !p c) with
       | [] => []
       | _ :: r => r.splitOnP p) := by
  induction xs with
  | nil => simp
  | cons x xs ih =>
    rw [List.splitOnP_cons]
    by_cases hx : p x = true
    · simp [hx]
    · simp only [hx, if_false, Bool.false_eq_true]
      rw [ih]
      simp [List.takeWhile_cons, List.dropWhile_cons, hx]

theorem maximal_tokens_nil (d : List Char) : maximal_tokens [] d = [] := by
  simp [maximal_tokens]

theorem maximal_tokens_cons_delim (x : Char) (xs d : List Char) (hx : d.contains x = true) :
    maximal_tokens (x :: xs) d = maximal_tokens xs d := by
  simp only [maximal_tokens, List.splitOnP_cons, hx, if_true]
  simp

theorem maximal_tokens_cons_other (x : Char) (xs d : List Char) (hx : d.contains x = false) :
    maximal_tokens (x :: xs) d =
      (x :: xs.takeWhile (fun c => !d.contains c)) ::
        maximal_tokens ((xs.dropWhile (fun c => !d.contains c)).drop 1) d := by
  unfold maximal_tokens
  rw [splitOnP_takeWhile (fun c => d.contains c) (x :: xs)]
  simp only [List.takeWhile_cons, List.dropWhile_cons, hx, Bool.not_false, if_true]
  cases hdw : xs.dropWhile (fun c => !d.contains c) with
  | nil => simp
  | cons y ys => simp

theorem strtok_r_cons_delim (x : Char) (xs d : List Char) (hx : d.contains x = true) :
    strtok_r (x :: xs) d = strtok_r xs d := by
  simp only [strtok_r, List.dropWhile_cons, hx, if_true]

theorem strtok_r_cons_other (x : Char) (xs d : List Char) (hx : d.contains x = false) :
    strtok_r (x :: xs) d =
      (some (x :: xs.takeWhile (fun c => !d.contains c)),
        (xs.dropWhile (fun c => !d.contains c)).drop 1) := by
  have hx1 : x ∉ d := by simpa using hx
  simp [strtok_r, List.dropWhile_cons, List.takeWhile_cons, hx1]

theorem length_dropWhile_le (p : Char → Bool) (xs : List Char) :
    (xs.dropWhile p).length ≤ xs.length := by
  induction xs with
  | nil => simp
  | cons x xs ih =>
    rw [List.dropWhile_cons]
    split
    · simp; omega
    · simp

/-- One `strtok_r` call against the spec-side tokens: it yields the first
maximal token and leaves a strictly shorter text holding the other tokens. -/
theorem strtok_r_tokens (s d : List Char) :
    (∀ t, (strtok_r s d).1 = some t →
      maximal_tokens s d = t :: maximal_tokens (strtok_r s d).2 d ∧
        (strtok_r s d).2.length < s.length) ∧
    ((strtok_r s d).1 = none → maximal_tokens s d = []) := by
  induction s with
  | nil => simp [strtok_r, maximal_tokens_nil]
  | cons x xs ih =>
    cases hx : d.contains x with
    | true =>
      rw [strtok_r_cons_delim x xs d hx, maximal_tokens_cons_delim x xs d hx]
      refine ⟨fun t ht => ⟨(ih.1 t ht).1, ?_⟩, ih.2⟩
      have := (ih.1 t ht).2
      simp; omega
    | false =>
      rw [strtok_r_cons_other x xs d hx, maximal_tokens_cons_other x xs d hx]
      refine ⟨fun t ht => ?_, by simp⟩
      simp only [Option.some.injEq] at ht
      subst ht
      refine ⟨rfl, ?_⟩
      have := length_dropWhile_le (fun c => !d.contains c) xs
      simp only [List.length_drop, List.length_cons]
      omega

theorem maximal_tokens_mem (d : List Char) :
    ∀ (n : Nat) (s : List Char), s.length ≤ n →
      ∀ t ∈ maximal_tokens s d, t ≠ [] ∧ ∀ c ∈ t, c ∉ d := by
  intro n
  induction n with
  | zero =>
    intro s hs t ht
    have : s = [] := List.length_eq_zero.mp (by omega)
    subst this
    simp [maximal_tokens_nil] at ht
  | succ n ih =>
    intro s hs t ht
    cases s with
    | nil => simp [maximal_tokens_nil] at ht
    | cons x xs =>
      simp only [List.length_cons] at hs
      cases hx : d.contains x with
      | true =>
        rw [maximal_tokens_cons_delim x xs d hx] at ht
        exact ih xs (by omega) t ht
      | false =>
        rw [maximal_tokens_cons_other x xs d hx] at ht
        rcases List.mem_cons.mp ht with rfl | ht
        · refine ⟨by simp, ?_⟩
          intro c hc
          rcases List.mem_cons.mp hc with rfl | hc
          · simpa using hx
          · have := List.mem_takeWhile_imp hc
            simpa using this
        · refine ih _ ?_ t ht
          have := length_dropWhile_le (fun c => !d.contains c) xs
          simp only [List.length_drop]
          omega

theorem maximal_tokens_all_delim (d : List Char) (s : List Char) (hs : ∀ c ∈ s, c ∈ d) :
    maximal_tokens s d = [] := by
  induction s with
  | nil => exact maximal_tokens_nil d
  | cons x xs ih =>
    rw [maximal_tokens_cons_delim x xs d (by simpa using hs x (List.mem_cons_self _ _))]
    exact ih (fun c hc => hs c (List.mem_cons_of_mem _ hc))

theorem WF_used_length {l : string_list} (hw : WF l) : l.used.length = l.size := by
  have h1 := hw.len
  have h2 := hw.le
  simp [string_list.used]
  omega

/-- The tokens the `while (tmp)` loop of `string_split` still has to append. -/
theorem string_split_loop_noFail (d : List Char) :
    ∀ (fuel : Nat) (tmp : Option (List Char)) (save : List Char) (list : string_list) (h : Heap),
      WF list → NoFail h → (tmp.isSome = true → save.length < fuel) →
      ∃ l1 h1, string_split_loop d fuel tmp save list h = .ok (some l1, h1) ∧ WF l1 ∧
        NoFail h1 ∧
        l1.used = list.used ++
          (match tmp with
           | none => []
           | some t => t :: maximal_tokens save d).map (fun t => some ⟨t, attr_zero⟩) := by
  intro fuel
  induction fuel with
  | zero =>
    intro tmp save list h hw hn hb
    cases tmp with
    | none => exact ⟨list, h, by simp [string_split_loop], hw, hn, by simp⟩
    | some t => simp at hb
  | succ fuel ih =>
    intro tmp save list h hw hn hb
    cases tmp with
    | none => exact ⟨list, h, by simp [string_split_loop], hw, hn, by simp⟩
    | some t =>
      obtain ⟨l2, h2, happ, hn2⟩ := append_noFail hw t attr_zero hn
      obtain ⟨hw2, hT, _, _⟩ := append_step hw happ
      obtain ⟨_, hused2⟩ := hT rfl
      have hb1 : save.length < fuel + 1 := hb rfl
      have htok := strtok_r_tokens save d
      have hb2 : (strtok_r save d).1.isSome = true → (strtok_r save d).2.length < fuel := by
        intro hsome
        obtain ⟨t1, ht1⟩ := Option.isSome_iff_exists.mp hsome
        have := (htok.1 t1 ht1).2
        omega
      obtain ⟨l1, h1, hloop, hw1, hn1, hused1⟩ :=
        ih (strtok_r save d).1 (strtok_r save d).2 l2 h2 hw2 hn2 hb2
      refine ⟨l1, h1, ?_, hw1, hn1, ?_⟩
      · simp only [string_split_loop]
        rw [happ]
        exact hloop
      · rw [hused1, hused2]
        have hmt : maximal_tokens save d =
            (match (strtok_r save d).1 with
             | none => []
             | some t => t :: maximal_tokens (strtok_r save d).2 d) := by
          cases hq : (strtok_r save d).1 with
          | none => exact htok.2 hq
          | some t1 => exact (htok.1 t1 hq).1
        rw [hmt]
        simp

/-- With no allocation failure `string_split` returns a well-formed list
holding the spec-side tokens. -/
theorem string_split_noFail (source delimiters : List Char) (h : Heap) (hn : NoFail h) :
    ∃ l h1, string_split source delimiters h = .ok (some l, h1) ∧ WF l ∧ NoFail h1 ∧
      l.used = (maximal_tokens source delimiters).map (fun t => some ⟨t, attr_zero⟩) := by
  obtain ⟨hnew, hn0⟩ := string_list_new_noFail hn
  have hn1 := (alloc_noFail hn0).2
  have htok := strtok_r_tokens source delimiters
  have hb : (strtok_r source delimiters).1.isSome = true →
      (strtok_r source delimiters).2.length < source.length := by
    intro hsome
    obtain ⟨t1, ht1⟩ := Option.isSome_iff_exists.mp hsome
    exact (htok.1 t1 ht1).2
  obtain ⟨l, h1, hloop, hw, hn2, hused⟩ :=
    string_split_loop_noFail delimiters source.length (strtok_r source delimiters).1
      (strtok_r source delimiters).2 _ _ WF_fresh hn1 hb
  have hmt : maximal_tokens source delimiters =
      (match (strtok_r source delimiters).1 with
       | none => []
       | some t => t :: maximal_tokens (strtok_r source delimiters).2 delimiters) := by
    cases hq : (strtok_r source delimiters).1 with
    | none => exact htok.2 hq
    | some t1 => exact (htok.1 t1 hq).1
  rw [← hmt] at hused
  refine ⟨l, h1, ?_, hw, hn2, by rw [hused]; simp [string_list.used]⟩
  unfold string_split
  rw [hnew]
  simp only []
  rw [alloc_eq_of_noFail hn0]
  exact hloop

/-! ### C2: `string_split` -/

/-- C2. When no allocation fails, `string_split(source, delimiters)` returns a
present list whose elements in use are, in source order, the maximal non-empty
delimiter-free runs of `source` (duplicates kept), each with the zeroed
attribute. Every such token is non-empty and free of delimiter characters; a
source made of delimiters only (the empty source included) gives size 0;
`"a|b||c"` split at `"|"` gives `a`, `b`, `c`. -/
theorem string_split_contract (source delimiters : List Char) (h : Heap) (hn : NoFail h) :
    ∃ l h1, string_split source delimiters h = .ok (some l, h1) ∧
      l.size = (maximal_tokens source delimiters).length ∧
      l.used = (maximal_tokens source delimiters).map (fun t => some ⟨t, attr_zero⟩) ∧
      (∀ t ∈ maximal_tokens source delimiters, t ≠ [] ∧ ∀ c ∈ t, c ∉ delimiters) ∧
      ((∀ c ∈ source, c ∈ delimiters) → l.size = 0) ∧
      maximal_tokens "a|b||c".toList "|".toList = ["a".toList, "b".toList, "c".toList] := by
  obtain ⟨l, h1, hsplit, hw, _, hused1⟩ := string_split_noFail source delimiters h hn
  have hsize : l.size = (maximal_tokens source delimiters).length := by
    rw [← WF_used_length hw, hused1]; simp
  refine ⟨l, h1, hsplit, hsize, hused1,
    maximal_tokens_mem delimiters _ source (Nat.le_refl _), ?_, ?_⟩
  · intro hall
    rw [hsize, maximal_tokens_all_delim delimiters source hall]
    rfl
  · decide

/-- Witness for C2: `split("a|b||c", "|")` with no allocation failure is the
list `a`, `b`, `c` in a 32-slot array, and `split("", "|")` is a present
empty list. -/
theorem string_split_contract_witness :
    NoFail [] ∧
    (∃ l h1, string_split "a|b||c".toList "|".toList [] = .ok (some l, h1) ∧
      l.used = [some ⟨"a".toList, attr_zero⟩, some ⟨"b".toList, attr_zero⟩,
        some ⟨"c".toList, attr_zero⟩]) ∧
    string_split "".toList "|".toList [] = .ok (some ⟨List.replicate 32 none, 0, 32⟩, []) :=
  ⟨by decide,
   (string_split_contract "a|b||c".toList "|".toList [] (by decide)).imp fun _ hl =>
     hl.imp fun _ hh => ⟨hh.1, hh.2.2.1.trans (by rw [hh.2.2.2.2.2]; rfl)⟩,
   by decide⟩

/-! ### C3: `string_list_find_elem` -/

theorem strcmp_eq_zero_iff (a b : List Char) : strcmp a b = 0 ↔ a = b := by
  induction a generalizing b with
  | nil => cases b <;> simp [strcmp]
  | cons x xs ih =>
    cases b with
    | nil => simp [strcmp]
    | cons y ys =>
      simp only [strcmp]
      by_cases hxy : x = y
      · simp [hxy, ih]
      · rw [if_neg hxy]
        split <;> simp [hxy]

theorem string_list_read_of_WF {l : string_list} (hw : WF l) {i : Nat} (hi : i < l.size) :
    ∃ e, l.elems[i]? = some (some e) ∧ string_list_read l i = .ok e := by
  obtain ⟨e, he⟩ := hw.init i hi
  exact ⟨e, he, by simp [string_list_read, he]⟩

theorem string_list_find_elem_loop_spec (l : string_list) (hw : WF l) (text : List Char) :
    ∀ (n i : Nat), i + n = l.size →
      ∃ b, string_list_find_elem_loop l text n i = .ok b ∧
        (b = true ↔ ∃ j, i ≤ j ∧ j < l.size ∧ ∃ e, l.elems[j]? = some (some e) ∧ e.data = text) := by
  intro n
  induction n with
  | zero =>
    intro i hi
    refine ⟨false, rfl, ?_⟩
    simp only [Bool.false_eq_true, false_iff, not_exists, not_and]
    intro j h1 h2
    omega
  | succ n ih =>
    intro i hi
    obtain ⟨e, he, hread⟩ := string_list_read_of_WF hw (show i < l.size by omega)
    simp only [string_list_find_elem_loop, hread]
    by_cases heq : strcmp e.data text = 0
    · rw [if_pos heq]
      exact ⟨true, rfl, by
        simp only [true_iff]
        exact ⟨i, Nat.le_refl _, by omega, e, he, (strcmp_eq_zero_iff _ _).mp heq⟩⟩
    · rw [if_neg heq]
      obtain ⟨b, hb, hiff⟩ := ih (i + 1) (by omega)
      refine ⟨b, hb, hiff.trans ⟨?_, ?_⟩⟩
      · rintro ⟨j, h1, h2, e1, he1, hd⟩
        exact ⟨j, by omega, h2, e1, he1, hd⟩
      · rintro ⟨j, h1, h2, e1, he1, hd⟩
        have hne : j ≠ i := by
          rintro rfl
          rw [he] at he1
          simp only [Option.some.injEq] at he1
          subst he1
          exact heq ((strcmp_eq_zero_iff _ _).mpr hd)
        exact ⟨j, by omega, h2, e1, he1, hd⟩

/-- C3. For an absent list or a well-formed present one and every text,
`string_list_find_elem` returns, and returns true exactly when the list is
present and one of its first `size` elements has a string equal to the text;
an absent list and an empty list give false. -/
theorem string_list_find_elem_contract (list : Option string_list) (text : List Char)
    (hw : ∀ l, list = some l → WF l) :
    ∃ b, string_list_find_elem list text = .ok b ∧
      (b = true ↔ ∃ l, list = some l ∧
        ∃ i, i < l.size ∧ ∃ e, l.elems[i]? = some (some e) ∧ e.data = text) ∧
      (list = none → b = false) ∧
      (∀ l, list = some l → l.size = 0 → b = false) := by
  cases list with
  | none => exact ⟨false, rfl, by simp, fun _ => rfl, fun _ _ _ => rfl⟩
  | some l =>
    obtain ⟨b, hb, hiff⟩ :=
      string_list_find_elem_loop_spec l (hw l rfl) text l.size 0 (by omega)
    have hiff2 : b = true ↔ ∃ l1, some l = some l1 ∧
        ∃ i, i < l1.size ∧ ∃ e, l1.elems[i]? = some (some e) ∧ e.data = text := by
      rw [hiff]
      constructor
      · rintro ⟨j, _, h2, e, he, hd⟩
        exact ⟨l, rfl, j, h2, e, he, hd⟩
      · rintro ⟨l1, hl1, j, h2, e, he, hd⟩
        simp only [Option.some.injEq] at hl1
        subst hl1
        exact ⟨j, Nat.zero_le _, h2, e, he, hd⟩
    refine ⟨b, hb, hiff2, by simp, ?_⟩
    intro l1 hl1 hsz
    simp only [Option.some.injEq] at hl1
    subst hl1
    cases b with
    | false => rfl
    | true =>
      obtain ⟨j, _, h2, _⟩ := hiff.mp rfl
      omega

/-- Witness for C3: in the list `zip`, `7z` the text `7z` is found, `7Z` is
not (the comparison is case-sensitive). -/
theorem string_list_find_elem_contract_witness :
    WF ⟨[some ⟨"zip".toList, attr_zero⟩, some ⟨"7z".toList, attr_zero⟩, none], 2, 3⟩ ∧
    string_list_find_elem
      (some ⟨[some ⟨"zip".toList, attr_zero⟩, some ⟨"7z".toList, attr_zero⟩, none], 2, 3⟩)
      "7z".toList = .ok true ∧
    string_list_find_elem
      (some ⟨[some ⟨"zip".toList, attr_zero⟩, some ⟨"7z".toList, attr_zero⟩, none], 2, 3⟩)
      "7Z".toList = .ok false ∧
    ∃ b, string_list_find_elem
      (some ⟨[some ⟨"zip".toList, attr_zero⟩, some ⟨"7z".toList, attr_zero⟩, none], 2, 3⟩)
      "7z".toList = .ok b ∧
      (b = true ↔ ∃ l, some (⟨[some ⟨"zip".toList, attr_zero⟩, some ⟨"7z".toList, attr_zero⟩,
          none], 2, 3⟩ : string_list) = some l ∧
        ∃ i, i < l.size ∧ ∃ e, l.elems[i]? = some (some e) ∧ e.data = "7z".toList) :=
  have hw : WF ⟨[some ⟨"zip".toList, attr_zero⟩, some ⟨"7z".toList, attr_zero⟩, none], 2, 3⟩ :=
    ⟨rfl, by decide, by decide, by
      intro i hi
      have : i = 0 ∨ i = 1 := by change i < 2 at hi; omega
      rcases this with rfl | rfl
      · exact ⟨_, rfl⟩
      · exact ⟨_, rfl⟩⟩
  ⟨hw, by decide, by decide,
    (string_list_find_elem_contract _ "7z".toList
      (fun l1 h1 => by cases h1; exact hw)).imp fun _ hb => ⟨hb.1, hb.2.1⟩⟩

/-! ### C4: `string_list_find_elem_prefix` -/

theorem string_list_find_elem_prefix_loop_spec (l : string_list) (hw : WF l)
    (prefixed text : List Char) :
    ∀ (n i : Nat), i + n = l.size →
      ∃ b, string_list_find_elem_prefix_loop l prefixed text n i = .ok b ∧
        (b = true ↔ ∃ j, i ≤ j ∧ j < l.size ∧
          ∃ e, l.elems[j]? = some (some e) ∧ (e.data = text ∨ e.data = prefixed)) := by
  intro n
  induction n with
  | zero =>
    intro i hi
    refine ⟨false, rfl, ?_⟩
    simp only [Bool.false_eq_true, false_iff, not_exists, not_and]
    intro j h1 h2
    omega
  | succ n ih =>
    intro i hi
    obtain ⟨e, he, hread⟩ := string_list_read_of_WF hw (show i < l.size by omega)
    simp only [string_list_find_elem_prefix_loop, hread, strcmp_eq_zero_iff]
    by_cases heq : e.data = text ∨ e.data = prefixed
    · rw [if_pos heq]
      exact ⟨true, rfl, by
        simp only [true_iff]
        exact ⟨i, Nat.le_refl _, by omega, e, he, heq⟩⟩
    · rw [if_neg heq]
      obtain ⟨b, hb, hiff⟩ := ih (i + 1) (by omega)
      refine ⟨b, hb, hiff.trans ⟨?_, ?_⟩⟩
      · rintro ⟨j, h1, h2, e1, he1, hd⟩
        exact ⟨j, by omega, h2, e1, he1, hd⟩
      · rintro ⟨j, h1, h2, e1, he1, hd⟩
        have hne : j ≠ i := by
          rintro rfl
          rw [he] at he1
          simp only [Option.some.injEq] at he1
          subst he1
          exact heq hd
        exact ⟨j, by omega, h2, e1, he1, hd⟩

/-- What `string_list_find_elem_prefix` computes for any lengths: a match
against the text or against the content of the `PATH_MAX` buffer. -/
theorem string_list_find_elem_prefix_spec (PATH_MAX : Nat) (l : string_list) (hw : WF l)
    (pre text : List Char) :
    ∃ b, string_list_find_elem_prefix PATH_MAX (some l) pre text = .ok b ∧
      (b = true ↔ ∃ i, i < l.size ∧ ∃ e, l.elems[i]? = some (some e) ∧
        (e.data = text ∨ e.data = (pre ++ text).take (PATH_MAX - 1))) := by
  obtain ⟨b, hb, hiff⟩ :=
    string_list_find_elem_prefix_loop_spec l hw (snprintf PATH_MAX (pre ++ text)) text
      l.size 0 (by omega)
  refine ⟨b, hb, hiff.trans ⟨?_, ?_⟩⟩
  · rintro ⟨j, _, h2, e, he, hd⟩
    exact ⟨j, h2, e, he, hd⟩
  · rintro ⟨j, h2, e, he, hd⟩
    exact ⟨j, Nat.zero_le _, h2, e, he, hd⟩

/-- The truncation in `string_list_find_elem_prefix` for a buffer of `n + 2`
characters, prefix `.` and a text of `n + 1` letters `a`. -/
theorem string_list_find_elem_prefix_truncates (n : Nat) :
    ( string_list_find_elem_prefix (n + 2)
        (some ⟨(some ⟨['.'] ++ List.replicate (n + 1) 'a', attr_zero⟩) :: List.replicate 31 none, 1, 32⟩)
        ['.'] (List.replicate (n + 1) 'a') = .ok false) ∧
    ( string_list_find_elem_prefix (n + 2)
        (some ⟨(some ⟨'.' :: List.replicate n 'a', attr_zero⟩) :: List.replicate 31 none, 1, 32⟩)
        ['.'] (List.replicate (n + 1) 'a') = .ok true ∧
      '.' :: List.replicate n 'a' ≠ List.replicate (n + 1) 'a' ∧
      '.' :: List.replicate n 'a' ≠ ['.'] ++ List.replicate (n + 1) 'a') := by
  have hlen : ∀ (x y : List Char), x.length ≠ y.length → x ≠ y := by
    intro x y hne hxy
    exact hne (by rw [hxy])
  have htrunc : snprintf (n + 2) (['.'] ++ List.replicate (n + 1) 'a') =
      '.' :: List.replicate n 'a' := by
    simp [snprintf, List.take_replicate]
  have hhead : ('.' :: List.replicate n 'a') ≠ List.replicate (n + 1) 'a' := by
    rw [List.replicate_succ]
    intro hc
    exact absurd (List.cons.inj hc).1 (by decide)
  have hfull : ('.' :: List.replicate n 'a') ≠ ['.'] ++ List.replicate (n + 1) 'a' :=
    hlen _ _ (by simp)
  refine ⟨?_, ?_, hhead, hfull⟩
  · have h1 : ¬ (['.'] ++ List.replicate (n + 1) 'a' = List.replicate (n + 1) 'a') :=
      hlen _ _ (by simp)
    simp only [ string_list_find_elem_prefix, string_list_find_elem_prefix_loop,
      string_list_read, strcmp_eq_zero_iff, htrunc]
    simp only [List.getElem?_cons_zero]
    rw [if_neg]
    rintro (h | h)
    · exact h1 h
    · exact hfull h.symm
  · simp only [ string_list_find_elem_prefix, string_list_find_elem_prefix_loop,
      string_list_read, strcmp_eq_zero_iff, htrunc]
    simp

/-- C4, counterexample. With `PATH_MAX = 4096`, prefix `.` and a text of 4095
letters `a`: the list whose only element is prefix ++ text is reported as not
matching, and the list whose only element is the 4095-character truncation of
prefix ++ text (neither the text nor prefix ++ text) is reported as matching. -/
theorem string_list_find_elem_prefix_counterexample :
    ( string_list_find_elem_prefix 4096
        (some ⟨(some ⟨['.'] ++ List.replicate 4095 'a', attr_zero⟩) :: List.replicate 31 none, 1, 32⟩)
        ['.'] (List.replicate 4095 'a') = .ok false) ∧
    ( string_list_find_elem_prefix 4096
        (some ⟨(some ⟨'.' :: List.replicate 4094 'a', attr_zero⟩) :: List.replicate 31 none, 1, 32⟩)
        ['.'] (List.replicate 4095 'a') = .ok true ∧
      '.' :: List.replicate 4094 'a' ≠ List.replicate 4095 'a' ∧
      '.' :: List.replicate 4094 'a' ≠ ['.'] ++ List.replicate 4095 'a') :=
  string_list_find_elem_prefix_truncates 4094

/-- C4, amended. For an absent list or a well-formed present one, and a
prefix and text whose concatenation is shorter than `PATH_MAX`,
`string_list_find_elem_prefix` returns, and returns true exactly when the list
is present and one of its elements equals the text or prefix ++ text. -/
theorem string_list_find_elem_prefix_contract (PATH_MAX : Nat) (list : Option string_list)
    (pre text : List Char) (hw : ∀ l, list = some l → WF l)
    (hfit : (pre ++ text).length < PATH_MAX) :
    ∃ b, string_list_find_elem_prefix PATH_MAX list pre text = .ok b ∧
      (b = true ↔ ∃ l, list = some l ∧
        ∃ i, i < l.size ∧ ∃ e, l.elems[i]? = some (some e) ∧
          (e.data = text ∨ e.data = pre ++ text)) := by
  cases list with
  | none => exact ⟨false, rfl, by simp⟩
  | some l =>
    obtain ⟨b, hb, hiff⟩ := string_list_find_elem_prefix_spec PATH_MAX l (hw l rfl) pre text
    have htake : (pre ++ text).take (PATH_MAX - 1) = pre ++ text :=
      List.take_of_length_le (by omega)
    rw [htake] at hiff
    refine ⟨b, hb, hiff.trans ⟨?_, ?_⟩⟩
    · rintro ⟨j, h2, e, he, hd⟩
      exact ⟨l, rfl, j, h2, e, he, hd⟩
    · rintro ⟨l1, hl1, j, h2, e, he, hd⟩
      simp only [Option.some.injEq] at hl1
      subst hl1
      exact ⟨j, h2, e, he, hd⟩

/-- Witness for C4: with prefix `.` and text `zip` the lookup is true for the
list `zip` and for the list `.zip`. -/
theorem string_list_find_elem_prefix_contract_witness :
    WF ⟨[some ⟨".zip".toList, attr_zero⟩], 1, 1⟩ ∧
    ("." ++ "zip").length < 4096 ∧
    string_list_find_elem_prefix 4096 (some ⟨[some ⟨"zip".toList, attr_zero⟩], 1, 1⟩)
      ".".toList "zip".toList = .ok true ∧
    string_list_find_elem_prefix 4096 (some ⟨[some ⟨".zip".toList, attr_zero⟩], 1, 1⟩)
      ".".toList "zip".toList = .ok true ∧
    ∃ b, string_list_find_elem_prefix 4096 (some ⟨[some ⟨".zip".toList, attr_zero⟩], 1, 1⟩)
        ".".toList "zip".toList = .ok b ∧
      (b = true ↔ ∃ l, some (⟨[some ⟨".zip".toList, attr_zero⟩], 1, 1⟩ : string_list) = some l ∧
        ∃ i, i < l.size ∧ ∃ e, l.elems[i]? = some (some e) ∧
          (e.data = "zip".toList ∨ e.data = ".".toList ++ "zip".toList)) :=
  have hw : WF ⟨[some ⟨".zip".toList, attr_zero⟩], 1, 1⟩ :=
    ⟨rfl, by decide, by decide, by
      intro i hi
      have : i = 0 := by change i < 1 at hi; omega
      subst this
      exact ⟨_, rfl⟩⟩
  ⟨hw, by decide, by decide, by decide,
    string_list_find_elem_prefix_contract 4096 _ ".".toList "zip".toList
      (fun l1 h1 => by cases h1; exact hw) (by decide)⟩

/-! ### C5: `dir_list_new` -/

theorem mem_used_iff (l : string_list) (x : Option string_list_elem) :
    x ∈ l.used ↔ ∃ i, i < l.size ∧ l.elems[i]? = some x := by
  unfold string_list.used
  rw [List.mem_iff_getElem?]
  constructor
  · rintro ⟨i, hi⟩
    rw [List.getElem?_take] at hi
    by_cases hlt : i < l.size
    · rw [if_pos hlt] at hi
      exact ⟨i, hlt, hi⟩
    · rw [if_neg hlt] at hi
      simp at hi
  · rintro ⟨i, hlt, hi⟩
    exact ⟨i, by rw [List.getElem?_take, if_pos hlt]; exact hi⟩

theorem string_list_find_elem_prefix_congr (PATH_MAX : Nat) (l l1 : string_list) (hw : WF l)
    (hw1 : WF l1) (hused : l.used = l1.used) (pre text : List Char) :
    string_list_find_elem_prefix PATH_MAX (some l) pre text =
      string_list_find_elem_prefix PATH_MAX (some l1) pre text := by
  obtain ⟨b, hb, hiff⟩ := string_list_find_elem_prefix_spec PATH_MAX l hw pre text
  obtain ⟨b1, hb1, hiff1⟩ := string_list_find_elem_prefix_spec PATH_MAX l1 hw1 pre text
  have key : b = true ↔ b1 = true := by
    rw [hiff, hiff1]
    constructor
    · rintro ⟨i, hi, e, he, hd⟩
      have hm : some e ∈ l1.used := hused ▸ (mem_used_iff l (some e)).mpr ⟨i, hi, he⟩
      obtain ⟨j, hj, hej⟩ := (mem_used_iff l1 (some e)).mp hm
      exact ⟨j, hj, e, hej, hd⟩
    · rintro ⟨i, hi, e, he, hd⟩
      have hm : some e ∈ l.used := hused ▸ (mem_used_iff l1 (some e)).mpr ⟨i, hi, he⟩
      obtain ⟨j, hj, hej⟩ := (mem_used_iff l (some e)).mp hm
      exact ⟨j, hj, e, hej, hd⟩
  have hbb : b = b1 := by
    cases b <;> cases b1 <;> simp_all
  rw [hb, hb1, hbb]

theorem dir_list_new_loop_noFail (PATH_MAX : Nat) (dir : List Char)
    (ext_list : Option string_list) (include_dirs : Bool)
    (hwe : ∀ fl, ext_list = some fl → WF fl) :
    ∀ (entries : List dirent) (list : string_list) (h : Heap), WF list → NoFail h →
      (∀ e ∈ entries, (dir ++ '/' :: e.d_name).length < PATH_MAX) →
      ∃ l1 h1, dir_list_new_loop PATH_MAX dir ext_list include_dirs entries list h =
          .ok (some l1, h1) ∧ WF l1 ∧
        l1.used = list.used ++
          (entries.filter (entry_accepted PATH_MAX ext_list include_dirs)).map
            (fun e => some ⟨dir ++ '/' :: e.d_name, ⟨e.is_dir⟩⟩) := by
  intro entries
  induction entries with
  | nil =>
    intro list h hw _ _
    exact ⟨list, h, rfl, hw, by simp⟩
  | cons e rest ih =>
    intro list h hw hn hfit
    have hfit_rest : ∀ x ∈ rest, (dir ++ '/' :: x.d_name).length < PATH_MAX :=
      fun x hx => hfit x (List.mem_cons_of_mem _ hx)
    have hsn : snprintf PATH_MAX (dir ++ '/' :: e.d_name) = dir ++ '/' :: e.d_name := by
      unfold snprintf
      exact List.take_of_length_le (by have := hfit e (List.mem_cons_self _ _); omega)
    -- an entry that is skipped
    have hskip : entry_accepted PATH_MAX ext_list include_dirs e = false →
        dir_list_new_loop PATH_MAX dir ext_list include_dirs (e :: rest) list h =
          dir_list_new_loop PATH_MAX dir ext_list include_dirs rest list h →
        ∃ l1 h1, dir_list_new_loop PATH_MAX dir ext_list include_dirs (e :: rest) list h =
            .ok (some l1, h1) ∧ WF l1 ∧
          l1.used = list.used ++
            ((e :: rest).filter (entry_accepted PATH_MAX ext_list include_dirs)).map
              (fun e => some ⟨dir ++ '/' :: e.d_name, ⟨e.is_dir⟩⟩) := by
      intro hacc heq
      obtain ⟨l1, h1, hloop, hw1, hused⟩ := ih list h hw hn hfit_rest
      refine ⟨l1, h1, heq.trans hloop, hw1, ?_⟩
      rw [hused, List.filter_cons_of_neg (by simp [hacc])]
    -- an entry that is appended
    have hkeep : entry_accepted PATH_MAX ext_list include_dirs e = true →
        (∀ l2 h2, string_list_append list (dir ++ '/' :: e.d_name) ⟨e.is_dir⟩ h =
            .ok (true, l2, h2) →
          dir_list_new_loop PATH_MAX dir ext_list include_dirs (e :: rest) list h =
            dir_list_new_loop PATH_MAX dir ext_list include_dirs rest l2 h2) →
        ∃ l1 h1, dir_list_new_loop PATH_MAX dir ext_list include_dirs (e :: rest) list h =
            .ok (some l1, h1) ∧ WF l1 ∧
          l1.used = list.used ++
            ((e :: rest).filter (entry_accepted PATH_MAX ext_list include_dirs)).map
              (fun e => some ⟨dir ++ '/' :: e.d_name, ⟨e.is_dir⟩⟩) := by
      intro hacc heq
      obtain ⟨l2, h2, happ, hn2⟩ :=
        append_noFail hw (dir ++ '/' :: e.d_name) ⟨e.is_dir⟩ hn
      obtain ⟨hw2, hT, _, _⟩ := append_step hw happ
      obtain ⟨l1, h1, hloop, hw1, hused⟩ := ih l2 h2 hw2 hn2 hfit_rest
      refine ⟨l1, h1, (heq l2 h2 happ).trans hloop, hw1, ?_⟩
      rw [hused, (hT rfl).2, List.filter_cons_of_pos (by simp [hacc])]
      simp
    by_cases h1 : (!include_dirs && e.is_dir) = true
    · apply hskip
      · simp only [Bool.and_eq_true, Bool.not_eq_true'] at h1
        simp [entry_accepted, h1.1, h1.2]
      · simp only [dir_list_new_loop]
        rw [if_pos h1]
    · by_cases h2 : strcmp e.d_name ['.'] = 0 ∨ strcmp e.d_name ['.', '.'] = 0
      · apply hskip
        · simp only [strcmp_eq_zero_iff] at h2
          rcases h2 with h2 | h2 <;> simp [entry_accepted, h2]
        · simp only [dir_list_new_loop]
          rw [if_neg h1, if_pos h2]
      · have hname : e.d_name ≠ ['.'] ∧ e.d_name ≠ ['.', '.'] := by
          simp only [strcmp_eq_zero_iff, not_or] at h2
          exact h2
        by_cases h3 : (!e.is_dir && ext_list.isSome) = true
        · simp only [Bool.and_eq_true, Bool.not_eq_true'] at h3
          obtain ⟨fl, hfl⟩ := Option.isSome_iff_exists.mp h3.2
          subst hfl
          obtain ⟨b, hb, _⟩ := string_list_find_elem_prefix_spec PATH_MAX fl (hwe fl rfl) ['.']
            (path_get_extension e.d_name)
          cases b with
          | false =>
            apply hskip
            · simp [entry_accepted, hname.1, hname.2, h3.1, hb]
            · simp only [dir_list_new_loop]
              rw [if_neg h1, if_neg h2]
              simp [h3.1, hb]
          | true =>
            apply hkeep
            · simp [entry_accepted, hname.1, hname.2, h3.1, hb]
            · intro l2 h2a happ
              simp only [dir_list_new_loop]
              rw [if_neg h1, if_neg h2]
              rw [h3.1] at happ
              simp [h3.1, hb, hsn, happ]
        · apply hkeep
          · simp only [Bool.and_eq_true, Bool.not_eq_true', not_and, Bool.not_eq_true,
              Option.not_isSome, Option.isNone_iff_eq_none] at h3
            simp only [Bool.and_eq_true, Bool.not_eq_true', not_and, Bool.not_eq_false] at h1
            cases hd : e.is_dir with
            | true =>
              have hinc : include_dirs = true := by
                cases hi : include_dirs with
                | true => rfl
                | false => exact absurd (h1 hi) (by simp [hd])
              simp [entry_accepted, hname.1, hname.2, hd, hinc]
            | false =>
              have := h3 hd
              simp [entry_accepted, hname.1, hname.2, hd, this]
          · intro l2 h2a happ
            simp only [dir_list_new_loop]
            rw [if_neg h1, if_neg h2, if_neg h3]
            simp [hsn, happ]

theorem entry_accepted_congr (PATH_MAX : Nat) (fl fl1 : string_list) (hw : WF fl) (hw1 : WF fl1)
    (hused : fl.used = fl1.used) (include_dirs : Bool) :
    entry_accepted PATH_MAX (some fl) include_dirs =
      entry_accepted PATH_MAX (some fl1) include_dirs := by
  funext e
  simp only [entry_accepted]
  rw [string_list_find_elem_prefix_congr PATH_MAX fl fl1 hw hw1 hused]

/-- C5. POSIX `dir_list_new` on a directory that opens, with no allocation
failure and every joined path shorter than `PATH_MAX`: the scan returns a
present list whose elements in use are, in enumeration order, exactly one
element `(dir ++ "/" ++ name, is_directory)` for each entry that is not `.` or
`..` and is either a directory with `include_dirs`, or a non-directory for
which the filter is absent or `string_list_find_elem_prefix` finds its
extension in the split filter. -/
theorem dir_list_new_contract (PATH_MAX : Nat) (opendir : List Char → Option (List dirent))
    (dir : List Char) (ext : Option (List Char)) (include_dirs : Bool) (h : Heap)
    (entries : List dirent) (hopen : opendir dir = some entries) (hn : NoFail h)
    (hfit : ∀ e ∈ entries, (dir ++ '/' :: e.d_name).length < PATH_MAX) :
    ∃ l h1, dir_list_new PATH_MAX opendir dir ext include_dirs h = .ok (some l, h1) ∧
      l.used = scan_result PATH_MAX dir ext include_dirs entries ∧
      l.size = (scan_result PATH_MAX dir ext include_dirs entries).length := by
  obtain ⟨hnew, hn0⟩ := string_list_new_noFail hn
  have main : ∃ l h1, dir_list_new PATH_MAX opendir dir ext include_dirs h = .ok (some l, h1) ∧
      WF l ∧ l.used = scan_result PATH_MAX dir ext include_dirs entries := by
    cases ext with
    | none =>
      obtain ⟨l, h1, hloop, hw, hused⟩ :=
        dir_list_new_loop_noFail PATH_MAX dir none include_dirs (by simp) entries _ _
          WF_fresh hn0 hfit
      refine ⟨l, h1, ?_, hw, ?_⟩
      · unfold dir_list_new
        rw [hnew]
        simp only [hopen]
        exact hloop
      · rw [hused]
        simp [string_list.used, scan_result, filter_list]
    | some f =>
      obtain ⟨fl, h2, hsplit, hwf, hn2, hfused⟩ := string_split_noFail f ['|'] _ hn0
      obtain ⟨fl0, h3, hsplit0, hwf0, _, hfused0⟩ :=
        string_split_noFail f ['|'] [] (by intro b hb; simp at hb)
      obtain ⟨l, h1, hloop, hw, hused⟩ :=
        dir_list_new_loop_noFail PATH_MAX dir (some fl) include_dirs
          (by intro x hx; simp only [Option.some.injEq] at hx; subst hx; exact hwf)
          entries _ _ WF_fresh hn2 hfit
      refine ⟨l, h1, ?_, hw, ?_⟩
      · unfold dir_list_new
        rw [hnew]
        simp only [hsplit, hopen]
        exact hloop
      · rw [hused]
        have hfl : filter_list (some f) = some fl0 := by
          simp only [filter_list, hsplit0]
        rw [scan_result, hfl,
          entry_accepted_congr PATH_MAX fl fl0 hwf hwf0 (hfused.trans hfused0.symm)]
        simp [string_list.used]
  obtain ⟨l, h1, hrun, hw, hused⟩ := main
  exact ⟨l, h1, hrun, hused, by rw [← WF_used_length hw, hused]⟩

/-- Witness for C5: the directory `d` with entries `.`, `..`, `a.zip`, `b.7z`,
`c.txt` and the subdirectory `sub`, scanned with the filter `zip|7z`: without
directories the result is `d/a.zip`, `d/b.7z`; with directories `d/sub` is
added, tagged as directory. -/
theorem dir_list_new_contract_witness :
    (∃ l h1, dir_list_new 4096 (fun _ => some sample_entries) "d".toList
        (some "zip|7z".toList) false [] = .ok (some l, h1) ∧
      l.used = [some ⟨"d/a.zip".toList, ⟨false⟩⟩, some ⟨"d/b.7z".toList, ⟨false⟩⟩] ∧
      l.size = 2) ∧
    (∃ l h1, dir_list_new 4096 (fun _ => some sample_entries) "d".toList
        (some "zip|7z".toList) true [] = .ok (some l, h1) ∧
      l.used = [some ⟨"d/a.zip".toList, ⟨false⟩⟩, some ⟨"d/b.7z".toList, ⟨false⟩⟩,
        some ⟨"d/sub".toList, ⟨true⟩⟩] ∧
      l.size = 3) := by
  have hfit : ∀ e ∈ sample_entries, ("d".toList ++ '/' :: e.d_name).length < 4096 := by decide
  constructor
  · obtain ⟨l, h1, hrun, hused, hsz⟩ :=
      dir_list_new_contract 4096 (fun _ => some sample_entries) "d".toList
        (some "zip|7z".toList) false [] sample_entries rfl (by decide) hfit
    exact ⟨l, h1, hrun, hused.trans (by decide), hsz.trans (by decide)⟩
  · obtain ⟨l, h1, hrun, hused, hsz⟩ :=
      dir_list_new_contract 4096 (fun _ => some sample_entries) "d".toList
        (some "zip|7z".toList) true [] sample_entries rfl (by decide) hfit
    exact ⟨l, h1, hrun, hused.trans (by decide), hsz.trans (by decide)⟩

/-! ### Comparators -/

theorem tolower_toNat_ne {x y : Char} (h : tolower x ≠ tolower y) :
    (tolower x).toNat ≠ (tolower y).toNat := by
  intro hc
  apply h
  rw [← Char.ofNat_toNat (tolower x), ← Char.ofNat_toNat (tolower y), hc]

/-- The result of `strcasecmp` against the lexicographic order of the
lower-cased character codes. -/
theorem strcasecmp_spec (a b : List Char) :
    (strcasecmp a b = -1 ∧ ci_key a < ci_key b) ∨
    (strcasecmp a b = 0 ∧ ci_key a = ci_key b) ∨
    (strcasecmp a b = 1 ∧ ci_key b < ci_key a) := by
  induction a generalizing b with
  | nil =>
    cases b with
    | nil => exact Or.inr (Or.inl ⟨rfl, rfl⟩)
    | cons y ys => exact Or.inl ⟨rfl, List.Lex.nil⟩
  | cons x xs ih =>
    cases b with
    | nil => exact Or.inr (Or.inr ⟨rfl, List.Lex.nil⟩)
    | cons y ys =>
      simp only [strcasecmp, ci_key, List.map_cons]
      by_cases hxy : tolower x = tolower y
      · rw [if_pos hxy, hxy]
        rcases ih ys with h | h | h
        · exact Or.inl ⟨h.1, List.Lex.cons h.2⟩
        · refine Or.inr (Or.inl ⟨h.1, ?_⟩)
          have := h.2
          simp only [ci_key] at this
          rw [this]
        · exact Or.inr (Or.inr ⟨h.1, List.Lex.cons h.2⟩)
      · rw [if_neg hxy]
        have hne := tolower_toNat_ne hxy
        by_cases hlt : (tolower x).toNat < (tolower y).toNat
        · rw [if_pos hlt]
          exact Or.inl ⟨rfl, List.Lex.rel hlt⟩
        · rw [if_neg hlt]
          exact Or.inr (Or.inr ⟨rfl, List.Lex.rel (by omega)⟩)

theorem strcasecmp_le_iff (a b : List Char) : strcasecmp a b ≤ 0 ↔ ci_le a b := by
  unfold ci_le
  rcases strcasecmp_spec a b with h | h | h
  · rw [h.1]; exact ⟨fun _ => le_of_lt h.2, fun _ => by decide⟩
  · rw [h.1]; exact ⟨fun _ => le_of_eq h.2, fun _ => by decide⟩
  · rw [h.1]; exact ⟨fun hc => absurd hc (by decide), fun hc => absurd hc (not_le_of_lt h.2)⟩

theorem strcasecmp_eq_zero_iff (a b : List Char) : strcasecmp a b = 0 ↔ ci_key a = ci_key b := by
  rcases strcasecmp_spec a b with h | h | h
  · rw [h.1]; exact ⟨fun hc => absurd hc (by decide), fun hc => absurd hc (ne_of_lt h.2)⟩
  · rw [h.1]; exact ⟨fun _ => h.2, fun _ => rfl⟩
  · rw [h.1]; exact ⟨fun hc => absurd hc (by decide), fun hc => absurd hc.symm (ne_of_lt h.2)⟩

theorem strcasecmp_swap (a b : List Char) : strcasecmp b a = - strcasecmp a b := by
  rcases strcasecmp_spec a b with h | h | h
  · rcases strcasecmp_spec b a with g | g | g
    · exact absurd g.2 (lt_asymm h.2)
    · exact absurd g.2.symm (ne_of_lt h.2)
    · simp [h.1, g.1]
  · rcases strcasecmp_spec b a with g | g | g
    · exact absurd h.2.symm (ne_of_lt g.2)
    · simp [h.1, g.1]
    · exact absurd h.2 (ne_of_lt g.2)
  · rcases strcasecmp_spec b a with g | g | g
    · simp [h.1, g.1]
    · exact absurd g.2 (ne_of_lt h.2)
    · exact absurd g.2 (lt_asymm h.2)

theorem qstrcmp_plain_le_iff (a b : string_list_elem) :
    qstrcmp_plain a b ≤ 0 ↔ ci_le a.data b.data :=
  strcasecmp_le_iff a.data b.data

theorem qstrcmp_dir_le_iff (a b : string_list_elem) :
    qstrcmp_dir a b ≤ 0 ↔
      (a.attr.b = true ∧ b.attr.b = false) ∨ (a.attr.b = b.attr.b ∧ ci_le a.data b.data) := by
  unfold qstrcmp_dir
  cases ha : a.attr.b <;> cases hb : b.attr.b <;> simp [strcasecmp_le_iff]

theorem qstrcmp_plain_consistent : ConsistentCmp qstrcmp_plain := by
  refine ⟨?_, ?_⟩
  · intro a b
    unfold qstrcmp_plain
    rw [strcasecmp_swap b.data a.data, Int.sign_neg]
  · intro a b c hab hbc
    rw [qstrcmp_plain_le_iff] at *
    exact le_trans hab hbc

theorem qstrcmp_dir_consistent : ConsistentCmp qstrcmp_dir := by
  refine ⟨?_, ?_⟩
  · intro a b
    unfold qstrcmp_dir
    cases ha : a.attr.b <;> cases hb : b.attr.b <;>
      simp [strcasecmp_swap b.data a.data, Int.sign_neg]
  · intro a b c hab hbc
    rw [qstrcmp_dir_le_iff] at *
    rcases hab with ⟨h1, h2⟩ | ⟨h1, h2⟩
    · rcases hbc with ⟨h3, h4⟩ | ⟨h3, h4⟩
      · rw [h2] at h3; exact absurd h3 (by decide)
      · exact Or.inl ⟨h1, by rw [← h3]; exact h2⟩
    · rcases hbc with ⟨h3, h4⟩ | ⟨h3, h4⟩
      · exact Or.inl ⟨by rw [h1]; exact h3, h4⟩
      · exact Or.inr ⟨h1.trans h3, le_trans h2 h4⟩

/-! ### Insertion sort is a correct `qsort` -/

theorem insert_by_perm (cmp : string_list_elem → string_list_elem → Int) (x : string_list_elem)
    (l : List string_list_elem) : (insert_by cmp x l).Perm (x :: l) := by
  induction l with
  | nil => exact List.Perm.refl _
  | cons y ys ih =>
    simp only [insert_by]
    split
    · exact List.Perm.refl _
    · exact (List.Perm.cons y ih).trans (List.Perm.swap x y ys)

theorem insert_by_sorted (cmp : string_list_elem → string_list_elem → Int)
    (hc : ConsistentCmp cmp) (x : string_list_elem) (l : List string_list_elem)
    (hl : l.Pairwise (fun a b => cmp a b ≤ 0)) :
    (insert_by cmp x l).Pairwise (fun a b => cmp a b ≤ 0) := by
  induction l with
  | nil => simp [insert_by]
  | cons y ys ih =>
    simp only [insert_by]
    obtain ⟨hy, hys⟩ := List.pairwise_cons.mp hl
    split
    · rename_i hxy
      refine List.pairwise_cons.mpr ⟨?_, hl⟩
      intro z hz
      rcases List.mem_cons.mp hz with rfl | hz
      · exact hxy
      · exact hc.2 x y z hxy (hy z hz)
    · rename_i hxy
      have hyx : cmp y x ≤ 0 := by
        have hs := hc.1 x y
        have hpos : 0 < cmp x y := by omega
        rw [Int.sign_eq_one_of_pos hpos] at hs
        have : (cmp y x).sign = -1 := by omega
        have := Int.sign_eq_neg_one_iff_neg.mp this
        omega
      refine List.pairwise_cons.mpr ⟨?_, ih hys⟩
      intro z hz
      have hz1 : z ∈ x :: ys := (insert_by_perm cmp x ys).subset hz
      rcases List.mem_cons.mp hz1 with rfl | hz1
      · exact hyx
      · exact hy z hz1

theorem insertion_qsort_correct : QsortCorrect insertion_qsort := by
  intro cmp hc l
  induction l with
  | nil => exact ⟨List.Perm.refl _, List.Pairwise.nil⟩
  | cons x xs ih =>
    simp only [insertion_qsort]
    exact ⟨(insert_by_perm cmp x _).trans (List.Perm.cons x ih.1),
      insert_by_sorted cmp hc x _ ih.2⟩

/-! ### C6: `dir_list_sort` -/

theorem drop_of_getElem? {α : Type} (l : List α) (i : Nat) (x : α) (hx : l[i]? = some x) :
    l.drop i = x :: l.drop (i + 1) := by
  induction l generalizing i with
  | nil => simp at hx
  | cons y ys ih =>
    cases i with
    | zero =>
      simp only [List.getElem?_cons_zero, Option.some.injEq] at hx
      simp [hx]
    | succ j =>
      simp only [List.getElem?_cons_succ] at hx
      simpa using ih j hx

theorem string_list_load_spec (l : string_list) (hw : WF l) :
    ∀ (n i : Nat), i + n ≤ l.size →
      ∃ es, string_list_load l n i = .ok es ∧ (l.elems.drop i).take n = es.map some := by
  intro n
  induction n with
  | zero =>
    intro i _
    exact ⟨[], rfl, by simp⟩
  | succ n ih =>
    intro i hi
    obtain ⟨e, he, hread⟩ := string_list_read_of_WF hw (show i < l.size by omega)
    obtain ⟨es, hes, hmap⟩ := ih (i + 1) (by omega)
    refine ⟨e :: es, ?_, ?_⟩
    · simp only [string_list_load, hread, hes]
    · rw [drop_of_getElem? l.elems i (some e) he, List.take_succ_cons, hmap]
      rfl

/-- C6. For every correct comparison sort `qsort`, every well-formed present
list and either mode, `dir_list_sort` returns with `size` and `cap` unchanged
and the elements in use a permutation of the original (string, attribute)
pairs, ordered by the selected policy: with `dir_first = false` the strings
ascend case-insensitively; with `dir_first = true` no file-tagged element
precedes a directory-tagged one and among equally tagged elements the strings
ascend case-insensitively. An absent list stays absent. -/
theorem dir_list_sort_contract
    (qsort : (string_list_elem → string_list_elem → Int) → List string_list_elem →
      List string_list_elem)
    (hq : QsortCorrect qsort) (l : string_list) (hw : WF l) (dir_first : Bool) :
    dir_list_sort qsort none dir_first = .ok none ∧
    ∃ (l1 : string_list) (es es1 : List string_list_elem),
      dir_list_sort qsort (some l) dir_first = .ok (some l1) ∧
      l1.size = l.size ∧ l1.cap = l.cap ∧
      l.used = es.map some ∧ l1.used = es1.map some ∧ es1.Perm es ∧
      (dir_first = false → es1.Pairwise (fun a b => ci_le a.data b.data)) ∧
      (dir_first = true → es1.Pairwise (fun a b =>
        (b.attr.b = true → a.attr.b = true) ∧
        (a.attr.b = b.attr.b → ci_le a.data b.data))) := by
  refine ⟨rfl, ?_⟩
  obtain ⟨es, hload, hmap⟩ := string_list_load_spec l hw l.size 0 (by omega)
  simp only [List.drop_zero] at hmap
  have hcons : ConsistentCmp (if dir_first then qstrcmp_dir else qstrcmp_plain) := by
    cases dir_first
    · exact qstrcmp_plain_consistent
    · exact qstrcmp_dir_consistent
  obtain ⟨hperm, hsorted⟩ := hq _ hcons es
  have hlen : (qsort (if dir_first then qstrcmp_dir else qstrcmp_plain) es).length = l.size := by
    rw [hperm.length_eq]
    have := congrArg List.length hmap
    simp only [List.length_map, List.length_take] at this
    have h1 := hw.len
    have h2 := hw.le
    omega
  refine ⟨{ l with elems := (qsort (if dir_first then qstrcmp_dir else qstrcmp_plain) es).map some
      ++ l.elems.drop l.size }, es, qsort (if dir_first then qstrcmp_dir else qstrcmp_plain) es,
    ?_, rfl, rfl, hmap, ?_, hperm, ?_, ?_⟩
  · simp only [dir_list_sort, hload]
  · simp only [string_list.used]
    rw [List.take_append_of_le_length (by simp [hlen])]
    exact List.take_of_length_le (by simp [hlen])
  · intro hd
    subst hd
    exact hsorted.imp (fun {a b} hab => (qstrcmp_plain_le_iff a b).mp hab)
  · intro hd
    subst hd
    refine hsorted.imp (fun {a b} hab => ?_)
    rcases (qstrcmp_dir_le_iff a b).mp hab with ⟨h1, h2⟩ | ⟨h1, h2⟩
    · exact ⟨fun _ => h1, fun heq => by rw [h1, h2] at heq; exact absurd heq (by decide)⟩
    · exact ⟨fun hb => by rw [h1]; exact hb, fun _ => h2⟩

theorem sample_list_WF : WF sample_list :=
  ⟨rfl, by decide, by decide, by
    intro i hi
    have : i = 0 ∨ i = 1 ∨ i = 2 := by change i < 3 at hi; omega
    rcases this with rfl | rfl | rfl
    · exact ⟨_, rfl⟩
    · exact ⟨_, rfl⟩
    · exact ⟨_, rfl⟩⟩

/-- Witness for C6: insertion sort is a correct comparison sort, and on the
list `b.txt`, `Sub/`, `A.zip` the plain order gives `A.zip`, `b.txt`, `Sub`
and the directories-first order gives `Sub`, `A.zip`, `b.txt`. -/
theorem dir_list_sort_contract_witness :
    QsortCorrect insertion_qsort ∧ WF sample_list ∧
    (∃ (l1 : string_list) (es1 : List string_list_elem),
      dir_list_sort insertion_qsort (some sample_list) true = .ok (some l1) ∧
      l1.size = sample_list.size ∧ l1.used = es1.map some ∧
      es1.Pairwise (fun a b =>
        (b.attr.b = true → a.attr.b = true) ∧
        (a.attr.b = b.attr.b → ci_le a.data b.data))) ∧
    dir_list_sort insertion_qsort (some sample_list) true =
      .ok (some ⟨[some ⟨"Sub".toList, ⟨true⟩⟩, some ⟨"A.zip".toList, ⟨false⟩⟩,
        some ⟨"b.txt".toList, ⟨false⟩⟩, none], 3, 4⟩) ∧
    dir_list_sort insertion_qsort (some sample_list) false =
      .ok (some ⟨[some ⟨"A.zip".toList, ⟨false⟩⟩, some ⟨"b.txt".toList, ⟨false⟩⟩,
        some ⟨"Sub".toList, ⟨true⟩⟩, none], 3, 4⟩) := by
  refine ⟨insertion_qsort_correct, sample_list_WF, ?_, by decide, by decide⟩
  obtain ⟨l1, _, es1, hrun, hsz, _, _, hused, _, _, hdir⟩ :=
    (dir_list_sort_contract insertion_qsort insertion_qsort_correct sample_list
      sample_list_WF true).2
  exact ⟨l1, es1, hrun, hsz, hused, hdir rfl⟩

/-! ### `strrchr` -/

theorem strrchr_none_iff (s : List Char) (c : Char) : strrchr s c = none ↔ c ∉ s := by
  induction s with
  | nil => simp [strrchr]
  | cons x xs ih =>
    simp only [strrchr]
    cases hr : strrchr xs c with
    | some i =>
      have hmem : c ∈ xs := by
        by_contra hc
        rw [ih.mpr hc] at hr
        exact Option.noConfusion hr
      simp [hmem]
    | none =>
      have hnot : c ∉ xs := ih.mp hr
      by_cases hx : x = c
      · subst hx; simp
      · simp only [if_neg hx, true_iff, List.mem_cons, not_or]
        exact ⟨fun h => hx h.symm, hnot⟩

theorem strrchr_some (s : List Char) (c : Char) :
    ∀ i, strrchr s c = some i →
      i < s.length ∧ s = s.take i ++ c :: s.drop (i + 1) ∧ c ∉ s.drop (i + 1) := by
  induction s with
  | nil => intro i hi; simp [strrchr] at hi
  | cons x xs ih =>
    intro i hi
    simp only [strrchr] at hi
    cases hr : strrchr xs c with
    | some j =>
      rw [hr] at hi
      simp only [Option.some.injEq] at hi
      subst hi
      obtain ⟨h1, h2, h3⟩ := ih j hr
      refine ⟨by simp; omega, ?_, by simpa using h3⟩
      simp only [List.take_succ_cons, List.drop_succ_cons, List.cons_append]
      rw [← h2]
    | none =>
      rw [hr] at hi
      by_cases hx : x = c
      · rw [if_pos hx] at hi
        simp only [Option.some.injEq] at hi
        subst hi
        subst hx
        exact ⟨by simp, by simp, by simpa using (strrchr_none_iff xs x).mp hr⟩
      · rw [if_neg hx] at hi
        exact Option.noConfusion hi

/-! ### C7: `path_get_extension` -/

/-- C7. `path_get_extension(path)` is the text after the last dot of `path`:
it is empty when `path` has no dot, otherwise `path` is some text, a dot and
the result; the result never contains a dot. `archive.tar.gz` gives `gz` and
`README` gives the empty string. -/
theorem path_get_extension_contract (path : List Char) :
    ('.' ∉ path → path_get_extension path = []) ∧
    ('.' ∈ path → ∃ p, path = p ++ '.' :: path_get_extension path) ∧
    '.' ∉ path_get_extension path ∧
    path_get_extension "archive.tar.gz".toList = "gz".toList ∧
    path_get_extension "README".toList = "".toList := by
  refine ⟨?_, ?_, ?_, by decide, by decide⟩
  · intro hno
    simp [path_get_extension, (strrchr_none_iff path '.').mpr hno]
  · intro hmem
    cases hr : strrchr path '.' with
    | none => exact absurd hmem ((strrchr_none_iff path '.').mp hr)
    | some i =>
      refine ⟨path.take i, ?_⟩
      simp only [path_get_extension, hr]
      exact (strrchr_some path '.' i hr).2.1
  · cases hr : strrchr path '.' with
    | none => simp [path_get_extension, hr]
    | some i =>
      simp only [path_get_extension, hr]
      exact (strrchr_some path '.' i hr).2.2

/-! ### Cutting a path at the last occurrence of a character -/

theorem dropWhile_ne_append (c : Char) (e q : List Char) (he : c ∉ e) :
    (e ++ c :: q).dropWhile (fun x => x != c) = c :: q := by
  induction e with
  | nil => simp [List.dropWhile_cons]
  | cons y ys ih =>
    have hy : y ≠ c := fun h => he (by simp [h])
    have hys : c ∉ ys := fun h => he (List.mem_cons_of_mem _ h)
    simp only [List.cons_append, List.dropWhile_cons]
    rw [if_pos (by simpa using hy)]
    exact ih hys

theorem takeWhile_ne_append (c : Char) (e q : List Char) (he : c ∉ e) :
    (e ++ c :: q).takeWhile (fun x => x != c) = e := by
  induction e with
  | nil => simp [List.takeWhile_cons]
  | cons y ys ih =>
    have hy : y ≠ c := fun h => he (by simp [h])
    have hys : c ∉ ys := fun h => he (List.mem_cons_of_mem _ h)
    simp only [List.cons_append, List.takeWhile_cons]
    rw [if_pos (by simpa using hy), ih hys]

theorem takeWhile_ne_all (c : Char) (e : List Char) (he : c ∉ e) :
    e.takeWhile (fun x => x != c) = e := by
  induction e with
  | nil => rfl
  | cons y ys ih =>
    have hy : y ≠ c := fun h => he (by simp [h])
    have hys : c ∉ ys := fun h => he (List.mem_cons_of_mem _ h)
    simp only [List.takeWhile_cons]
    rw [if_pos (by simpa using hy), ih hys]

/-- The pointer `strrchr` returns cuts the string where the spec-side
functions do. -/
theorem strrchr_cut (s : List Char) (c : Char) (i : Nat) (hi : strrchr s c = some i) :
    prefix_before c s = s.take i ∧ text_after c s = s.drop (i + 1) := by
  obtain ⟨_, hs, hno⟩ := strrchr_some s c i hi
  have hrev : s.reverse = (s.drop (i + 1)).reverse ++ c :: (s.take i).reverse := by
    conv_lhs => rw [hs]
    simp
  have hno1 : c ∉ (s.drop (i + 1)).reverse := by simpa using hno
  constructor
  · unfold prefix_before
    rw [hrev, dropWhile_ne_append c _ _ hno1]
    simp
  · unfold text_after
    rw [hrev, takeWhile_ne_append c _ _ hno1]
    simp

theorem text_after_of_not_mem (s : List Char) (c : Char) (hc : c ∉ s) : text_after c s = s := by
  unfold text_after
  rw [takeWhile_ne_all c _ (by simpa using hc)]
  simp

/-- The string `fill_pathname` holds in `tmp_path` after the cut. -/
theorem strrchr_strip_extension (s : List Char) :
    (match strrchr s '.' with
     | some tok => s.take tok
     | none => s) = strip_extension s := by
  unfold strip_extension
  cases hr : strrchr s '.' with
  | none => simp [(strrchr_none_iff s '.').mp hr]
  | some i =>
    have hmem : '.' ∈ s := by
      by_contra hc
      rw [(strrchr_none_iff s '.').mpr hc] at hr
      exact Option.noConfusion hr
    simp [hmem, (strrchr_cut s '.' i hr).1]

/-! ### C8: `fill_pathname` -/

theorem fill_pathname_long_input (PATH_MAX : Nat) (out_path in_path replace : List Char)
    (size : Nat) (hlong : ¬ in_path.length < PATH_MAX) :
    fill_pathname PATH_MAX out_path in_path replace size = .error .assertion := by
  simp [fill_pathname, rarch_assert, strlcpy, hlong]

theorem strip_extension_dot_replicate (n : Nat) :
    strip_extension ('.' :: List.replicate n 'x') = [] := by
  have hno : '.' ∉ (List.replicate n 'x').reverse := by
    simp only [List.reverse_replicate]
    intro hc
    exact absurd (List.eq_of_mem_replicate hc) (by decide)
  have h := dropWhile_ne_append '.' (List.replicate n 'x').reverse [] hno
  simp only [strip_extension, prefix_before, List.mem_cons, true_or, if_true,
    List.reverse_cons]
  rw [h]
  rfl

/-- C8, counterexample. With `PATH_MAX = 4096` and a buffer of 16 characters,
an input made of a dot followed by 4095 letters and the replacement `.sav`
has the result `.sav`, which fits, yet `fill_pathname` stops at its first
assertion because the input does not fit `tmp_path`. -/
theorem fill_pathname_counterexample :
    (strip_extension ('.' :: List.replicate 4095 'x') ++ ".sav".toList).length < 16 ∧
    fill_pathname 4096 [] ('.' :: List.replicate 4095 'x') ".sav".toList 16 =
      .error .assertion :=
  ⟨by rw [strip_extension_dot_replicate 4095]; decide,
   fill_pathname_long_input 4096 [] _ _ 16 (by
    rw [List.length_cons, List.length_replicate]; decide)⟩

/-- C8, amended. With `r` the input cut before its last dot (or the whole
input when it has no dot) followed by `replace`: `fill_pathname` completes and
leaves `out = r` when the input is shorter than `PATH_MAX` and `r` is shorter
than `size`; it stops at an assertion when `r` does not fit, and also when the
input does not fit the `PATH_MAX` buffer. `game.zip` with `.sav` gives
`game.sav`. -/
theorem fill_pathname_contract (PATH_MAX : Nat) (out_path in_path replace : List Char)
    (size : Nat) :
    (in_path.length < PATH_MAX → (strip_extension in_path ++ replace).length < size →
      fill_pathname PATH_MAX out_path in_path replace size =
        .ok (strip_extension in_path ++ replace)) ∧
    (¬ (strip_extension in_path ++ replace).length < size →
      fill_pathname PATH_MAX out_path in_path replace size = .error .assertion) ∧
    (¬ in_path.length < PATH_MAX →
      fill_pathname PATH_MAX out_path in_path replace size = .error .assertion) ∧
    fill_pathname 4096 [] "game.zip".toList ".sav".toList 4096 = .ok "game.sav".toList := by
  have hrun : in_path.length < PATH_MAX →
      fill_pathname PATH_MAX out_path in_path replace size =
        (if (strip_extension in_path).length < size then
          (if (strip_extension in_path ++ replace).length < size then
            .ok (strip_extension in_path ++ replace)
           else .error .assertion)
         else .error .assertion) := by
    intro hin
    have hP : PATH_MAX ≠ 0 := by omega
    have htmp : (strlcpy [] in_path PATH_MAX) = (in_path, in_path.length) := by
      simp only [strlcpy, if_neg hP]
      rw [List.take_of_length_le (by omega)]
    simp only [fill_pathname, rarch_assert, htmp, strrchr_strip_extension]
    simp only [decide_eq_true_eq, if_pos hin]
    by_cases h1 : (strip_extension in_path).length < size
    · have hs : size ≠ 0 := by omega
      have ho1 : strlcpy out_path (strip_extension in_path) size =
          (strip_extension in_path, (strip_extension in_path).length) := by
        simp only [strlcpy, if_neg hs]
        rw [List.take_of_length_le (by omega)]
      simp only [ho1, if_pos h1, strlcat]
      by_cases h2 : (strip_extension in_path ++ replace).length < size
      · have h3 : (strip_extension in_path).length + replace.length < size := by
          simpa using h2
        rw [if_pos h2]
        simp only [if_pos h3]
        rw [List.take_of_length_le (by omega)]
      · have h3 : ¬ (strip_extension in_path).length + replace.length < size := by
          simpa using h2
        rw [if_neg h2]
        simp only [if_neg h3]
    · simp only [strlcpy, if_neg h1]
  refine ⟨?_, ?_, fill_pathname_long_input PATH_MAX out_path in_path replace size, by decide⟩
  · intro hin hfit
    have h1 : (strip_extension in_path).length < size := by
      simp only [List.length_append] at hfit
      omega
    rw [hrun hin, if_pos h1, if_pos hfit]
  · intro hnofit
    by_cases hin : in_path.length < PATH_MAX
    · rw [hrun hin]
      by_cases h1 : (strip_extension in_path).length < size
      · rw [if_pos h1, if_neg hnofit]
      · rw [if_neg h1]
    · exact fill_pathname_long_input PATH_MAX out_path in_path replace size hin

/-! ### C9: `fill_pathname_base` -/

theorem mem_of_strrchr_some {s : List Char} {c : Char} {i : Nat} (hi : strrchr s c = some i) :
    c ∈ s := by
  by_contra hc
  rw [(strrchr_none_iff s c).mpr hc] at hi
  exact Option.noConfusion hi

theorem strlcpy_fits (dst src : List Char) (size : Nat) (hfit : src.length < size) :
    strlcpy dst src size = (src, src.length) := by
  have hs : size ≠ 0 := by omega
  simp only [strlcpy, if_neg hs]
  rw [List.take_of_length_le (by omega)]

/-- The component `fill_pathname_base` and `fill_pathname_dir` copy: the text
after the `/` cut when the path has a `/`, else after the `\` cut. -/
theorem last_separator_component (path : List Char) :
    (match last_separator path with
     | some p => path.drop (p + 1)
     | none => path) =
      (if '/' ∈ path then text_after '/' path else text_after '\\' path) := by
  unfold last_separator
  cases hs : strrchr path '/' with
  | some p =>
    simp only [if_pos (mem_of_strrchr_some hs)]
    exact (strrchr_cut path '/' p hs).2.symm
  | none =>
    simp only [if_neg ((strrchr_none_iff path '/').mp hs)]
    cases hb : strrchr path '\\' with
    | some q => exact (strrchr_cut path '\\' q hb).2.symm
    | none => exact (text_after_of_not_mem path '\\' ((strrchr_none_iff path '\\').mp hb)).symm

theorem text_after_length_le (c : Char) (s : List Char) : (text_after c s).length ≤ s.length := by
  unfold text_after
  rw [List.length_reverse]
  have : ((s.reverse.takeWhile (fun x => x != c)).length) ≤ s.reverse.length :=
    (List.takeWhile_sublist _).length_le
  simpa using this

theorem not_mem_text_after (c : Char) (s : List Char) : c ∉ text_after c s := by
  unfold text_after
  intro hc
  have := List.mem_takeWhile_imp (List.mem_reverse.mp hc)
  simp at this

theorem text_after_subset (c : Char) (s : List Char) : ∀ x ∈ text_after c s, x ∈ s := by
  intro x hx
  unfold text_after at hx
  have := (List.takeWhile_sublist _).subset (List.mem_reverse.mp hx)
  exact List.mem_reverse.mp this

/-- C9, counterexample. For `a/b\c` in a buffer of 16 characters
`fill_pathname_base` leaves `b\c`: it cuts at the last `/` although a `\`
follows it, so the output is not the text after the last separator (`c`) and
it contains a `\`. -/
theorem fill_pathname_base_counterexample :
    "a/b\\c".toList.length < 16 ∧
    fill_pathname_base [] "a/b\\c".toList 16 = .ok "b\\c".toList ∧
    text_after_any_separator "a/b\\c".toList = "c".toList ∧
    '\\' ∈ "b\\c".toList := by
  decide

/-- C9, amended. When `in_path` is shorter than `size`, `fill_pathname_base`
leaves in `out` the text after the last `/` of `in_path` when `in_path` has a
`/`, otherwise the text after its last `\`, which is all of `in_path` when it
has neither; `out` never contains `/`, and contains no `\` when `in_path` has
no `/`. -/
theorem fill_pathname_base_contract (out_dir in_path : List Char) (size : Nat)
    (hfit : in_path.length < size) :
    fill_pathname_base out_dir in_path size =
      .ok (if '/' ∈ in_path then text_after '/' in_path else text_after '\\' in_path) ∧
    '/' ∉ (if '/' ∈ in_path then text_after '/' in_path else text_after '\\' in_path) ∧
    ('/' ∉ in_path →
      '\\' ∉ (if '/' ∈ in_path then text_after '/' in_path else text_after '\\' in_path)) ∧
    ('/' ∉ in_path → '\\' ∉ in_path →
      (if '/' ∈ in_path then text_after '/' in_path else text_after '\\' in_path) = in_path) := by
  refine ⟨?_, ?_, ?_, ?_⟩
  · have hlen : (if '/' ∈ in_path then text_after '/' in_path
        else text_after '\\' in_path).length < size := by
      split
      · exact Nat.lt_of_le_of_lt (text_after_length_le _ _) hfit
      · exact Nat.lt_of_le_of_lt (text_after_length_le _ _) hfit
    simp only [fill_pathname_base, last_separator_component, rarch_assert,
      strlcpy_fits _ _ _ hlen, decide_eq_true_eq, if_pos hlen]
  · split
    · exact not_mem_text_after '/' in_path
    · rename_i hno
      exact fun hc => hno (text_after_subset '\\' in_path _ hc)
  · intro hno
    rw [if_neg hno]
    exact not_mem_text_after '\\' in_path
  · intro hno hnb
    rw [if_neg hno]
    exact text_after_of_not_mem in_path '\\' hnb

/-- Witness for C9: `/a/b/c.txt` gives `c.txt`. -/
theorem fill_pathname_base_contract_witness :
    "/a/b/c.txt".toList.length < 4096 ∧
    fill_pathname_base [] "/a/b/c.txt".toList 4096 = .ok "c.txt".toList :=
  ⟨by decide,
   (fill_pathname_base_contract [] "/a/b/c.txt".toList 4096 (by decide)).1.trans (by decide)⟩

/-! ### C10: `fill_pathname_basedir` -/

/-- C10, counterexample. For `a/b\c` in a buffer of 16 characters
`fill_pathname_basedir` leaves `a`, not the prefix `a/b` before the last
separator; and for the empty path in a buffer of one character it leaves the
empty string, not `.`. -/
theorem fill_pathname_basedir_counterexample :
    ("a/b\\c".toList.length < 16 ∧
      fill_pathname_basedir [] "a/b\\c".toList 16 = .ok "a".toList ∧
      prefix_before_any_separator "a/b\\c".toList = "a/b".toList) ∧
    ("".toList.length < 1 ∧ '/' ∉ "".toList ∧ '\\' ∉ "".toList ∧
      fill_pathname_basedir [] "".toList 1 = .ok "".toList) := by
  decide

/-- C10, amended. When `in_path` is shorter than `size`,
`fill_pathname_basedir` leaves in `out` the prefix of `in_path` before its
last `/` when `in_path` has a `/`, otherwise the prefix before its last `\`
when it has a `\`; when it has no separator `out` is `.` provided `size` is
at least 2, and the copied (empty) path otherwise. -/
theorem fill_pathname_basedir_contract (out_dir in_path : List Char) (size : Nat)
    (hfit : in_path.length < size) :
    fill_pathname_basedir out_dir in_path size =
      .ok (if '/' ∈ in_path then prefix_before '/' in_path
           else if '\\' ∈ in_path then prefix_before '\\' in_path
           else if size ≥ 2 then ['.'] else []) := by
  simp only [fill_pathname_basedir, rarch_assert, strlcpy_fits _ _ _ hfit, decide_eq_true_eq,
    if_pos hfit, last_separator]
  cases hs : strrchr in_path '/' with
  | some p =>
    simp only [if_pos (mem_of_strrchr_some hs)]
    rw [(strrchr_cut in_path '/' p hs).1]
  | none =>
    simp only [if_neg ((strrchr_none_iff in_path '/').mp hs)]
    cases hb : strrchr in_path '\\' with
    | some q =>
      simp only [if_pos (mem_of_strrchr_some hb)]
      rw [(strrchr_cut in_path '\\' q hb).1]
    | none =>
      simp only [if_neg ((strrchr_none_iff in_path '\\').mp hb)]
      by_cases h2 : size ≥ 2
      · simp only [if_pos h2]
      · simp only [if_neg h2]
        have : in_path = [] := List.length_eq_zero.mp (by omega)
        rw [this]

/-- Witness for C10: `/a/b/c.txt` gives `/a/b` and `c.txt` gives `.`. -/
theorem fill_pathname_basedir_contract_witness :
    "/a/b/c.txt".toList.length < 4096 ∧
    fill_pathname_basedir [] "/a/b/c.txt".toList 4096 = .ok "/a/b".toList ∧
    fill_pathname_basedir [] "c.txt".toList 4096 = .ok ".".toList :=
  ⟨by decide,
   (fill_pathname_basedir_contract [] "/a/b/c.txt".toList 4096 (by decide)).trans (by decide),
   (fill_pathname_basedir_contract [] "c.txt".toList 4096 (by decide)).trans (by decide)⟩

/-! ### C11: `fill_pathname_dir` -/

theorem strlcat_fits (dst src : List Char) (size : Nat) (hfit : dst.length + src.length < size) :
    strlcat dst src size = (dst ++ src, dst.length + src.length) := by
  have h1 : dst.length < size := by omega
  simp only [strlcat, if_pos h1]
  rw [List.take_of_length_le (by omega)]

/-- A completed `fill_pathname_base` leaves the component after the cut. -/
theorem fill_pathname_base_ok (out_dir in_path b : List Char) (size : Nat)
    (hb : fill_pathname_base out_dir in_path size = .ok b) :
    b = (match last_separator in_path with
         | some p => in_path.drop (p + 1)
         | none => in_path) := by
  simp only [fill_pathname_base, rarch_assert] at hb
  split at hb
  · rename_i hlt
    simp only [strlcpy, decide_eq_true_eq] at hlt
    rw [strlcpy_fits _ _ _ hlt] at hb
    simp only [Except.ok.injEq] at hb
    exact hb.symm
  · exact Except.noConfusion hb

/-- C11. With `b` the string `fill_pathname_base` produces for the basename
path, and `d ++ "/" ++ b ++ s` shorter than `size`: `fill_pathname_dir` on the
buffer content `d` completes without an assertion failure and leaves
`d ++ "/" ++ b ++ s` in the buffer. -/
theorem fill_pathname_dir_contract (d p s : List Char) (size : Nat) (b out0 : List Char)
    (size0 : Nat) (hb : fill_pathname_base out0 p size0 = .ok b)
    (hfit : (d ++ '/' :: b ++ s).length < size) :
    fill_pathname_dir d p s size = .ok (d ++ '/' :: b ++ s) := by
  have hcomp := fill_pathname_base_ok out0 p b size0 hb
  simp only [List.length_append, List.length_cons] at hfit
  have h1 : d.length + ['/'].length < size := by simp only [List.length_singleton]; omega
  have h2 : (d ++ ['/']).length + b.length < size := by
    simp only [List.length_append, List.length_singleton]; omega
  have h3 : (d ++ ['/'] ++ b).length + s.length < size := by
    simp only [List.length_append, List.length_singleton]; omega
  simp only [fill_pathname_dir, rarch_assert, ← hcomp, strlcat_fits _ _ _ h1,
    strlcat_fits _ _ _ h2, strlcat_fits _ _ _ h3, decide_eq_true_eq, if_pos h1, if_pos h2,
    if_pos h3]
  simp

/-- Witness for C11: the directory `/saves`, the basename path
`/roms/game.zip` and the suffix `.srm` give `/saves/game.zip.srm`. -/
theorem fill_pathname_dir_contract_witness :
    fill_pathname_base [] "/roms/game.zip".toList 4096 = .ok "game.zip".toList ∧
    ("/saves".toList ++ '/' :: "game.zip".toList ++ ".srm".toList).length < 4096 ∧
    fill_pathname_dir "/saves".toList "/roms/game.zip".toList ".srm".toList 4096 =
      .ok "/saves/game.zip.srm".toList :=
  ⟨by decide, by decide,
   (fill_pathname_dir_contract "/saves".toList "/roms/game.zip".toList ".srm".toList 4096
      "game.zip".toList [] 4096 (by decide) (by decide)).trans (by decide)⟩

/-! ### C12: `fill_pathname_shell` -/

/-- C12. On a platform with home expansion, with `home` the value of `HOME`:
when `in_path` begins with `~` and `HOME` is set, `fill_pathname_shell` leaves
the home directory followed by the rest of `in_path`, provided that string is
shorter than `size`; when `in_path` does not begin with `~`, or `HOME` is not
set, it leaves `in_path` itself, provided `in_path` is shorter than `size`.
With `HOME=/home/u` the path `~/roms` becomes `/home/u/roms`; without `HOME`
it stays `~/roms`. -/
theorem fill_pathname_shell_contract (home : Option (List Char)) (out_path in_path : List Char)
    (size : Nat) :
    (∀ hm rest, home = some hm → in_path = '~' :: rest → (hm ++ rest).length < size →
      fill_pathname_shell home out_path in_path size = .ok (hm ++ rest)) ∧
    ((home = none ∨ in_path.head? ≠ some '~') → in_path.length < size →
      fill_pathname_shell home out_path in_path size = .ok in_path) ∧
    fill_pathname_shell (some "/home/u".toList) [] "~/roms".toList 4096 =
      .ok "/home/u/roms".toList ∧
    fill_pathname_shell none [] "~/roms".toList 4096 = .ok "~/roms".toList := by
  refine ⟨?_, ?_, by decide, by decide⟩
  · intro hm rest hh hp hfit
    subst hh
    subst hp
    simp only [List.length_append] at hfit
    have h1 : hm.length < size := by omega
    have h2 : rest.length < size - hm.length := by omega
    simp only [fill_pathname_shell, rarch_assert, strlcpy_fits _ _ _ h1, strlcpy_fits _ _ _ h2,
      decide_eq_true_eq, if_pos h1, if_pos h2]
    simp
  · intro hcase hfit
    have hplain : fill_pathname_shell home out_path in_path size =
        rarch_assert (decide ((strlcpy out_path in_path size).2 < size))
          (.ok (strlcpy out_path in_path size).1) := by
      unfold fill_pathname_shell
      split
      · rename_i rest hm
        rcases hcase with hc | hc
        · exact Option.noConfusion hc
        · exact absurd rfl hc
      · rfl
    rw [hplain]
    simp only [rarch_assert, strlcpy_fits _ _ _ hfit, decide_eq_true_eq, if_pos hfit]

/-! ### C13: a failed `string_list_append` -/

theorem reachable_full32 :
    Reachable ⟨List.replicate 32 (some ⟨['x'], attr_zero⟩), 32, 32⟩ :=
  reachable_append_all (List.replicate 32 (['x'], attr_zero))
    (Reachable.fresh [] [] ⟨List.replicate 32 none, 0, 32⟩ (by decide))
    (by decide :
      string_list_append_all ⟨List.replicate 32 none, 0, 32⟩
        (List.replicate 32 (['x'], attr_zero)) [] = .ok (true, _, []))

/-- C13, counterexample. On the full fresh list of 32 strings, with the
`realloc` succeeding and the `strdup` failing, `string_list_append` returns
failure and leaves the capacity at 64 instead of 32. -/
theorem string_list_append_failure_counterexample :
    Reachable ⟨List.replicate 32 (some ⟨['x'], attr_zero⟩), 32, 32⟩ ∧
    string_list_append ⟨List.replicate 32 (some ⟨['x'], attr_zero⟩), 32, 32⟩ ['y'] attr_zero
        [true, false] =
      .ok (false, ⟨List.replicate 32 (some ⟨['x'], attr_zero⟩) ++ List.replicate 32 none,
        32, 64⟩, []) ∧
    (64 : Nat) ≠ 32 :=
  ⟨reachable_full32, by decide, by decide⟩

/-- C13, amended. Whenever `string_list_append` on a reachable list returns
failure, the size and every stored (string, attribute) pair are what they were
before the call; the capacity is either unchanged or, when the list was full,
exactly doubled (the `realloc` succeeded and the `strdup` failed). -/
theorem string_list_append_failure_contract (l : string_list) (hl : Reachable l)
    (text : List Char) (attr : string_list_elem_attr) (h h1 : Heap) (l1 : string_list)
    (hfail : string_list_append l text attr h = .ok (false, l1, h1)) :
    l1.size = l.size ∧ (∀ i, i < l.size → l1.elems[i]? = l.elems[i]?) ∧
      l1.used = l.used ∧
      (l1.cap = l.cap ∨ (l.size = l.cap ∧ l1.cap = 2 * l.cap)) := by
  obtain ⟨_, _, hF, hcap⟩ := append_step (reachable_WF hl) hfail
  obtain ⟨hsz, hused⟩ := hF rfl
  refine ⟨hsz, ?_, hused, hcap⟩
  intro i hi
  rw [← used_getElem? l1 i (by omega), ← used_getElem? l i hi, hused]

/-- Witness for C13: the failed append of the counterexample keeps the size 32
and the 32 stored strings. -/
theorem string_list_append_failure_contract_witness :
    (⟨List.replicate 32 (some ⟨['x'], attr_zero⟩) ++ List.replicate 32 none, 32, 64⟩ :
        string_list).size = 32 ∧
    (⟨List.replicate 32 (some ⟨['x'], attr_zero⟩) ++ List.replicate 32 none, 32, 64⟩ :
        string_list).used =
      (⟨List.replicate 32 (some ⟨['x'], attr_zero⟩), 32, 32⟩ : string_list).used :=
  have hc := string_list_append_failure_contract
    ⟨List.replicate 32 (some ⟨['x'], attr_zero⟩), 32, 32⟩ reachable_full32 ['y'] attr_zero
    [true, false] []
    ⟨List.replicate 32 (some ⟨['x'], attr_zero⟩) ++ List.replicate 32 none, 32, 64⟩
    (by decide)
  ⟨hc.1, hc.2.2.1⟩

/-! ### C14: size and capacity of reachable lists -/

theorem append_total {l : string_list} (hw : WF l) (e : List Char) (a : string_list_elem_attr)
    (h : Heap) : ∃ r l1 h1, string_list_append l e a h = .ok (r, l1, h1) := by
  have key : ∃ r0 l0 h0, (if l.size ≥ l.cap then string_list_capacity l (l.cap * 2) h
      else .ok (true, l, h)) = .ok (r0, l0, h0) := by
    by_cases hfull : l.size ≥ l.cap
    · rw [if_pos hfull]
      unfold string_list_capacity realloc
      have hgt : l.cap * 2 > l.size := by have := hw.le; have := hw.pos; omega
      rw [if_pos hgt]
      cases ha : alloc h with
      | mk b h2 =>
        cases b with
        | false => exact ⟨false, _, _, rfl⟩
        | true => exact ⟨true, _, _, rfl⟩
    · rw [if_neg hfull]
      exact ⟨true, l, h, rfl⟩
  obtain ⟨r0, l0, h0, hc⟩ := key
  obtain ⟨hw0, _, _, hlt0, _, _⟩ := capacity_step hw hc
  unfold string_list_append
  rw [hc]
  cases r0 with
  | false => exact ⟨false, l0, h0, rfl⟩
  | true =>
    simp only []
    cases ha : alloc h0 with
    | mk b h2 =>
      cases b with
      | false => exact ⟨false, l0, h2, rfl⟩
      | true =>
        obtain ⟨l2, hst, _⟩ := store_step hw0 (hlt0 rfl) e a
        simp only []
        rw [hst]
        exact ⟨true, l2, h2, rfl⟩

theorem reachable_cap {l : string_list} (hr : Reachable l) : ∃ k, l.cap = 32 * 2 ^ k := by
  induction hr with
  | fresh h h1 l hnew =>
    rw [string_list_new_eq hnew]
    exact ⟨0, rfl⟩
  | step l l1 e a h h1 r hl happ ih =>
    obtain ⟨k, hk⟩ := ih
    rcases (append_step (reachable_WF hl) happ).2.2.2 with hc | ⟨_, hc⟩
    · exact ⟨k, by rw [hc, hk]⟩
    · exact ⟨k + 1, by rw [hc, hk, pow_succ]; ring⟩

/-- C14. Every list reachable from `string_list_new` by `string_list_append`
calls, successful or failed, has `size ≤ cap` and `cap = 32 * 2 ^ k` for some
`k`; a fresh list has size 0 and capacity 32; every further call returns, never
decreases the capacity, and changes it only by doubling it and only when
`size = cap` on entry. -/
theorem string_list_capacity_invariant (l : string_list) (hl : Reachable l) :
    l.size ≤ l.cap ∧ (∃ k, l.cap = 32 * 2 ^ k) ∧
    (∀ h l0 h0, string_list_new h = .ok (some l0, h0) → l0.size = 0 ∧ l0.cap = 32) ∧
    (∀ e a h, ∃ r l1 h1, string_list_append l e a h = .ok (r, l1, h1)) ∧
    (∀ e a h r l1 h1, string_list_append l e a h = .ok (r, l1, h1) →
      l.cap ≤ l1.cap ∧ (l1.cap ≠ l.cap → l1.cap = 2 * l.cap ∧ l.size = l.cap)) := by
  have hw := reachable_WF hl
  refine ⟨hw.le, reachable_cap hl, ?_, fun e a h => append_total hw e a h, ?_⟩
  · intro h l0 h0 hnew
    rw [string_list_new_eq hnew]
    exact ⟨rfl, rfl⟩
  · intro e a h r l1 h1 happ
    rcases (append_step hw happ).2.2.2 with hc | ⟨hs, hc⟩
    · exact ⟨by omega, fun hne => absurd hc hne⟩
    · exact ⟨by omega, fun _ => ⟨hc, hs⟩⟩

/-- Witness for C14: the full fresh list of 32 strings is reachable, has
`size ≤ cap` with `cap = 32 * 2 ^ k`, and its next append returns. -/
theorem string_list_capacity_invariant_witness :
    Reachable sample_full ∧ sample_full.size ≤ sample_full.cap ∧
    (∃ k, sample_full.cap = 32 * 2 ^ k) ∧
    ∃ r l1 h1, string_list_append sample_full ['y'] attr_zero [] = .ok (r, l1, h1) :=
  have hc := string_list_capacity_invariant sample_full reachable_full32
  ⟨reachable_full32, hc.1, hc.2.1, hc.2.2.2.1 ['y'] attr_zero []⟩

/-! ### C15: `frontend_ctx_find_driver` -/

theorem frontend_ctx_find_driver_none (drivers : List frontend_ctx_driver_t)
    (ident : List Char) :
    frontend_ctx_find_driver drivers ident = none ↔ ∀ x ∈ drivers, x.ident ≠ ident := by
  induction drivers with
  | nil => simp [frontend_ctx_find_driver]
  | cons d rest ih =>
    simp only [frontend_ctx_find_driver, strcmp_eq_zero_iff]
    by_cases hd : d.ident = ident
    · simp [hd]
    · simp [hd, ih]

theorem frontend_ctx_find_driver_some (drivers : List frontend_ctx_driver_t)
    (ident : List Char) (d : frontend_ctx_driver_t) :
    frontend_ctx_find_driver drivers ident = some d ↔
      ∃ front back, drivers = front ++ d :: back ∧ d.ident = ident ∧
        ∀ x ∈ front, x.ident ≠ ident := by
  induction drivers with
  | nil => simp [frontend_ctx_find_driver]
  | cons y rest ih =>
    simp only [frontend_ctx_find_driver, strcmp_eq_zero_iff]
    by_cases hy : y.ident = ident
    · rw [if_pos hy]
      constructor
      · intro h
        simp only [Option.some.injEq] at h
        subst h
        exact ⟨[], rest, rfl, hy, by simp⟩
      · rintro ⟨front, back, heq, _, hfront⟩
        cases front with
        | nil =>
          simp only [List.nil_append, List.cons.injEq] at heq
          rw [heq.1]
        | cons z zs =>
          simp only [List.cons_append, List.cons.injEq] at heq
          exact absurd hy (heq.1 ▸ hfront z (List.mem_cons_self _ _))
    · rw [if_neg hy, ih]
      constructor
      · rintro ⟨front, back, heq, hd, hfront⟩
        refine ⟨y :: front, back, by rw [heq]; rfl, hd, ?_⟩
        intro x hx
        rcases List.mem_cons.mp hx with rfl | hx
        · exact hy
        · exact hfront x hx
      · rintro ⟨front, back, heq, hd, hfront⟩
        cases front with
        | nil =>
          simp only [List.nil_append, List.cons.injEq] at heq
          exact absurd (heq.1 ▸ hd) hy
        | cons z zs =>
          simp only [List.cons_append, List.cons.injEq] at heq
          exact ⟨zs, back, heq.2, hd, fun x hx => hfront x (List.mem_cons_of_mem _ hx)⟩

/-- C15. For every driver table and identifier, `frontend_ctx_find_driver`
returns the first table entry whose `ident` equals the argument (the entries
in front of it have other identifiers), and returns `NULL` exactly when no
table entry has that identifier. In a table with two drivers named `null` the
first one is returned. -/
theorem frontend_ctx_find_driver_contract (drivers : List frontend_ctx_driver_t)
    (ident : List Char) :
    (∀ d, frontend_ctx_find_driver drivers ident = some d ↔
      ∃ front back, drivers = front ++ d :: back ∧ d.ident = ident ∧
        ∀ x ∈ front, x.ident ≠ ident) ∧
    (frontend_ctx_find_driver drivers ident = none ↔ ∀ x ∈ drivers, x.ident ≠ ident) ∧
    frontend_ctx_find_driver [⟨"win32".toList, 0⟩, ⟨"null".toList, 1⟩, ⟨"null".toList, 2⟩]
      "null".toList = some ⟨"null".toList, 1⟩ ∧
    frontend_ctx_find_driver [⟨"win32".toList, 0⟩, ⟨"null".toList, 1⟩] "Null".toList = none :=
  ⟨frontend_ctx_find_driver_some drivers ident, frontend_ctx_find_driver_none drivers ident,
    by decide, by decide⟩

/-! ### C16: the comparators are strict weak orderings -/

theorem strcasecmp_lt_iff (a b : List Char) : strcasecmp a b < 0 ↔ ci_key a < ci_key b := by
  rcases strcasecmp_spec a b with h | h | h
  · rw [h.1]; exact ⟨fun _ => h.2, fun _ => by decide⟩
  · rw [h.1]
    exact ⟨fun hc => absurd hc (by decide), fun hc => absurd h.2 (ne_of_lt hc)⟩
  · rw [h.1]
    exact ⟨fun hc => absurd hc (by decide), fun hc => absurd hc (lt_asymm h.2)⟩

theorem ci_key_eq_iff (a b : List Char) :
    ci_key a = ci_key b ↔ a.map tolower = b.map tolower := by
  have hinj : Function.Injective (fun c : Char => c.toNat) := by
    intro x y hxy
    have : x.toNat = y.toNat := hxy
    rw [← Char.ofNat_toNat x, ← Char.ofNat_toNat y, this]
  have hkey : ∀ s : List Char, ci_key s = (s.map tolower).map (fun c : Char => c.toNat) := by
    intro s
    simp [ci_key, List.map_map, Function.comp_def]
  rw [hkey a, hkey b]
  exact ⟨fun h => List.map_injective_iff.mpr hinj h, fun h => by rw [h]⟩

theorem qstrcmp_dir_lt_iff (a b : string_list_elem) :
    qstrcmp_dir a b < 0 ↔
      (a.attr.b = true ∧ b.attr.b = false) ∨
        (a.attr.b = b.attr.b ∧ ci_key a.data < ci_key b.data) := by
  unfold qstrcmp_dir
  cases ha : a.attr.b <;> cases hb : b.attr.b <;> simp [strcasecmp_lt_iff]

theorem qstrcmp_dir_eq_zero_iff (a b : string_list_elem) :
    qstrcmp_dir a b = 0 ↔ a.attr.b = b.attr.b ∧ ci_key a.data = ci_key b.data := by
  unfold qstrcmp_dir
  cases ha : a.attr.b <;> cases hb : b.attr.b <;> simp [strcasecmp_eq_zero_iff]

/-- C16. `qstrcmp_plain` and `qstrcmp_dir` are strict weak orderings: swapping
the arguments flips the sign, "less than" is transitive, ties are transitive,
and a tie occurs exactly when the two strings are equal ignoring case (for
`qstrcmp_dir`: and the two is-directory flags are equal). -/
theorem qstrcmp_strict_weak_order (a b c : string_list_elem) :
    ((qstrcmp_plain a b).sign = - (qstrcmp_plain b a).sign ∧
      (qstrcmp_plain a b < 0 → qstrcmp_plain b c < 0 → qstrcmp_plain a c < 0) ∧
      (qstrcmp_plain a b = 0 → qstrcmp_plain b c = 0 → qstrcmp_plain a c = 0) ∧
      (qstrcmp_plain a b = 0 ↔ a.data.map tolower = b.data.map tolower)) ∧
    ((qstrcmp_dir a b).sign = - (qstrcmp_dir b a).sign ∧
      (qstrcmp_dir a b < 0 → qstrcmp_dir b c < 0 → qstrcmp_dir a c < 0) ∧
      (qstrcmp_dir a b = 0 → qstrcmp_dir b c = 0 → qstrcmp_dir a c = 0) ∧
      (qstrcmp_dir a b = 0 ↔
        a.data.map tolower = b.data.map tolower ∧ a.attr.b = b.attr.b)) := by
  refine ⟨⟨qstrcmp_plain_consistent.1 a b, ?_, ?_, ?_⟩,
    ⟨qstrcmp_dir_consistent.1 a b, ?_, ?_, ?_⟩⟩
  · unfold qstrcmp_plain
    simp only [strcasecmp_lt_iff]
    exact fun h1 h2 => lt_trans h1 h2
  · unfold qstrcmp_plain
    simp only [strcasecmp_eq_zero_iff]
    exact fun h1 h2 => h1.trans h2
  · unfold qstrcmp_plain
    rw [strcasecmp_eq_zero_iff, ci_key_eq_iff]
  · simp only [qstrcmp_dir_lt_iff]
    rintro (⟨h1, h2⟩ | ⟨h1, h2⟩) (⟨h3, h4⟩ | ⟨h3, h4⟩)
    · rw [h2] at h3; exact absurd h3 (by decide)
    · exact Or.inl ⟨h1, by rw [← h3]; exact h2⟩
    · exact Or.inl ⟨by rw [h1]; exact h3, h4⟩
    · exact Or.inr ⟨h1.trans h3, lt_trans h2 h4⟩
  · simp only [qstrcmp_dir_eq_zero_iff]
    exact fun h1 h2 => ⟨h1.1.trans h2.1, h1.2.trans h2.2⟩
  · rw [qstrcmp_dir_eq_zero_iff, ci_key_eq_iff]
    exact ⟨fun h => ⟨h.2, h.1⟩, fun h => ⟨h.2, h.1⟩⟩

/-! ### Runs with allocation failures -/

theorem string_list_new_cases (h : Heap) :
    (∃ h1, string_list_new h = .ok (none, h1)) ∨
      (∃ h1, string_list_new h = .ok (some ⟨List.replicate 32 none, 0, 32⟩, h1)) := by
  unfold string_list_new string_list_capacity realloc
  cases ha : alloc h with
  | mk b h2 =>
    cases b with
    | false => exact Or.inl ⟨h2, rfl⟩
    | true =>
      cases hb : alloc h2 with
      | mk b2 h3 =>
        cases b2 with
        | false => exact Or.inl ⟨h3, by simp [hb]⟩
        | true => exact Or.inr ⟨h3, by simp [hb]⟩

/-- Under any allocation script the `while (tmp)` loop of `string_split`
returns; a present result holds the tokens that were left to append. -/
theorem string_split_loop_any (d : List Char) :
    ∀ (fuel : Nat) (tmp : Option (List Char)) (save : List Char) (list : string_list) (h : Heap),
      WF list → (tmp.isSome = true → save.length < fuel) →
      ∃ r h1, string_split_loop d fuel tmp save list h = .ok (r, h1) ∧
        ∀ l1, r = some l1 → WF l1 ∧
          l1.used = list.used ++
            (match tmp with
             | none => []
             | some t => t :: maximal_tokens save d).map (fun t => some ⟨t, attr_zero⟩) := by
  intro fuel
  induction fuel with
  | zero =>
    intro tmp save list h hw hb
    cases tmp with
    | none =>
      refine ⟨some list, h, by simp [string_split_loop], ?_⟩
      intro l1 hl1
      simp only [Option.some.injEq] at hl1
      subst hl1
      exact ⟨hw, by simp⟩
    | some t => simp at hb
  | succ fuel ih =>
    intro tmp save list h hw hb
    cases tmp with
    | none =>
      refine ⟨some list, h, by simp [string_split_loop], ?_⟩
      intro l1 hl1
      simp only [Option.some.injEq] at hl1
      subst hl1
      exact ⟨hw, by simp⟩
    | some t =>
      obtain ⟨r0, l2, h2, happ⟩ := append_total hw t attr_zero h
      cases r0 with
      | false =>
        refine ⟨none, h2, by simp only [string_split_loop, happ], ?_⟩
        intro l1 hl1
        exact Option.noConfusion hl1
      | true =>
        obtain ⟨hw2, hT, _, _⟩ := append_step hw happ
        obtain ⟨_, hused2⟩ := hT rfl
        have hb1 : save.length < fuel + 1 := hb rfl
        have htok := strtok_r_tokens save d
        have hb2 : (strtok_r save d).1.isSome = true → (strtok_r save d).2.length < fuel := by
          intro hsome
          obtain ⟨t1, ht1⟩ := Option.isSome_iff_exists.mp hsome
          have := (htok.1 t1 ht1).2
          omega
        obtain ⟨r, h1, hloop, hres⟩ :=
          ih (strtok_r save d).1 (strtok_r save d).2 l2 h2 hw2 hb2
        refine ⟨r, h1, ?_, ?_⟩
        · simp only [string_split_loop]
          rw [happ]
          exact hloop
        · intro l1 hl1
          obtain ⟨hw1, hused1⟩ := hres l1 hl1
          refine ⟨hw1, ?_⟩
          rw [hused1, hused2]
          have hmt : maximal_tokens save d =
              (match (strtok_r save d).1 with
               | none => []
               | some t => t :: maximal_tokens (strtok_r save d).2 d) := by
            cases hq : (strtok_r save d).1 with
            | none => exact htok.2 hq
            | some t1 => exact (htok.1 t1 hq).1
          rw [hmt]
          simp

/-- Under any allocation script `string_split` returns; a present result is
well formed and holds the spec-side tokens. -/
theorem string_split_any (source delimiters : List Char) (h : Heap) :
    ∃ r h1, string_split source delimiters h = .ok (r, h1) ∧
      ∀ l, r = some l → WF l ∧
        l.used = (maximal_tokens source delimiters).map (fun t => some ⟨t, attr_zero⟩) := by
  unfold string_split
  rcases string_list_new_cases h with ⟨h1, hnew⟩ | ⟨h1, hnew⟩
  · rw [hnew]
    exact ⟨none, h1, rfl, fun l hl => Option.noConfusion hl⟩
  · rw [hnew]
    simp only []
    cases ha : alloc h1 with
    | mk b h2 =>
      cases b with
      | false => exact ⟨none, h2, rfl, fun l hl => Option.noConfusion hl⟩
      | true =>
        simp only []
        have htok := strtok_r_tokens source delimiters
        have hb : (strtok_r source delimiters).1.isSome = true →
            (strtok_r source delimiters).2.length < source.length := by
          intro hsome
          obtain ⟨t1, ht1⟩ := Option.isSome_iff_exists.mp hsome
          exact (htok.1 t1 ht1).2
        obtain ⟨r, h3, hloop, hres⟩ :=
          string_split_loop_any delimiters source.length (strtok_r source delimiters).1
            (strtok_r source delimiters).2 _ h2 WF_fresh hb
        refine ⟨r, h3, hloop, ?_⟩
        intro l hl
        obtain ⟨hw, hused⟩ := hres l hl
        have hmt : maximal_tokens source delimiters =
            (match (strtok_r source delimiters).1 with
             | none => []
             | some t => t :: maximal_tokens (strtok_r source delimiters).2 delimiters) := by
          cases hq : (strtok_r source delimiters).1 with
          | none => exact htok.2 hq
          | some t1 => exact (htok.1 t1 hq).1
        rw [← hmt] at hused
        exact ⟨hw, by rw [hused]; simp [string_list.used]⟩

/-- Under any allocation script the POSIX scan loop returns; a present
result holds, after the elements it started with, the kept entries in
enumeration order, each as the content of the `PATH_MAX` buffer with the
entry's is-directory flag. -/
theorem dir_list_new_loop_any (PATH_MAX : Nat) (dir : List Char)
    (ext_list : Option string_list) (include_dirs : Bool)
    (hwe : ∀ fl, ext_list = some fl → WF fl) :
    ∀ (entries : List dirent) (list : string_list) (h : Heap), WF list →
      ∃ r h1, dir_list_new_loop PATH_MAX dir ext_list include_dirs entries list h =
          .ok (r, h1) ∧
        ∀ l1, r = some l1 → WF l1 ∧
          l1.used = list.used ++
            (entries.filter (entry_accepted PATH_MAX ext_list include_dirs)).map
              (fun e => some ⟨snprintf PATH_MAX (dir ++ '/' :: e.d_name), ⟨e.is_dir⟩⟩) := by
  intro entries
  induction entries with
  | nil =>
    intro list h hw
    refine ⟨some list, h, rfl, ?_⟩
    intro l1 hl1
    simp only [Option.some.injEq] at hl1
    subst hl1
    exact ⟨hw, by simp⟩
  | cons e rest ih =>
    intro list h hw
    -- an entry that is skipped
    have hskip : entry_accepted PATH_MAX ext_list include_dirs e = false →
        dir_list_new_loop PATH_MAX dir ext_list include_dirs (e :: rest) list h =
          dir_list_new_loop PATH_MAX dir ext_list include_dirs rest list h →
        ∃ r h1, dir_list_new_loop PATH_MAX dir ext_list include_dirs (e :: rest) list h =
            .ok (r, h1) ∧
          ∀ l1, r = some l1 → WF l1 ∧
            l1.used = list.used ++
              ((e :: rest).filter (entry_accepted PATH_MAX ext_list include_dirs)).map
                (fun e => some ⟨snprintf PATH_MAX (dir ++ '/' :: e.d_name), ⟨e.is_dir⟩⟩) := by
      intro hacc heq
      obtain ⟨r, h1, hloop, hres⟩ := ih list h hw
      refine ⟨r, h1, heq.trans hloop, ?_⟩
      intro l1 hl1
      obtain ⟨hw1, hused⟩ := hres l1 hl1
      exact ⟨hw1, by rw [hused, List.filter_cons_of_neg (by simp [hacc])]⟩
    -- an entry that is appended
    have hkeep : entry_accepted PATH_MAX ext_list include_dirs e = true →
        dir_list_new_loop PATH_MAX dir ext_list include_dirs (e :: rest) list h =
          (match string_list_append list (snprintf PATH_MAX (dir ++ '/' :: e.d_name))
              ⟨e.is_dir⟩ h with
           | .error f => .error f
           | .ok (false, _, h1) => .ok (none, h1)
           | .ok (true, list1, h1) =>
             dir_list_new_loop PATH_MAX dir ext_list include_dirs rest list1 h1) →
        ∃ r h1, dir_list_new_loop PATH_MAX dir ext_list include_dirs (e :: rest) list h =
            .ok (r, h1) ∧
          ∀ l1, r = some l1 → WF l1 ∧
            l1.used = list.used ++
              ((e :: rest).filter (entry_accepted PATH_MAX ext_list include_dirs)).map
                (fun e => some ⟨snprintf PATH_MAX (dir ++ '/' :: e.d_name), ⟨e.is_dir⟩⟩) := by
      intro hacc heq
      obtain ⟨r2, l2, h2, happ⟩ :=
        append_total hw (snprintf PATH_MAX (dir ++ '/' :: e.d_name)) ⟨e.is_dir⟩ h
      rw [happ] at heq
      cases r2 with
      | false => exact ⟨none, h2, heq, fun l1 hl1 => Option.noConfusion hl1⟩
      | true =>
        obtain ⟨hw2, hT, _, _⟩ := append_step hw happ
        obtain ⟨r, h1, hloop, hres⟩ := ih l2 h2 hw2
        refine ⟨r, h1, heq.trans hloop, ?_⟩
        intro l1 hl1
        obtain ⟨hw1, hused⟩ := hres l1 hl1
        refine ⟨hw1, ?_⟩
        rw [hused, (hT rfl).2, List.filter_cons_of_pos (by simp [hacc])]
        simp
    by_cases h1 : (!include_dirs && e.is_dir) = true
    · apply hskip
      · simp only [Bool.and_eq_true, Bool.not_eq_true'] at h1
        simp [entry_accepted, h1.1, h1.2]
      · simp only [dir_list_new_loop]
        rw [if_pos h1]
    · by_cases h2 : strcmp e.d_name ['.'] = 0 ∨ strcmp e.d_name ['.', '.'] = 0
      · apply hskip
        · simp only [strcmp_eq_zero_iff] at h2
          rcases h2 with h2 | h2 <;> simp [entry_accepted, h2]
        · simp only [dir_list_new_loop]
          rw [if_neg h1, if_pos h2]
      · have hname : e.d_name ≠ ['.'] ∧ e.d_name ≠ ['.', '.'] := by
          simp only [strcmp_eq_zero_iff, not_or] at h2
          exact h2
        by_cases h3 : (!e.is_dir && ext_list.isSome) = true
        · simp only [Bool.and_eq_true, Bool.not_eq_true'] at h3
          obtain ⟨fl, hfl⟩ := Option.isSome_iff_exists.mp h3.2
          subst hfl
          obtain ⟨b, hb, _⟩ := string_list_find_elem_prefix_spec PATH_MAX fl (hwe fl rfl) ['.']
            (path_get_extension e.d_name)
          cases b with
          | false =>
            apply hskip
            · simp [entry_accepted, hname.1, hname.2, h3.1, hb]
            · simp only [dir_list_new_loop]
              rw [if_neg h1, if_neg h2]
              simp [h3.1, hb]
          | true =>
            apply hkeep
            · simp [entry_accepted, hname.1, hname.2, h3.1, hb]
            · simp only [dir_list_new_loop]
              rw [if_neg h1, if_neg h2]
              simp [h3.1, hb]
        · apply hkeep
          · simp only [Bool.and_eq_true, Bool.not_eq_true', not_and, Bool.not_eq_true,
              Option.not_isSome, Option.isNone_iff_eq_none] at h3
            simp only [Bool.and_eq_true, Bool.not_eq_true', not_and, Bool.not_eq_false] at h1
            cases hd : e.is_dir with
            | true =>
              have hinc : include_dirs = true := by
                cases hi : include_dirs with
                | true => rfl
                | false => exact absurd (h1 hi) (by simp [hd])
              simp [entry_accepted, hname.1, hname.2, hd, hinc]
            | false =>
              have := h3 hd
              simp [entry_accepted, hname.1, hname.2, hd, this]
          · simp only [dir_list_new_loop]
            rw [if_neg h1, if_neg h2, if_neg h3]

/-- Under any allocation script the Windows scan loop returns; a present
result holds, after the elements it started with, the kept entries in
enumeration order, each as the content of the `PATH_MAX` buffer with the
entry's is-directory flag. -/
theorem dir_list_new_win32_loop_any (PATH_MAX : Nat) (dir : List Char)
    (ext_list : Option string_list) (include_dirs : Bool)
    (hwe : ∀ fl, ext_list = some fl → WF fl) :
    ∀ (entries : List dirent) (list : string_list) (h : Heap), WF list →
      ∃ r h1, dir_list_new_win32_loop PATH_MAX dir ext_list include_dirs entries list h =
          .ok (r, h1) ∧
        ∀ l1, r = some l1 → WF l1 ∧
          l1.used = list.used ++
            (entries.filter (entry_accepted_win32 PATH_MAX ext_list include_dirs)).map
              (fun e => some ⟨snprintf PATH_MAX (dir ++ '\\' :: e.d_name), ⟨e.is_dir⟩⟩) := by
  intro entries
  induction entries with
  | nil =>
    intro list h hw
    refine ⟨some list, h, rfl, ?_⟩
    intro l1 hl1
    simp only [Option.some.injEq] at hl1
    subst hl1
    exact ⟨hw, by simp⟩
  | cons e rest ih =>
    intro list h hw
    -- an entry that is skipped
    have hskip : entry_accepted_win32 PATH_MAX ext_list include_dirs e = false →
        dir_list_new_win32_loop PATH_MAX dir ext_list include_dirs (e :: rest) list h =
          dir_list_new_win32_loop PATH_MAX dir ext_list include_dirs rest list h →
        ∃ r h1, dir_list_new_win32_loop PATH_MAX dir ext_list include_dirs (e :: rest) list h =
            .ok (r, h1) ∧
          ∀ l1, r = some l1 → WF l1 ∧
            l1.used = list.used ++
              ((e :: rest).filter (entry_accepted_win32 PATH_MAX ext_list include_dirs)).map
                (fun e => some ⟨snprintf PATH_MAX (dir ++ '\\' :: e.d_name), ⟨e.is_dir⟩⟩) := by
      intro hacc heq
      obtain ⟨r, h1, hloop, hres⟩ := ih list h hw
      refine ⟨r, h1, heq.trans hloop, ?_⟩
      intro l1 hl1
      obtain ⟨hw1, hused⟩ := hres l1 hl1
      exact ⟨hw1, by rw [hused, List.filter_cons_of_neg (by simp [hacc])]⟩
    -- an entry that is appended
    have hkeep : entry_accepted_win32 PATH_MAX ext_list include_dirs e = true →
        dir_list_new_win32_loop PATH_MAX dir ext_list include_dirs (e :: rest) list h =
          (match string_list_append list (snprintf PATH_MAX (dir ++ '\\' :: e.d_name))
              ⟨e.is_dir⟩ h with
           | .error f => .error f
           | .ok (false, _, h1) => .ok (none, h1)
           | .ok (true, list1, h1) =>
             dir_list_new_win32_loop PATH_MAX dir ext_list include_dirs rest list1 h1) →
        ∃ r h1, dir_list_new_win32_loop PATH_MAX dir ext_list include_dirs (e :: rest) list h =
            .ok (r, h1) ∧
          ∀ l1, r = some l1 → WF l1 ∧
            l1.used = list.used ++
              ((e :: rest).filter (entry_accepted_win32 PATH_MAX ext_list include_dirs)).map
                (fun e => some ⟨snprintf PATH_MAX (dir ++ '\\' :: e.d_name), ⟨e.is_dir⟩⟩) := by
      intro hacc heq
      obtain ⟨r2, l2, h2, happ⟩ :=
        append_total hw (snprintf PATH_MAX (dir ++ '\\' :: e.d_name)) ⟨e.is_dir⟩ h
      rw [happ] at heq
      cases r2 with
      | false => exact ⟨none, h2, heq, fun l1 hl1 => Option.noConfusion hl1⟩
      | true =>
        obtain ⟨hw2, hT, _, _⟩ := append_step hw happ
        obtain ⟨r, h1, hloop, hres⟩ := ih l2 h2 hw2
        refine ⟨r, h1, heq.trans hloop, ?_⟩
        intro l1 hl1
        obtain ⟨hw1, hused⟩ := hres l1 hl1
        refine ⟨hw1, ?_⟩
        rw [hused, (hT rfl).2, List.filter_cons_of_pos (by simp [hacc])]
        simp
    by_cases h1 : (!include_dirs && e.is_dir) = true
    · apply hskip
      · simp only [Bool.and_eq_true, Bool.not_eq_true'] at h1
        simp [entry_accepted_win32, h1.1, h1.2]
      · simp only [dir_list_new_win32_loop]
        rw [if_pos h1]
    · by_cases h3 : (!e.is_dir && ext_list.isSome) = true
      · simp only [Bool.and_eq_true, Bool.not_eq_true'] at h3
        obtain ⟨fl, hfl⟩ := Option.isSome_iff_exists.mp h3.2
        subst hfl
        obtain ⟨b, hb, _⟩ := string_list_find_elem_prefix_spec PATH_MAX fl (hwe fl rfl) ['.']
          (path_get_extension e.d_name)
        cases b with
        | false =>
          apply hskip
          · simp [entry_accepted_win32, h3.1, hb]
          · simp only [dir_list_new_win32_loop]
            rw [if_neg h1]
            simp [h3.1, hb]
        | true =>
          apply hkeep
          · simp [entry_accepted_win32, h3.1, hb]
          · simp only [dir_list_new_win32_loop]
            rw [if_neg h1]
            simp [h3.1, hb]
      · apply hkeep
        · simp only [Bool.and_eq_true, Bool.not_eq_true', not_and, Bool.not_eq_true,
            Option.not_isSome, Option.isNone_iff_eq_none] at h3
          simp only [Bool.and_eq_true, Bool.not_eq_true', not_and, Bool.not_eq_false] at h1
          cases hd : e.is_dir with
          | true =>
            have hinc : include_dirs = true := by
              cases hi : include_dirs with
              | true => rfl
              | false => exact absurd (h1 hi) (by simp [hd])
            simp [entry_accepted_win32, hd, hinc]
          | false =>
            have := h3 hd
            simp [entry_accepted_win32, hd, this]
        · simp only [dir_list_new_win32_loop]
          rw [if_neg h1, if_neg h3]

/-- The allow-list a scan works with: none for a null filter or a filter whose
`string_split` failed, else a well-formed list of the filter's tokens. -/
theorem scan_allow_list (ext : Option (List Char)) (h : Heap) :
    ∃ (ext_list : Option string_list) (h1 : Heap),
      (match ext with
       | some e => string_split e ['|'] h
       | none => .ok (none, h)) = (.ok (ext_list, h1) : Run (Option string_list × Heap)) ∧
      ∀ fl, ext_list = some fl → WF fl ∧
        ∃ f, ext = some f ∧
          fl.used = (maximal_tokens f ['|']).map (fun t => some ⟨t, attr_zero⟩) := by
  cases ext with
  | none => exact ⟨none, h, rfl, fun fl hfl => Option.noConfusion hfl⟩
  | some f =>
    obtain ⟨r, h1, hsplit, hres⟩ := string_split_any f ['|'] h
    refine ⟨r, h1, hsplit, ?_⟩
    intro fl hfl
    obtain ⟨hw, hused⟩ := hres fl hfl
    exact ⟨hw, f, rfl, hused⟩

/-- Every present result of the POSIX `dir_list_new`, whatever the allocation
script: the entries kept under the allow-list of the run, each as the content
of the `PATH_MAX` buffer. -/
theorem dir_list_new_any (PATH_MAX : Nat) (opendir : List Char → Option (List dirent))
    (dir : List Char) (ext : Option (List Char)) (include_dirs : Bool) (h h1 : Heap)
    (entries : List dirent) (l : string_list) (hopen : opendir dir = some entries)
    (hrun : dir_list_new PATH_MAX opendir dir ext include_dirs h = .ok (some l, h1)) :
    ∃ ext_list : Option string_list,
      (∀ fl, ext_list = some fl → WF fl ∧
        ∃ f, ext = some f ∧
          fl.used = (maximal_tokens f ['|']).map (fun t => some ⟨t, attr_zero⟩)) ∧
      l.used = (entries.filter (entry_accepted PATH_MAX ext_list include_dirs)).map
        (fun e => some ⟨snprintf PATH_MAX (dir ++ '/' :: e.d_name), ⟨e.is_dir⟩⟩) := by
  unfold dir_list_new at hrun
  rcases string_list_new_cases h with ⟨h2, hnew⟩ | ⟨h2, hnew⟩
  · rw [hnew] at hrun
    simp at hrun
  · rw [hnew] at hrun
    obtain ⟨ext_list, h3, hsplit, hres⟩ := scan_allow_list ext h2
    simp only [hsplit, hopen] at hrun
    obtain ⟨r, h4, hloop, hl⟩ :=
      dir_list_new_loop_any PATH_MAX dir ext_list include_dirs (fun fl hfl => (hres fl hfl).1)
        entries _ h3 WF_fresh
    rw [hloop] at hrun
    simp only [Except.ok.injEq, Prod.mk.injEq] at hrun
    obtain ⟨_, hused⟩ := hl l hrun.1
    exact ⟨ext_list, hres, by rw [hused]; simp [string_list.used]⟩

/-- Every present result of the Windows `dir_list_new`, whatever the
allocation script. -/
theorem dir_list_new_win32_any (PATH_MAX : Nat) (find_first : List Char → Option (List dirent))
    (dir : List Char) (ext : Option (List Char)) (include_dirs : Bool) (h h1 : Heap)
    (entries : List dirent) (l : string_list)
    (hopen : find_first (snprintf PATH_MAX (dir ++ ['\\', '*'])) = some entries)
    (hrun : dir_list_new_win32 PATH_MAX find_first dir ext include_dirs h = .ok (some l, h1)) :
    ∃ ext_list : Option string_list,
      (∀ fl, ext_list = some fl → WF fl ∧
        ∃ f, ext = some f ∧
          fl.used = (maximal_tokens f ['|']).map (fun t => some ⟨t, attr_zero⟩)) ∧
      l.used = (entries.filter (entry_accepted_win32 PATH_MAX ext_list include_dirs)).map
        (fun e => some ⟨snprintf PATH_MAX (dir ++ '\\' :: e.d_name), ⟨e.is_dir⟩⟩) := by
  unfold dir_list_new_win32 at hrun
  rcases string_list_new_cases h with ⟨h2, hnew⟩ | ⟨h2, hnew⟩
  · rw [hnew] at hrun
    simp at hrun
  · rw [hnew] at hrun
    obtain ⟨ext_list, h3, hsplit, hres⟩ := scan_allow_list ext h2
    simp only [hsplit, hopen] at hrun
    obtain ⟨r, h4, hloop, hl⟩ :=
      dir_list_new_win32_loop_any PATH_MAX dir ext_list include_dirs
        (fun fl hfl => (hres fl hfl).1) entries _ h3 WF_fresh
    rw [hloop] at hrun
    simp only [Except.ok.injEq, Prod.mk.injEq] at hrun
    obtain ⟨_, hused⟩ := hl l hrun.1
    exact ⟨ext_list, hres, by rw [hused]; simp [string_list.used]⟩

/-! ### C17: the string a scan appends -/

theorem dir_list_new_loop_truncating (PATH_MAX : Nat) (dir : List Char)
    (ext_list : Option string_list) (include_dirs : Bool)
    (hwe : ∀ fl, ext_list = some fl → WF fl) :
    ∀ (entries : List dirent) (list : string_list) (h : Heap), WF list → NoFail h →
      ∃ l1 h1, dir_list_new_loop PATH_MAX dir ext_list include_dirs entries list h =
          .ok (some l1, h1) ∧ WF l1 ∧
        l1.used = list.used ++
          (entries.filter (entry_accepted PATH_MAX ext_list include_dirs)).map
            (fun e => some ⟨snprintf PATH_MAX (dir ++ '/' :: e.d_name), ⟨e.is_dir⟩⟩) := by
  intro entries
  induction entries with
  | nil =>
    intro list h hw _
    exact ⟨list, h, rfl, hw, by simp⟩
  | cons e rest ih =>
    intro list h hw hn
    -- an entry that is skipped
    have hskip : entry_accepted PATH_MAX ext_list include_dirs e = false →
        dir_list_new_loop PATH_MAX dir ext_list include_dirs (e :: rest) list h =
          dir_list_new_loop PATH_MAX dir ext_list include_dirs rest list h →
        ∃ l1 h1, dir_list_new_loop PATH_MAX dir ext_list include_dirs (e :: rest) list h =
            .ok (some l1, h1) ∧ WF l1 ∧
          l1.used = list.used ++
            ((e :: rest).filter (entry_accepted PATH_MAX ext_list include_dirs)).map
              (fun e => some ⟨snprintf PATH_MAX (dir ++ '/' :: e.d_name), ⟨e.is_dir⟩⟩) := by
      intro hacc heq
      obtain ⟨l1, h1, hloop, hw1, hused⟩ := ih list h hw hn
      refine ⟨l1, h1, heq.trans hloop, hw1, ?_⟩
      rw [hused, List.filter_cons_of_neg (by simp [hacc])]
    -- an entry that is appended
    have hkeep : entry_accepted PATH_MAX ext_list include_dirs e = true →
        (∀ l2 h2, string_list_append list (snprintf PATH_MAX (dir ++ '/' :: e.d_name)) ⟨e.is_dir⟩ h =
            .ok (true, l2, h2) →
          dir_list_new_loop PATH_MAX dir ext_list include_dirs (e :: rest) list h =
            dir_list_new_loop PATH_MAX dir ext_list include_dirs rest l2 h2) →
        ∃ l1 h1, dir_list_new_loop PATH_MAX dir ext_list include_dirs (e :: rest) list h =
            .ok (some l1, h1) ∧ WF l1 ∧
          l1.used = list.used ++
            ((e :: rest).filter (entry_accepted PATH_MAX ext_list include_dirs)).map
              (fun e => some ⟨snprintf PATH_MAX (dir ++ '/' :: e.d_name), ⟨e.is_dir⟩⟩) := by
      intro hacc heq
      obtain ⟨l2, h2, happ, hn2⟩ :=
        append_noFail hw (snprintf PATH_MAX (dir ++ '/' :: e.d_name)) ⟨e.is_dir⟩ hn
      obtain ⟨hw2, hT, _, _⟩ := append_step hw happ
      obtain ⟨l1, h1, hloop, hw1, hused⟩ := ih l2 h2 hw2 hn2
      refine ⟨l1, h1, (heq l2 h2 happ).trans hloop, hw1, ?_⟩
      rw [hused, (hT rfl).2, List.filter_cons_of_pos (by simp [hacc])]
      simp
    by_cases h1 : (!include_dirs && e.is_dir) = true
    · apply hskip
      · simp only [Bool.and_eq_true, Bool.not_eq_true'] at h1
        simp [entry_accepted, h1.1, h1.2]
      · simp only [dir_list_new_loop]
        rw [if_pos h1]
    · by_cases h2 : strcmp e.d_name ['.'] = 0 ∨ strcmp e.d_name ['.', '.'] = 0
      · apply hskip
        · simp only [strcmp_eq_zero_iff] at h2
          rcases h2 with h2 | h2 <;> simp [entry_accepted, h2]
        · simp only [dir_list_new_loop]
          rw [if_neg h1, if_pos h2]
      · have hname : e.d_name ≠ ['.'] ∧ e.d_name ≠ ['.', '.'] := by
          simp only [strcmp_eq_zero_iff, not_or] at h2
          exact h2
        by_cases h3 : (!e.is_dir && ext_list.isSome) = true
        · simp only [Bool.and_eq_true, Bool.not_eq_true'] at h3
          obtain ⟨fl, hfl⟩ := Option.isSome_iff_exists.mp h3.2
          subst hfl
          obtain ⟨b, hb, _⟩ := string_list_find_elem_prefix_spec PATH_MAX fl (hwe fl rfl) ['.']
            (path_get_extension e.d_name)
          cases b with
          | false =>
            apply hskip
            · simp [entry_accepted, hname.1, hname.2, h3.1, hb]
            · simp only [dir_list_new_loop]
              rw [if_neg h1, if_neg h2]
              simp [h3.1, hb]
          | true =>
            apply hkeep
            · simp [entry_accepted, hname.1, hname.2, h3.1, hb]
            · intro l2 h2a happ
              simp only [dir_list_new_loop]
              rw [if_neg h1, if_neg h2]
              rw [h3.1] at happ
              simp [h3.1, hb, happ]
        · apply hkeep
          · simp only [Bool.and_eq_true, Bool.not_eq_true', not_and, Bool.not_eq_true,
              Option.not_isSome, Option.isNone_iff_eq_none] at h3
            simp only [Bool.and_eq_true, Bool.not_eq_true', not_and, Bool.not_eq_false] at h1
            cases hd : e.is_dir with
            | true =>
              have hinc : include_dirs = true := by
                cases hi : include_dirs with
                | true => rfl
                | false => exact absurd (h1 hi) (by simp [hd])
              simp [entry_accepted, hname.1, hname.2, hd, hinc]
            | false =>
              have := h3 hd
              simp [entry_accepted, hname.1, hname.2, hd, this]
          · intro l2 h2a happ
            simp only [dir_list_new_loop]
            rw [if_neg h1, if_neg h2, if_neg h3]
            simp [happ]

theorem dir_list_new_win32_loop_truncating (PATH_MAX : Nat) (dir : List Char)
    (ext_list : Option string_list) (include_dirs : Bool)
    (hwe : ∀ fl, ext_list = some fl → WF fl) :
    ∀ (entries : List dirent) (list : string_list) (h : Heap), WF list → NoFail h →
      ∃ l1 h1, dir_list_new_win32_loop PATH_MAX dir ext_list include_dirs entries list h =
          .ok (some l1, h1) ∧ WF l1 ∧
        l1.used = list.used ++
          (entries.filter (entry_accepted_win32 PATH_MAX ext_list include_dirs)).map
            (fun e => some ⟨snprintf PATH_MAX (dir ++ '\\' :: e.d_name), ⟨e.is_dir⟩⟩) := by
  intro entries
  induction entries with
  | nil =>
    intro list h hw _
    exact ⟨list, h, rfl, hw, by simp⟩
  | cons e rest ih =>
    intro list h hw hn
    -- an entry that is skipped
    have hskip : entry_accepted_win32 PATH_MAX ext_list include_dirs e = false →
        dir_list_new_win32_loop PATH_MAX dir ext_list include_dirs (e :: rest) list h =
          dir_list_new_win32_loop PATH_MAX dir ext_list include_dirs rest list h →
        ∃ l1 h1, dir_list_new_win32_loop PATH_MAX dir ext_list include_dirs (e :: rest) list h =
            .ok (some l1, h1) ∧ WF l1 ∧
          l1.used = list.used ++
            ((e :: rest).filter (entry_accepted_win32 PATH_MAX ext_list include_dirs)).map
              (fun e => some ⟨snprintf PATH_MAX (dir ++ '\\' :: e.d_name), ⟨e.is_dir⟩⟩) := by
      intro hacc heq
      obtain ⟨l1, h1, hloop, hw1, hused⟩ := ih list h hw hn
      refine ⟨l1, h1, heq.trans hloop, hw1, ?_⟩
      rw [hused, List.filter_cons_of_neg (by simp [hacc])]
    -- an entry that is appended
    have hkeep : entry_accepted_win32 PATH_MAX ext_list include_dirs e = true →
        (∀ l2 h2, string_list_append list (snprintf PATH_MAX (dir ++ '\\' :: e.d_name)) ⟨e.is_dir⟩ h =
            .ok (true, l2, h2) →
          dir_list_new_win32_loop PATH_MAX dir ext_list include_dirs (e :: rest) list h =
            dir_list_new_win32_loop PATH_MAX dir ext_list include_dirs rest l2 h2) →
        ∃ l1 h1, dir_list_new_win32_loop PATH_MAX dir ext_list include_dirs (e :: rest) list h =
            .ok (some l1, h1) ∧ WF l1 ∧
          l1.used = list.used ++
            ((e :: rest).filter (entry_accepted_win32 PATH_MAX ext_list include_dirs)).map
              (fun e => some ⟨snprintf PATH_MAX (dir ++ '\\' :: e.d_name), ⟨e.is_dir⟩⟩) := by
      intro hacc heq
      obtain ⟨l2, h2, happ, hn2⟩ :=
        append_noFail hw (snprintf PATH_MAX (dir ++ '\\' :: e.d_name)) ⟨e.is_dir⟩ hn
      obtain ⟨hw2, hT, _, _⟩ := append_step hw happ
      obtain ⟨l1, h1, hloop, hw1, hused⟩ := ih l2 h2 hw2 hn2
      refine ⟨l1, h1, (heq l2 h2 happ).trans hloop, hw1, ?_⟩
      rw [hused, (hT rfl).2, List.filter_cons_of_pos (by simp [hacc])]
      simp
    by_cases h1 : (!include_dirs && e.is_dir) = true
    · apply hskip
      · simp only [Bool.and_eq_true, Bool.not_eq_true'] at h1
        simp [entry_accepted_win32, h1.1, h1.2]
      · simp only [dir_list_new_win32_loop]
        rw [if_pos h1]
    · by_cases h3 : (!e.is_dir && ext_list.isSome) = true
      · simp only [Bool.and_eq_true, Bool.not_eq_true'] at h3
        obtain ⟨fl, hfl⟩ := Option.isSome_iff_exists.mp h3.2
        subst hfl
        obtain ⟨b, hb, _⟩ := string_list_find_elem_prefix_spec PATH_MAX fl (hwe fl rfl) ['.']
          (path_get_extension e.d_name)
        cases b with
        | false =>
          apply hskip
          · simp [entry_accepted_win32, h3.1, hb]
          · simp only [dir_list_new_win32_loop]
            rw [if_neg h1]
            simp [h3.1, hb]
        | true =>
          apply hkeep
          · simp [entry_accepted_win32, h3.1, hb]
          · intro l2 h2a happ
            simp only [dir_list_new_win32_loop]
            rw [if_neg h1]
            rw [h3.1] at happ
            simp [h3.1, hb, happ]
      · apply hkeep
        · simp only [Bool.and_eq_true, Bool.not_eq_true', not_and, Bool.not_eq_true,
            Option.not_isSome, Option.isNone_iff_eq_none] at h3
          simp only [Bool.and_eq_true, Bool.not_eq_true', not_and, Bool.not_eq_false] at h1
          cases hd : e.is_dir with
          | true =>
            have hinc : include_dirs = true := by
              cases hi : include_dirs with
              | true => rfl
              | false => exact absurd (h1 hi) (by simp [hd])
            simp [entry_accepted_win32, hd, hinc]
          | false =>
            have := h3 hd
            simp [entry_accepted_win32, hd, this]
        · intro l2 h2a happ
          simp only [dir_list_new_win32_loop]
          rw [if_neg h1, if_neg h3]
          simp [happ]

theorem entry_accepted_win32_congr (PATH_MAX : Nat) (fl fl1 : string_list) (hw : WF fl)
    (hw1 : WF fl1) (hused : fl.used = fl1.used) (include_dirs : Bool) :
    entry_accepted_win32 PATH_MAX (some fl) include_dirs =
      entry_accepted_win32 PATH_MAX (some fl1) include_dirs := by
  funext e
  simp only [entry_accepted_win32]
  rw [string_list_find_elem_prefix_congr PATH_MAX fl fl1 hw hw1 hused]

/-- The allow-list built under any script without failure equals, slot for
slot in use, the one of `filter_list`. -/
theorem filter_list_noFail (f : List Char) (h : Heap) (hn : NoFail h) :
    ∃ fl h1 fl0, string_split f ['|'] h = .ok (some fl, h1) ∧ NoFail h1 ∧ WF fl ∧
      filter_list (some f) = some fl0 ∧ WF fl0 ∧ fl.used = fl0.used := by
  obtain ⟨fl, h2, hsplit, hwf, hn2, hfused⟩ := string_split_noFail f ['|'] h hn
  obtain ⟨fl0, h3, hsplit0, hwf0, _, hfused0⟩ :=
    string_split_noFail f ['|'] [] (by intro b hb; simp at hb)
  refine ⟨fl, h2, fl0, hsplit, hn2, hwf, ?_, hwf0, hfused.trans hfused0.symm⟩
  simp only [filter_list, hsplit0]

theorem dir_list_new_truncating (PATH_MAX : Nat) (opendir : List Char → Option (List dirent))
    (dir : List Char) (ext : Option (List Char)) (include_dirs : Bool) (h : Heap)
    (entries : List dirent) (hopen : opendir dir = some entries) (hn : NoFail h) :
    ∃ l h1, dir_list_new PATH_MAX opendir dir ext include_dirs h = .ok (some l, h1) ∧ WF l ∧
      l.used = (entries.filter (entry_accepted PATH_MAX (filter_list ext) include_dirs)).map
        (fun e => some ⟨snprintf PATH_MAX (dir ++ '/' :: e.d_name), ⟨e.is_dir⟩⟩) := by
  obtain ⟨hnew, hn0⟩ := string_list_new_noFail hn
  cases ext with
  | none =>
    obtain ⟨l, h1, hloop, hw, hused⟩ :=
      dir_list_new_loop_truncating PATH_MAX dir none include_dirs (by simp) entries _ _
        WF_fresh hn0
    refine ⟨l, h1, ?_, hw, ?_⟩
    · unfold dir_list_new
      rw [hnew]
      simp only [hopen]
      exact hloop
    · rw [hused]
      simp [string_list.used, filter_list]
  | some f =>
    obtain ⟨fl, h2, fl0, hsplit, hn2, hwf, hfl, hwf0, hfused⟩ := filter_list_noFail f _ hn0
    obtain ⟨l, h1, hloop, hw, hused⟩ :=
      dir_list_new_loop_truncating PATH_MAX dir (some fl) include_dirs
        (by intro x hx; simp only [Option.some.injEq] at hx; subst hx; exact hwf)
        entries _ _ WF_fresh hn2
    refine ⟨l, h1, ?_, hw, ?_⟩
    · unfold dir_list_new
      rw [hnew]
      simp only [hsplit, hopen]
      exact hloop
    · rw [hused, hfl, entry_accepted_congr PATH_MAX fl fl0 hwf hwf0 hfused]
      simp [string_list.used]

theorem dir_list_new_win32_truncating (PATH_MAX : Nat)
    (find_first : List Char → Option (List dirent)) (dir : List Char)
    (ext : Option (List Char)) (include_dirs : Bool) (h : Heap) (entries : List dirent)
    (hopen : find_first (snprintf PATH_MAX (dir ++ ['\\', '*'])) = some entries)
    (hn : NoFail h) :
    ∃ l h1, dir_list_new_win32 PATH_MAX find_first dir ext include_dirs h = .ok (some l, h1) ∧
      WF l ∧
      l.used =
        (entries.filter (entry_accepted_win32 PATH_MAX (filter_list ext) include_dirs)).map
          (fun e => some ⟨snprintf PATH_MAX (dir ++ '\\' :: e.d_name), ⟨e.is_dir⟩⟩) := by
  obtain ⟨hnew, hn0⟩ := string_list_new_noFail hn
  cases ext with
  | none =>
    obtain ⟨l, h1, hloop, hw, hused⟩ :=
      dir_list_new_win32_loop_truncating PATH_MAX dir none include_dirs (by simp) entries _ _
        WF_fresh hn0
    refine ⟨l, h1, ?_, hw, ?_⟩
    · unfold dir_list_new_win32
      rw [hnew]
      simp only [hopen]
      exact hloop
    · rw [hused]
      simp [string_list.used, filter_list]
  | some f =>
    obtain ⟨fl, h2, fl0, hsplit, hn2, hwf, hfl, hwf0, hfused⟩ := filter_list_noFail f _ hn0
    obtain ⟨l, h1, hloop, hw, hused⟩ :=
      dir_list_new_win32_loop_truncating PATH_MAX dir (some fl) include_dirs
        (by intro x hx; simp only [Option.some.injEq] at hx; subst hx; exact hwf)
        entries _ _ WF_fresh hn2
    refine ⟨l, h1, ?_, hw, ?_⟩
    · unfold dir_list_new_win32
      rw [hnew]
      simp only [hsplit, hopen]
      exact hloop
    · rw [hused, hfl, entry_accepted_win32_congr PATH_MAX fl fl0 hwf hwf0 hfused]
      simp [string_list.used]

theorem take_ne_of_lt (s : List Char) (n : Nat) (hn : n < s.length) : s.take n ≠ s := by
  intro hc
  have := congrArg List.length hc
  rw [List.length_take] at this
  omega

/-- C17, counterexample. With `PATH_MAX = 4096`, the root directory written as
4095 slashes and the file `file.zip` in it, the POSIX scan without filter
appends the first 4095 characters of the join, which is not the join. -/
theorem dir_list_new_join_counterexample :
    ∃ l h1, dir_list_new 4096 (fun _ => some [⟨"file.zip".toList, false⟩])
        (List.replicate 4095 '/') none false [] = .ok (some l, h1) ∧
      l.used = [some ⟨(List.replicate 4095 '/' ++ '/' :: "file.zip".toList).take 4095,
        ⟨false⟩⟩] ∧
      (List.replicate 4095 '/' ++ '/' :: "file.zip".toList).take 4095 ≠
        List.replicate 4095 '/' ++ '/' :: "file.zip".toList := by
  obtain ⟨l, h1, hrun, _, hused⟩ :=
    dir_list_new_truncating 4096 (fun _ => some [⟨"file.zip".toList, false⟩])
      (List.replicate 4095 '/') none false [] [⟨"file.zip".toList, false⟩] rfl (by decide)
  refine ⟨l, h1, hrun, ?_, ?_⟩
  · rw [hused]
    have hf : List.filter (entry_accepted 4096 (filter_list none) false)
        [⟨"file.zip".toList, false⟩] = [⟨"file.zip".toList, false⟩] := by decide
    rw [hf]
    rfl
  · apply take_ne_of_lt
    simp only [List.length_append, List.length_replicate, List.length_cons]
    omega

/-- C17, amended. On every run on which `dir_list_new` returns a present list
for a directory that opens, the string appended for each entry the scan
accepts is the first `PATH_MAX - 1` characters of the join
`dir ++ separator ++ name` (separator `/` on the POSIX branch, `\` on the
Windows branch), with the entry's is-directory flag as attribute; that is the
full join whenever the join is shorter than `PATH_MAX`. When no allocation
fails the scan does return a present list, with the allow-list of the
filter. -/
theorem dir_list_new_appended_string (PATH_MAX : Nat) (dir : List Char)
    (ext : Option (List Char)) (include_dirs : Bool) (h : Heap) (entries : List dirent) :
    (∀ (opendir : List Char → Option (List dirent)) l h1, opendir dir = some entries →
      dir_list_new PATH_MAX opendir dir ext include_dirs h = .ok (some l, h1) →
      ∃ ext_list : Option string_list,
        l.used = (entries.filter (entry_accepted PATH_MAX ext_list include_dirs)).map
          (fun e => some ⟨(dir ++ '/' :: e.d_name).take (PATH_MAX - 1), ⟨e.is_dir⟩⟩)) ∧
    (∀ (find_first : List Char → Option (List dirent)) l h1,
      find_first (snprintf PATH_MAX (dir ++ ['\\', '*'])) = some entries →
      dir_list_new_win32 PATH_MAX find_first dir ext include_dirs h = .ok (some l, h1) →
      ∃ ext_list : Option string_list,
        l.used = (entries.filter (entry_accepted_win32 PATH_MAX ext_list include_dirs)).map
          (fun e => some ⟨(dir ++ '\\' :: e.d_name).take (PATH_MAX - 1), ⟨e.is_dir⟩⟩)) ∧
    (NoFail h → ∀ opendir : List Char → Option (List dirent), opendir dir = some entries →
      ∃ l h1, dir_list_new PATH_MAX opendir dir ext include_dirs h = .ok (some l, h1) ∧
        l.used = (entries.filter (entry_accepted PATH_MAX (filter_list ext) include_dirs)).map
          (fun e => some ⟨(dir ++ '/' :: e.d_name).take (PATH_MAX - 1), ⟨e.is_dir⟩⟩)) ∧
    (NoFail h → ∀ find_first : List Char → Option (List dirent),
      find_first (snprintf PATH_MAX (dir ++ ['\\', '*'])) = some entries →
      ∃ l h1, dir_list_new_win32 PATH_MAX find_first dir ext include_dirs h =
          .ok (some l, h1) ∧
        l.used =
          (entries.filter (entry_accepted_win32 PATH_MAX (filter_list ext) include_dirs)).map
            (fun e => some ⟨(dir ++ '\\' :: e.d_name).take (PATH_MAX - 1), ⟨e.is_dir⟩⟩)) ∧
    (∀ (sep : Char) (name : List Char), (dir ++ sep :: name).length < PATH_MAX →
      (dir ++ sep :: name).take (PATH_MAX - 1) = dir ++ sep :: name) := by
  refine ⟨?_, ?_, ?_, ?_, ?_⟩
  · intro opendir l h1 hopen hrun
    obtain ⟨ext_list, _, hused⟩ :=
      dir_list_new_any PATH_MAX opendir dir ext include_dirs h h1 entries l hopen hrun
    exact ⟨ext_list, hused⟩
  · intro find_first l h1 hopen hrun
    obtain ⟨ext_list, _, hused⟩ :=
      dir_list_new_win32_any PATH_MAX find_first dir ext include_dirs h h1 entries l hopen hrun
    exact ⟨ext_list, hused⟩
  · intro hn opendir hopen
    obtain ⟨l, h1, hrun, _, hused⟩ :=
      dir_list_new_truncating PATH_MAX opendir dir ext include_dirs h entries hopen hn
    exact ⟨l, h1, hrun, hused⟩
  · intro hn find_first hopen
    obtain ⟨l, h1, hrun, _, hused⟩ :=
      dir_list_new_win32_truncating PATH_MAX find_first dir ext include_dirs h entries hopen hn
    exact ⟨l, h1, hrun, hused⟩
  · intro sep name hfit
    exact List.take_of_length_le (by omega)

/-- Witness for C17: the Windows scan of the example directory `d` with the
filter `zip|7z` and directories included appends `d\a.zip`, `d\b.7z` and the
directory entries, each a full join. -/
theorem dir_list_new_appended_string_witness :
    NoFail [] ∧
    ∃ l h1, dir_list_new_win32 4096 (fun _ => some sample_entries) "d".toList
        (some "zip|7z".toList) true [] = .ok (some l, h1) ∧
      l.used = [some ⟨"d\\.".toList, ⟨true⟩⟩, some ⟨"d\\..".toList, ⟨true⟩⟩,
        some ⟨"d\\a.zip".toList, ⟨false⟩⟩, some ⟨"d\\b.7z".toList, ⟨false⟩⟩,
        some ⟨"d\\sub".toList, ⟨true⟩⟩] := by
  refine ⟨by decide, ?_⟩
  obtain ⟨l, h1, hrun, hused⟩ :=
    (dir_list_new_appended_string 4096 "d".toList (some "zip|7z".toList) true []
      sample_entries).2.2.2.1 (by decide) (fun _ => some sample_entries) rfl
  exact ⟨l, h1, hrun, hused.trans (by decide)⟩

/-! ### C18: a scan whose allow-list cannot be built -/

/-- C18, the code at the failing input. Scanning the directory `d`, which
holds the file `c.txt`, with the filter `zip`: when the first allocation of
`string_split` fails and every other allocation succeeds, `dir_list_new`
returns a present list holding `d/c.txt`, although neither `txt` nor `.txt`
is a token of the filter. -/
theorem dir_list_new_filter_dropped :
    dir_list_new 4096 (fun _ => some [⟨"c.txt".toList, false⟩]) "d".toList
        (some "zip".toList) false [true, true, false] =
      .ok (some ⟨some ⟨"d/c.txt".toList, ⟨false⟩⟩ :: List.replicate 31 none, 1, 32⟩, []) ∧
    string_split "zip".toList ['|'] [false] = .ok (none, []) ∧
    maximal_tokens "zip".toList ['|'] = ["zip".toList] ∧
    path_get_extension "c.txt".toList = "txt".toList ∧
    "txt".toList ∉ maximal_tokens "zip".toList ['|'] ∧
    ".txt".toList ∉ maximal_tokens "zip".toList ['|'] := by
  decide

/-! ### C19: directory name and base name recompose the path -/

/-- C19. For a path that contains a `/` or a `\` and a `size` above its
length, `fill_pathname_basedir` and `fill_pathname_base` both complete, and
their outputs put back around the separator they cut at (the last `/` when the
path has a `/`, else the last `\`) give the path: both cut at one position. -/
theorem fill_pathname_recompose (out1 out2 path : List Char) (size : Nat)
    (hsep : '/' ∈ path ∨ '\\' ∈ path) (hfit : path.length < size) :
    ∃ dn bn, fill_pathname_basedir out1 path size = .ok dn ∧
      fill_pathname_base out2 path size = .ok bn ∧
      dn ++ (if '/' ∈ path then '/' else '\\') :: bn = path ∧
      dn.length + 1 + bn.length = path.length := by
  have key : ∃ p c, last_separator path = some p ∧ c = (if '/' ∈ path then '/' else '\\') ∧
      path = path.take p ++ c :: path.drop (p + 1) := by
    unfold last_separator
    cases hs : strrchr path '/' with
    | some p =>
      exact ⟨p, '/', rfl, by rw [if_pos (mem_of_strrchr_some hs)],
        (strrchr_some path '/' p hs).2.1⟩
    | none =>
      have hno : '/' ∉ path := (strrchr_none_iff path '/').mp hs
      have hb : '\\' ∈ path := hsep.resolve_left hno
      cases hq : strrchr path '\\' with
      | none => exact absurd hb ((strrchr_none_iff path '\\').mp hq)
      | some q =>
        exact ⟨q, '\\', rfl, by rw [if_neg hno], (strrchr_some path '\\' q hq).2.1⟩
  obtain ⟨p, c, hlast, hc, hpath⟩ := key
  have hdrop : (path.drop (p + 1)).length < size := by
    rw [List.length_drop]; omega
  refine ⟨path.take p, path.drop (p + 1), ?_, ?_, ?_, ?_⟩
  · simp only [fill_pathname_basedir, rarch_assert, strlcpy_fits _ _ _ hfit, decide_eq_true_eq,
      if_pos hfit, hlast]
  · simp only [fill_pathname_base, rarch_assert, hlast, strlcpy_fits _ _ _ hdrop,
      decide_eq_true_eq, if_pos hdrop]
  · rw [← hc]
    exact hpath.symm
  · have := congrArg List.length hpath
    simp only [List.length_append, List.length_cons] at this
    omega

/-- Witness for C19: `/a/b/c.txt` splits into `/a/b` and `c.txt`, and
`C:\games\rom.bin` into `C:\games` and `rom.bin`. -/
theorem fill_pathname_recompose_witness :
    (∃ dn bn, fill_pathname_basedir [] "/a/b/c.txt".toList 4096 = .ok dn ∧
      fill_pathname_base [] "/a/b/c.txt".toList 4096 = .ok bn ∧
      dn ++ (if '/' ∈ "/a/b/c.txt".toList then '/' else '\\') :: bn = "/a/b/c.txt".toList ∧
      dn.length + 1 + bn.length = "/a/b/c.txt".toList.length) ∧
    fill_pathname_basedir [] "C:\\games\\rom.bin".toList 4096 = .ok "C:\\games".toList ∧
    fill_pathname_base [] "C:\\games\\rom.bin".toList 4096 = .ok "rom.bin".toList :=
  ⟨fill_pathname_recompose [] [] "/a/b/c.txt".toList 4096 (by decide) (by decide),
    by decide, by decide⟩

/-! ### C20: `string_split` inverts joining -/

theorem maximal_tokens_join_with (d : Char) (tokens : List (List Char))
    (htok : ∀ t ∈ tokens, t ≠ [] ∧ d ∉ t) :
    maximal_tokens (join_with d tokens) [d] = tokens := by
  induction tokens with
  | nil => exact maximal_tokens_nil [d]
  | cons t rest ih =>
    obtain ⟨hne, hd⟩ := htok t (List.mem_cons_self _ _)
    have hrest : ∀ u ∈ rest, u ≠ [] ∧ d ∉ u := fun u hu => htok u (List.mem_cons_of_mem _ hu)
    have hfree : ∀ x ∈ t, ¬ ((fun c => [d].contains c) x = true) := by
      intro x hx hc
      have : x = d := by simpa using hc
      exact hd (this ▸ hx)
    have hkeep : (!t.isEmpty) = true := by
      cases t with
      | nil => exact absurd rfl hne
      | cons _ _ => rfl
    cases rest with
    | nil =>
      simp only [join_with, maximal_tokens]
      rw [List.splitOnP_eq_single _ _ hfree]
      simp only [List.filter_cons, hkeep, if_true, List.filter_nil]
    | cons u us =>
      have ih1 := ih hrest
      have hjoin : join_with d (t :: u :: us) = t ++ d :: join_with d (u :: us) := rfl
      rw [hjoin]
      unfold maximal_tokens at ih1 ⊢
      rw [List.splitOnP_first _ _ hfree d (by simp)]
      simp only [List.filter_cons, hkeep, if_true]
      rw [ih1]

/-- C20. For a delimiter character `d` and tokens that are non-empty and free
of `d`, when no allocation fails `string_split` of the tokens joined by `d`
returns a list of as many elements as there are tokens, holding the tokens in
order (also beyond 32 tokens, and the empty list for no token). -/
theorem string_split_join (d : Char) (tokens : List (List Char)) (h : Heap) (hn : NoFail h)
    (htok : ∀ t ∈ tokens, t ≠ [] ∧ d ∉ t) :
    ∃ l h1, string_split (join_with d tokens) [d] h = .ok (some l, h1) ∧
      l.size = tokens.length ∧
      l.used = tokens.map (fun t => some ⟨t, attr_zero⟩) := by
  obtain ⟨l, h1, hsplit, hw, _, hused⟩ := string_split_noFail (join_with d tokens) [d] h hn
  rw [maximal_tokens_join_with d tokens htok] at hused
  exact ⟨l, h1, hsplit, by rw [← WF_used_length hw, hused]; simp, hused⟩

/-- Witness for C20: 33 tokens `a` joined by `|` split back into 33 elements,
and `zip|7z|cue` into `zip`, `7z`, `cue`. -/
theorem string_split_join_witness :
    (∃ l h1, string_split (join_with '|' (List.replicate 33 ['a'])) ['|'] [] = .ok (some l, h1) ∧
      l.size = (List.replicate 33 ['a']).length ∧
      l.used = (List.replicate 33 ['a']).map (fun t => some ⟨t, attr_zero⟩)) ∧
    join_with '|' ["zip".toList, "7z".toList, "cue".toList] = "zip|7z|cue".toList ∧
    (∃ l h1, string_split "zip|7z|cue".toList ['|'] [] = .ok (some l, h1) ∧
      l.used = [some ⟨"zip".toList, attr_zero⟩, some ⟨"7z".toList, attr_zero⟩,
        some ⟨"cue".toList, attr_zero⟩]) := by
  refine ⟨string_split_join '|' (List.replicate 33 ['a']) [] (by decide) (by decide),
    by decide, ?_⟩
  obtain ⟨l, h1, hrun, _, hused⟩ :=
    string_split_join '|' ["zip".toList, "7z".toList, "cue".toList] [] (by decide) (by decide)
  exact ⟨l, h1, hrun, hused⟩

end FilePath
